import Mathlib

/-!
# Advent of Code solvers: `2016/day22.go` and `2018/day23.go`

A shallow embedding of the two Go programs and theorems about them.

Conventions of the embedding.

* A Go `string` is modelled by the list of its bytes, written `List Char`
  (one `Char` per byte; the puzzle inputs are ASCII).
* A Go `map` is modelled by an association list with pairwise distinct keys;
  the order of the list is the order in which `range` visits the map, which
  Go leaves unspecified.  A missing key reads as the zero value.
* Go's `int` is the 64-bit two's complement integer (the constant
  `9999999999999` in `day23.go` does not compile otherwise); every `int`
  operation is followed by `Day23.wrap`.  `uint8` and `uint16` operations
  are taken modulo `256` and `65536`.
* A `panic` or `log.Fatalf` is the result `none`.
-/

set_option autoImplicit false

/-! ## Go maps -/

namespace GoMap

/-- Reading `m[k]`: the value stored under `k`, the zero value when `k` is
not a key. -/
def get {κ ν : Type} [DecidableEq κ] [Zero ν] : List (κ × ν) → κ → ν
  | [], _ => 0
  | (k', v') :: m, k => if k' = k then v' else get m k

/-- The assignment `m[k] = v`: the entry of `k` is overwritten when there is
one, and a new entry is added otherwise. -/
def set {κ ν : Type} [DecidableEq κ] : List (κ × ν) → κ → ν → List (κ × ν)
  | [], k, v => [(k, v)]
  | (k', v') :: m, k, v => if k' = k then (k', v) :: m else (k', v') :: set m k v

/-- The keys of a map, in iteration order. -/
def keys {κ ν : Type} (m : List (κ × ν)) : List κ := m.map Prod.fst

end GoMap

/-! ## The Go library calls the programs make -/

namespace strings

/-- Leftmost non-overlapping cut of `s` at the occurrences of `sep`; `skip`
is the number of bytes of an occurrence just found that are still to be passed
over. -/
def splitFrom (sep : List Char) : List Char → Nat → List (List Char)
  | [], _ => [[]]
  | _ :: s, skip + 1 => splitFrom sep s skip
  | c :: s, 0 =>
    if sep.isPrefixOf (c :: s) then
      [] :: splitFrom sep s (sep.length - 1)
    else
      match splitFrom sep s 0 with
      | p :: ps => (c :: p) :: ps
      | [] => [[c]]

/-- `strings.Split(s, sep)` for a non-empty separator: the pieces of `s`
between the occurrences of `sep`, found from left to right. -/
def Split (s sep : List Char) : List (List Char) := splitFrom sep s 0

end strings

namespace strconv

/-- The value of a decimal digit byte. -/
def digitOf (c : Char) : Option Nat :=
  if 48 ≤ c.toNat ∧ c.toNat ≤ 57 then some (c.toNat - 48) else none

/-- `strconv.ParseUint(s, 10, 64)` on a non-empty string, from the accumulator
`acc`: `none` is a syntax error, and the scan stops with `2^64 - 1` at the
first digit that overflows. -/
def parseUint : List Char → Nat → Option Nat
  | [], acc => some acc
  | c :: s, acc =>
    match digitOf c with
    | none => none
    | some d =>
      if acc * 10 + d ≥ 18446744073709551616 then some 18446744073709551615
      else parseUint s (acc * 10 + d)

/-- The value returned by `strconv.Atoi(s)` (the error is dropped by every
caller): `0` on a syntax error, the nearest `int` on a range error. -/
def Atoi (s : List Char) : Int :=
  match s with
  | [] => 0
  | c :: r =>
    let body := if c = '-' ∨ c = '+' then r else c :: r
    if body = [] then 0
    else
      match parseUint body 0 with
      | none => 0
      | some n =>
        if c = '-' then
          if n > 9223372036854775808 then -9223372036854775808 else -(n : Int)
        else
          if n ≥ 9223372036854775808 then 9223372036854775807 else (n : Int)

/-- The decimal digit byte of `d < 10`. -/
def digitChar (d : Nat) : Char := Char.ofNat (48 + d)

/-- The decimal numeral of a natural number. -/
def showNat (n : Nat) : List Char :=
  if n = 0 then ['0'] else (Nat.digits 10 n).reverse.map digitChar

/-- The decimal numeral of an integer, with a leading `-` when negative. -/
def showInt (i : Int) : List Char :=
  if i < 0 then '-' :: showNat i.natAbs else showNat i.natAbs

/-- A byte is one of the ten decimal digits. -/
def IsDigit (c : Char) : Prop := 48 ≤ c.toNat ∧ c.toNat ≤ 57

instance (c : Char) : Decidable (IsDigit c) := by
  unfold IsDigit; infer_instance

/-- The number read from big-endian digits, starting from `acc`. -/
def valueFrom (acc : Nat) (ds : List Nat) : Nat :=
  ds.foldl (fun a d => a * 10 + d) acc

end strconv

namespace regexp

/-- The two character classes of the node pattern: `[0-9]` and the space. -/
inductive Class where
  | digit
  | space
  deriving DecidableEq, Repr

/-- Whether a byte belongs to a class. -/
def Class.test : Class → Char → Bool
  | .digit, c => decide (strconv.IsDigit c)
  | .space, c => decide (c = ' ')

/-- The pieces a pattern of the shape used by `day22.go` is a sequence of: a
literal byte, or `k+` for a class `k`, inside a capture group or not. -/
inductive Tok where
  | lit (c : Char)
  | plus (k : Class) (capture : Bool)
  deriving DecidableEq, Repr

/-- The language of a sequence of pieces, with the text of each capture
group: `Matches ts m caps` says that `m` as a whole matches `ts` and that the
groups matched `caps`. -/
def Matches : List Tok → List Char → List (List Char) → Prop
  | [], m, caps => m = [] ∧ caps = []
  | .lit c :: ts, m, caps => ∃ r, m = c :: r ∧ Matches ts r caps
  | .plus k capture :: ts, m, caps =>
    ∃ d r caps', d ≠ [] ∧ (∀ c ∈ d, k.test c = true) ∧ m = d ++ r ∧ Matches ts r caps' ∧
      caps = if capture then d :: caps' else caps'

/-- Greedy match of a sequence of pieces at the start of `s`: the capture
groups and what is left of `s`. -/
def matchToks : List Tok → List Char → Option (List (List Char) × List Char)
  | [], s => some ([], s)
  | .lit _ :: _, [] => none
  | .lit c :: ts, d :: s => if c = d then matchToks ts s else none
  | .plus k capture :: ts, s =>
    let run := s.takeWhile k.test
    if run = [] then none
    else
      match matchToks ts (s.dropWhile k.test) with
      | none => none
      | some (caps, rest) => some (if capture then run :: caps else caps, rest)

/-- `FindStringSubmatch` for a pattern given by its pieces: the leftmost
match and its capture groups, `[]` (Go's `nil`) when there is no match. -/
def FindStringSubmatch (ts : List Tok) : List Char → List (List Char)
  | [] =>
    match matchToks ts [] with
    | some (caps, _) => [] :: caps
    | none => []
  | c :: s =>
    match matchToks ts (c :: s) with
    | some (caps, rest) => (c :: s).take ((c :: s).length - rest.length) :: caps
    | none => FindStringSubmatch ts s

/-- A line contains a match of the pattern. -/
def ContainsMatch (ts : List Tok) (l : List Char) : Prop :=
  ∃ pre m post caps, l = pre ++ m ++ post ∧ Matches ts m caps

/-- A piece can begin with the byte `c`. -/
def Tok.starts : Tok → Char → Prop
  | .lit c', c => c = c'
  | .plus k _, c => k.test c = true

/-- The piece `t` cannot begin with a byte of the class `k`. -/
def Tok.apart (k : Class) : Tok → Prop
  | .lit c => k.test c = false
  | .plus k' _ => k ≠ k'

instance (k : Class) (t : Tok) : Decidable (Tok.apart k t) := by
  cases t <;> unfold Tok.apart <;> infer_instance

/-- Every `k+` of the pattern is followed by a piece that cannot begin with a
byte of `k`, so that a greedy run ends where every match of `k+` ends. -/
def Det : List Tok → Prop
  | [] => True
  | .lit _ :: ts => Det ts
  | .plus _ _ :: [] => False
  | .plus k _ :: t :: ts => Tok.apart k t ∧ Det (t :: ts)

instance decDet : (ts : List Tok) → Decidable (Det ts)
  | [] => isTrue trivial
  | .lit _ :: ts => by unfold Det; exact decDet ts
  | .plus _ _ :: [] => isFalse (by simp [Det])
  | .plus k _ :: t :: ts => by
    unfold Det
    have := decDet (t :: ts)
    infer_instance

/-- The number of capture groups of a pattern. -/
def groups : List Tok → Nat
  | [] => 0
  | .lit _ :: ts => groups ts
  | .plus _ capture :: ts => (if capture then 1 else 0) + groups ts

end regexp

/-! ## 2016, day 22: the storage grid -/

namespace Day22

/-- `type Coord struct { X, Y uint8 }`: both fields are below `256`. -/
structure Coord where
  X : Nat
  Y : Nat
  deriving DecidableEq, Repr

/-- `type State map[Coord]uint16`: the values are below `65536`. -/
abbrev State := List (Coord × Nat)

/-- The pattern compiled at line 89,
`/dev/grid/node-x([0-9]+)-y([0-9]+) +([0-9]+)T +([0-9]+)T +[0-9]+T +[0-9]+%`. -/
def nodePattern : List regexp.Tok :=
  "/dev/grid/node-x".toList.map regexp.Tok.lit ++
  [.plus .digit true, .lit '-', .lit 'y', .plus .digit true,
   .plus .space false, .plus .digit true, .lit 'T',
   .plus .space false, .plus .digit true, .lit 'T',
   .plus .space false, .plus .digit false, .lit 'T',
   .plus .space false, .plus .digit false, .lit '%']

/-- The loop of `parse` (lines 90-102) from the maps built so far; `none` is
the `log.Fatalf` of line 93. -/
def parseLoop : List (List Char) → State → State → Option (State × State)
  | [], capacity, usage => some (usage, capacity)
  | l :: input, capacity, usage =>
    let parts := regexp.FindStringSubmatch nodePattern l
    if parts.length ≠ 5 then none
    else
      let x := strconv.Atoi (parts.getD 1 [])
      let y := strconv.Atoi (parts.getD 2 [])
      let c := strconv.Atoi (parts.getD 3 [])
      let u := strconv.Atoi (parts.getD 4 [])
      let key : Coord := ⟨(x % 256).toNat, (y % 256).toNat⟩
      parseLoop input (GoMap.set capacity key (c % 65536).toNat)
        (GoMap.set usage key (u % 65536).toNat)

/-- `func parse(input []string) (State, State)`: the usage map and the
capacity map. -/
def parse (input : List (List Char)) : Option (State × State) :=
  parseLoop input [] []

/-- The columns of a node line, and the number of extra spaces before each of
the four right-aligned columns. -/
structure Node where
  x : Nat
  y : Nat
  size : Nat
  used : Nat
  avail : Nat
  pct : Nat
  pad1 : Nat
  pad2 : Nat
  pad3 : Nat
  pad4 : Nat
  deriving DecidableEq, Repr

/-- The line of `df` output for a node:
`/dev/grid/node-x<x>-y<y> <size>T <used>T <avail>T <pct>%`, the columns
separated by one or more spaces. -/
def Node.line (n : Node) : List Char :=
  "/dev/grid/node-x".toList ++ strconv.showNat n.x ++ ['-', 'y'] ++ strconv.showNat n.y
    ++ List.replicate (n.pad1 + 1) ' ' ++ strconv.showNat n.size ++ ['T']
    ++ List.replicate (n.pad2 + 1) ' ' ++ strconv.showNat n.used ++ ['T']
    ++ List.replicate (n.pad3 + 1) ' ' ++ strconv.showNat n.avail ++ ['T']
    ++ List.replicate (n.pad4 + 1) ' ' ++ strconv.showNat n.pct ++ ['%']

/-- The grid node a line names. -/
def Node.key (n : Node) : Coord := ⟨n.x, n.y⟩

/-- The nine lines of the demo grid (lines 182-190 of `main`). -/
def demoLines : List (List Char) :=
  ["/dev/grid/node-x0-y0   10T    8T     2T   80%".toList,
   "/dev/grid/node-x0-y1   11T    6T     5T   54%".toList,
   "/dev/grid/node-x0-y2   32T   28T     4T   87%".toList,
   "/dev/grid/node-x1-y0    9T    7T     2T   77%".toList,
   "/dev/grid/node-x1-y1    8T    0T     8T    0%".toList,
   "/dev/grid/node-x1-y2   11T    7T     4T   63%".toList,
   "/dev/grid/node-x2-y0   10T    6T     4T   60%".toList,
   "/dev/grid/node-x2-y1    9T    8T     1T   88%".toList,
   "/dev/grid/node-x2-y2    9T    6T     3T   66%".toList]

/-- The columns of the nine lines of the demo grid. -/
def demoNodes : List Node :=
  [⟨0, 0, 10, 8, 2, 80, 2, 3, 4, 2⟩, ⟨0, 1, 11, 6, 5, 54, 2, 3, 4, 2⟩,
   ⟨0, 2, 32, 28, 4, 87, 2, 2, 4, 2⟩, ⟨1, 0, 9, 7, 2, 77, 3, 3, 4, 2⟩,
   ⟨1, 1, 8, 0, 8, 0, 3, 3, 4, 3⟩, ⟨1, 2, 11, 7, 4, 63, 2, 3, 4, 2⟩,
   ⟨2, 0, 10, 6, 4, 60, 2, 3, 4, 2⟩, ⟨2, 1, 9, 8, 1, 88, 3, 3, 4, 2⟩,
   ⟨2, 2, 9, 6, 3, 66, 3, 3, 4, 2⟩]

/-- `type Move struct { From, To Coord }`. -/
structure Move where
  From : Coord
  To : Coord
  deriving DecidableEq, Repr

/-- `func findAllMoves(usage, capacity State) []Move`: the two nested `range`
loops visit the entries of `usage` and `capacity` in list order, and
`usage[t]+u` is a `uint16` sum. -/
def findAllMoves (usage capacity : State) : List Move :=
  usage.flatMap fun fu =>
    if fu.2 = 0 then []
    else
      capacity.flatMap fun tc =>
        if fu.1 = tc.1 then []
        else if (GoMap.get usage tc.1 + fu.2) % 65536 ≤ tc.2 then [⟨fu.1, tc.1⟩]
        else []

/-- The ordered pairs `(A, B)` of distinct nodes with `usage[A] != 0` and
`usage[A] + usage[B] <= capacity[B]`: the viable pairs of the puzzle. -/
def viablePairs (usage capacity : State) : Finset (Coord × Coord) :=
  ((GoMap.keys usage).toFinset ×ˢ (GoMap.keys usage).toFinset).filter fun p =>
    p.1 ≠ p.2 ∧ GoMap.get usage p.1 ≠ 0 ∧
      GoMap.get usage p.1 + GoMap.get usage p.2 ≤ GoMap.get capacity p.2

/-- The usage map `parse` returns for the demo grid. -/
def demoUsage : State :=
  [(⟨0, 0⟩, 8), (⟨0, 1⟩, 6), (⟨0, 2⟩, 28), (⟨1, 0⟩, 7), (⟨1, 1⟩, 0), (⟨1, 2⟩, 7),
   (⟨2, 0⟩, 6), (⟨2, 1⟩, 8), (⟨2, 2⟩, 6)]

/-- The capacity map `parse` returns for the demo grid. -/
def demoCapacity : State :=
  [(⟨0, 0⟩, 10), (⟨0, 1⟩, 11), (⟨0, 2⟩, 32), (⟨1, 0⟩, 9), (⟨1, 1⟩, 8), (⟨1, 2⟩, 11),
   (⟨2, 0⟩, 10), (⟨2, 1⟩, 9), (⟨2, 2⟩, 9)]

/-- `type Board struct { Target Coord; Usage, Capacity State }`. -/
structure Board where
  Target : Coord
  Usage : State
  Capacity : State
  deriving DecidableEq, Repr

/-- `type BoardScore struct { Child Board; Score int }`. -/
structure BoardScore where
  Child : Board
  Score : Int
  deriving DecidableEq, Repr

/-- `type BoardList []BoardScore`. -/
abbrev BoardList := List BoardScore

/-- The moves `findAdjacentMoves` appends for one entry `f, u` of `usage`
(lines 63-79): the coordinates are `uint8` and the sums `uint16`. -/
def adjacentMovesFrom (usage capacity : State) (f : Coord) (u : Nat) : List Move :=
  if u = 0 then []
  else
    let up : Coord := ⟨f.X, (f.Y + 1) % 256⟩
    let down : Coord := ⟨f.X, (f.Y + 255) % 256⟩
    let left : Coord := ⟨(f.X + 1) % 256, f.Y⟩
    let right : Coord := ⟨(f.X + 255) % 256, f.Y⟩
    (if (GoMap.get usage up + u) % 65536 ≤ GoMap.get capacity up then [⟨f, up⟩] else []) ++
    (if (GoMap.get usage down + u) % 65536 ≤ GoMap.get capacity down then [⟨f, down⟩]
      else []) ++
    (if (GoMap.get usage left + u) % 65536 ≤ GoMap.get capacity left then [⟨f, left⟩]
      else []) ++
    (if (GoMap.get usage right + u) % 65536 ≤ GoMap.get capacity right then [⟨f, right⟩]
      else [])

/-- `func findAdjacentMoves(usage, capacity State) []Move`. -/
def findAdjacentMoves (usage capacity : State) : List Move :=
  usage.flatMap fun fu => adjacentMovesFrom usage capacity fu.1 fu.2

/-- `func (b Board) Win() bool`. -/
def Board.Win (b : Board) : Bool := decide (b.Target = ⟨0, 0⟩)

/-- `func (b Board) Valid() int`. -/
def Board.Valid (b : Board) : Int :=
  let x : Int := b.Target.X
  let y : Int := b.Target.Y
  x * x + y * y

/-- The child board `MakeMoves` builds for the move `m` (lines 123-137). -/
def Board.child (b : Board) (m : Move) : Board :=
  let transfer := GoMap.get b.Usage m.From
  { Target := if b.Target = m.From then m.To else b.Target
    Usage := b.Usage.map fun kv =>
      if kv.1 = m.From then (kv.1, 0)
      else if kv.1 = m.To then (kv.1, (transfer + GoMap.get b.Usage kv.1) % 65536)
      else kv
    Capacity := b.Capacity }

/-- The slice `ret` of `MakeMoves` before it is sorted (lines 120-141). -/
def Board.scored (b : Board) : BoardList :=
  (findAdjacentMoves b.Usage b.Capacity).flatMap fun m =>
    let child := b.child m
    let score := child.Valid
    if score ≥ 0 then [⟨child, score⟩] else []

/-- `func (b Board) MakeMoves() BoardList`, with `sort.Sort` as the stable
insertion sort the Go library runs on a short slice: the children by
non-increasing score. -/
def Board.MakeMoves (b : Board) : BoardList :=
  b.scored.insertionSort fun x y => x.Score ≥ y.Score

/-- The results `MakeMoves` may return for `b`: the map iteration order and
the order `sort.Sort` leaves among equal scores are not specified. -/
def Board.IsMakeMoves (b : Board) (children : BoardList) : Prop :=
  children.Perm b.MakeMoves ∧ children.Sorted fun x y => x.Score ≥ y.Score

instance (b : Board) (children : BoardList) : Decidable (b.IsMakeMoves children) := by
  unfold Board.IsMakeMoves; infer_instance

/-- A call of `EvalLoop` that has not reached `wg.Done()`: its receiver, its
`depth` argument, and the children its `for` loop has still to visit.  The
field `moves` is not a variable of the program: it is the number of moves made
from the start board to `board`. -/
structure Task where
  board : Board
  depth : Nat
  children : BoardList
  moves : Nat
  deriving DecidableEq, Repr

/-- The state shared by the goroutines of one `ProcessBoard` call: `winner`
and the calls of `EvalLoop` counted by the wait group.  The field `deepest` is
not a variable of the program: it is the greatest `moves` of a call started so
far. -/
structure Pool where
  winner : Nat
  tasks : List Task
  deepest : Nat
  deriving DecidableEq, Repr

/-- What the scheduler and the runtime decide at one step: which call runs
next, and the order in which `MakeMoves` returns the children of a board. -/
structure Pick where
  task : Nat
  order : Board → BoardList

/-- One step of the call numbered `p.task`: either one iteration of its loop,
the body between `wMtx.Lock()` and `wMtx.Unlock()` being atomic (lines
148-162), or `wg.Done()` when the loop is over.  `none` when there is no such
call or `p.order` is not a result `MakeMoves` may return. -/
def Pool.step (s : Pool) (p : Pick) : Option Pool :=
  match s.tasks.get? p.task with
  | none => none
  | some t =>
    match t.children with
    | [] => some { s with tasks := s.tasks.eraseIdx p.task }
    | childPair :: rest =>
      let child := childPair.Child
      let tasks := s.tasks.set p.task { t with children := rest }
      if s.winner = 0 ∨ t.depth < s.winner then
        if child.Win then
          some { s with winner := (t.depth + 1) % 256, tasks := tasks }
        else if child.IsMakeMoves (p.order child) then
          some { winner := s.winner
                 tasks := ⟨child, (t.depth + 1) % 256, p.order child, t.moves + 1⟩ :: tasks
                 deepest := max s.deepest (t.moves + 1) }
        else none
      else some { s with tasks := tasks }

/-- The steps of a schedule, one after the other. -/
def Pool.run : Pool → List Pick → Option Pool
  | s, [] => some s
  | s, p :: sched =>
    match s.step p with
    | none => none
    | some s' => s'.run sched

/-- The pool in which `ProcessBoard` leaves the search when its own call
`b.EvalLoop(&winner, &mtx, &wg, 0)` starts (lines 169-175). -/
def Pool.init (b : Board) (order : Board → BoardList) : Pool :=
  ⟨0, [⟨b, 0, order b, 0⟩], 0⟩

/-- `func (b Board) ProcessBoard() uint8` under a schedule: the value of
`winner` when `wg.Wait()` returns, that is when no call of `EvalLoop` is left;
`none` when the schedule is not one of a complete run. -/
def Board.ProcessBoard (b : Board) (order : Board → BoardList) (sched : List Pick) :
    Option Nat :=
  if b.IsMakeMoves (order b) then
    match (Pool.init b order).run sched with
    | some ⟨winner, [], _⟩ => some winner
    | _ => none
  else none

/-- The greatest number of moves of a call of `EvalLoop` started in the run of
a schedule (`0` when the schedule cannot be run). -/
def Board.deepest (b : Board) (order : Board → BoardList) (sched : List Pick) : Nat :=
  match (Pool.init b order).run sched with
  | some s => s.deepest
  | none => 0

/-- The board `c` is reached from `b` by `n` successive moves of
`findAdjacentMoves`. -/
def Reach : Nat → Board → Board → Prop
  | 0, b, c => b = c
  | n + 1, b, c => ∃ m ∈ findAdjacentMoves b.Usage b.Capacity, Reach n (b.child m) c

/-- A won board is reached from `b` by `k >= 1` moves and by no smaller
positive number of moves. -/
def LeastWin (b : Board) (k : Nat) : Prop :=
  1 ≤ k ∧ (∃ c, Reach k b c ∧ c.Win = true) ∧
    ∀ j c, 1 ≤ j → j < k → Reach j b c → c.Win = false

/-- The board `c` is reached from `b` by `n` moves, none of the `n` boards
after `b` being won. -/
def Walk : Nat → Board → Board → Prop
  | 0, b, c => b = c
  | n + 1, b, c =>
    ∃ m ∈ findAdjacentMoves b.Usage b.Capacity, (b.child m).Win = false ∧ Walk n (b.child m) c

/-- The board reached by making the given moves one after the other, provided
each is a move of `findAdjacentMoves` on the board it is made on. -/
def Board.follow : Board → List Move → Option Board
  | b, [] => some b
  | b, m :: ms =>
    if m ∈ findAdjacentMoves b.Usage b.Capacity then (b.child m).follow ms else none

/-- The boards reached from the boards `bs` by exactly `n` moves. -/
def level : Nat → List Board → List Board
  | 0, bs => bs
  | n + 1, bs =>
    level n (bs.flatMap fun b =>
      (findAdjacentMoves b.Usage b.Capacity).map fun m => b.child m).dedup

/-- Some call has still to visit a child from which a won board is reached by
the moves that remain of `k`. -/
def Pending (k : Nat) (tasks : List Task) : Prop :=
  ∃ t ∈ tasks, t.moves < k ∧
    ∃ c ∈ t.children, ∃ won, Reach (k - t.moves - 1) c.Child won ∧ won.Win = true

/-- The invariant of a run in which no call was started more than `255` moves
deep, for a start board `b0` whose fewest moves are `k`: every call is on a
board reached by `moves` moves, with `depth = moves`; `winner` is `0` or at
least `k`; and either `winner` is `k` already or a call is pending on a
shortest way to a won board. -/
def Pool.Inv (b0 : Board) (k : Nat) (s : Pool) : Prop :=
  (∀ t ∈ s.tasks, Reach t.moves b0 t.board ∧ t.moves ≤ s.deepest ∧
      t.depth = t.moves % 256 ∧ ∀ c ∈ t.children, c ∈ t.board.MakeMoves) ∧
  (s.winner = 0 ∨ k ≤ s.winner) ∧
  ((1 ≤ s.winner ∧ s.winner ≤ k) ∨ Pending k s.tasks)

/-- The board reached by making the given moves one after the other, provided
each is a move of `findAdjacentMoves` on the board it is made on and leads to
a board that is not won. -/
def Board.walk : Board → List Move → Option Board
  | b, [] => some b
  | b, m :: ms =>
    if m ∈ findAdjacentMoves b.Usage b.Capacity ∧ (b.child m).Win = false then
      (b.child m).walk ms
    else none

/-- The four neighbours of a node, the coordinates taken modulo `256`. -/
def Coord.neighbours (f : Coord) : List Coord :=
  [⟨f.X, (f.Y + 1) % 256⟩, ⟨f.X, (f.Y + 255) % 256⟩, ⟨(f.X + 1) % 256, f.Y⟩,
    ⟨(f.X + 255) % 256, f.Y⟩]


/-- The sum of the usages of all nodes. -/
def State.total (s : State) : Nat := (s.map Prod.snd).sum


/-- What holds of the depths in every run, wrap-around or not: each call is on
a board reached by `moves` moves and its `uint8` depth is `moves` modulo `256`;
a recorded `winner` is, modulo `256`, a number of moves by which a won board is
reached. -/
def Pool.Sound (b0 : Board) (s : Pool) : Prop :=
  (∀ t ∈ s.tasks, Reach t.moves b0 t.board ∧ t.depth = t.moves % 256 ∧
      ∀ c ∈ t.children, c ∈ t.board.MakeMoves) ∧
  (s.winner ≠ 0 → ∃ n c, n % 256 = s.winner ∧ Reach n b0 c ∧ c.Win = true)


/-- The five-node grid after the spare unit of data has moved to `(1, 2)`. -/
def spinNext : Board :=
  ⟨⟨2, 0⟩,
   [(⟨0, 0⟩, 0), (⟨1, 0⟩, 0), (⟨2, 0⟩, 1), (⟨0, 2⟩, 0), (⟨1, 2⟩, 1)],
   [(⟨0, 0⟩, 1), (⟨1, 0⟩, 1), (⟨2, 0⟩, 1), (⟨0, 2⟩, 1), (⟨1, 2⟩, 1)]⟩

/-- The five-node grid after the target data has moved to `(1, 0)`. -/
def spinNear : Board :=
  ⟨⟨1, 0⟩,
   [(⟨0, 0⟩, 0), (⟨1, 0⟩, 1), (⟨2, 0⟩, 0), (⟨0, 2⟩, 1), (⟨1, 2⟩, 0)],
   [(⟨0, 0⟩, 1), (⟨1, 0⟩, 1), (⟨2, 0⟩, 1), (⟨0, 2⟩, 1), (⟨1, 2⟩, 1)]⟩

/-- The five-node grid after the target data has moved on to `(0, 0)`. -/
def spinWon : Board :=
  ⟨⟨0, 0⟩,
   [(⟨0, 0⟩, 1), (⟨1, 0⟩, 0), (⟨2, 0⟩, 0), (⟨0, 2⟩, 1), (⟨1, 2⟩, 0)],
   [(⟨0, 0⟩, 1), (⟨1, 0⟩, 1), (⟨2, 0⟩, 1), (⟨0, 2⟩, 1), (⟨1, 2⟩, 1)]⟩

/-! ### `EvalLoop` statement by statement -/

/-- The statement of `EvalLoop` a call is about to execute. -/
inductive PC where
  /-- The loop head (line 148): `wMtx.Lock()` of line 150 for the next child,
  or `wg.Done()` of line 165 when no child is left. -/
  | loop
  /-- The test `*winner == 0 || depth < *winner` of line 151. -/
  | test
  /-- The assignment `*winner = depth + 1` of line 153. -/
  | record
  /-- `wMtx.Unlock()` of line 154 or 161, followed by the next iteration. -/
  | unlockNext
  /-- `wMtx.Unlock()` of line 157. -/
  | unlockGo
  /-- `wg.Add(1)` of line 158. -/
  | add
  /-- `go child.EvalLoop(...)` of line 159. -/
  | spawn
  deriving DecidableEq, Repr

/-- The statements between `wMtx.Lock()` and `wMtx.Unlock()`. -/
def PC.critical : PC → Bool
  | .test | .record | .unlockNext | .unlockGo => true
  | _ => false

/-- The statements that read or write `*winner`. -/
def PC.touchesWinner : PC → Bool
  | .test | .record => true
  | _ => false

/-- A call of `EvalLoop` that has started and not returned: its receiver, its
`depth`, the children its loop has not finished with (the first is the
current one), the statement it is at, and whether it is the call made by
`ProcessBoard` itself. -/
structure Call where
  board : Board
  depth : Nat
  children : BoardList
  pc : PC
  root : Bool
  deriving DecidableEq, Repr

/-- The statement `ProcessBoard` is about to execute: `wg.Add(1)` (line 174),
the call `b.EvalLoop(...)` (line 175), `wg.Wait()` (line 176), or nothing
more once it has returned `winner`. -/
inductive MainPC where
  | announce
  | call
  | wait
  | returned
  deriving DecidableEq, Repr

/-- The variables of one `ProcessBoard` call: `winner`, whether `mtx` is
locked, the counter of `wg`, the running calls of `EvalLoop`, and where
`ProcessBoard` stands. -/
structure Sys where
  winner : Nat
  mutex : Bool
  wg : Int
  calls : List Call
  main : MainPC
  deriving DecidableEq, Repr

/-- What runs next: `ProcessBoard` itself (`who = none`) or the call numbered
`who`; `order` is the order in which `MakeMoves` returns children. -/
structure Act where
  who : Option Nat
  order : Board → BoardList

/-- The state in which `ProcessBoard` starts (line 169). -/
def Sys.init : Sys := ⟨0, false, 0, [], .announce⟩

/-- One statement of `ProcessBoard` on the board `b`.  `wg.Wait()` is reached
when the call of line 175 has returned, and returns when the counter is `0`;
`none` when it blocks. -/
def Sys.stepMain (b : Board) (s : Sys) (order : Board → BoardList) : Option Sys :=
  match s.main with
  | .announce => some { s with wg := s.wg + 1, main := .call }
  | .call =>
    if b.IsMakeMoves (order b) then
      some { s with calls := ⟨b, 0, order b, .loop, true⟩ :: s.calls, main := .wait }
    else none
  | .wait =>
    if s.wg = 0 ∧ s.calls.all (fun c => !c.root) then some { s with main := .returned }
    else none
  | .returned => none

/-- One statement of the call numbered `i`; `none` when there is no such call
or when it blocks in `wMtx.Lock()`. -/
def Sys.stepCall (s : Sys) (i : Nat) (order : Board → BoardList) : Option Sys :=
  match s.calls.get? i with
  | none => none
  | some c =>
    match c.pc, c.children with
    | .loop, [] => some { s with wg := s.wg - 1, calls := s.calls.eraseIdx i }
    | .loop, _ :: _ =>
      if s.mutex then none
      else some { s with mutex := true, calls := s.calls.set i { c with pc := .test } }
    | .test, childPair :: _ =>
      if s.winner = 0 ∨ c.depth < s.winner then
        if childPair.Child.Win then
          some { s with calls := s.calls.set i { c with pc := .record } }
        else some { s with calls := s.calls.set i { c with pc := .unlockGo } }
      else some { s with calls := s.calls.set i { c with pc := .unlockNext } }
    | .record, _ =>
      some { s with winner := (c.depth + 1) % 256
                    calls := s.calls.set i { c with pc := .unlockNext } }
    | .unlockNext, _ =>
      some { s with mutex := false
                    calls := s.calls.set i { c with pc := .loop, children := c.children.tail } }
    | .unlockGo, _ =>
      some { s with mutex := false, calls := s.calls.set i { c with pc := .add } }
    | .add, _ => some { s with wg := s.wg + 1, calls := s.calls.set i { c with pc := .spawn } }
    | .spawn, childPair :: rest =>
      if childPair.Child.IsMakeMoves (order childPair.Child) then
        some { s with
          calls := ⟨childPair.Child, (c.depth + 1) % 256, order childPair.Child, .loop, false⟩ ::
            s.calls.set i { c with pc := .loop, children := rest } }
      else none
    | _, [] => none

/-- One statement of whoever runs next. -/
def Sys.step (b : Board) (s : Sys) (a : Act) : Option Sys :=
  match a.who with
  | none => s.stepMain b a.order
  | some i => s.stepCall i a.order

/-- The statements of a schedule, one after the other, from `ProcessBoard`'s
first. -/
def Sys.run (b : Board) : Sys → List Act → Option Sys
  | s, [] => some s
  | s, a :: acts =>
    match s.step b a with
    | none => none
    | some s' => Sys.run b s' acts

/-- The calls of `EvalLoop` that a `wg.Add(1)` has announced and that have not
started: one for each call standing at its `go` statement, and the call of
line 175 while `ProcessBoard` stands there. -/
def Sys.announced (s : Sys) : Nat :=
  s.calls.countP (fun c => c.pc = .spawn) + (if s.main = .call then 1 else 0)

/-- The mutex is locked exactly when some call stands between `Lock` and
`Unlock`, and then only one does. -/
def Sys.Exclusive (s : Sys) : Prop :=
  s.calls.countP (fun c => c.pc.critical) = s.mutex.toNat

/-- The counter of the wait group counts the calls of `EvalLoop` announced and
not returned, and `ProcessBoard` has returned only if none is left. -/
def Sys.Counted (s : Sys) : Prop :=
  s.wg = (s.calls.length : Int) + (s.announced : Int) ∧
  (s.main = .announce → s.calls = []) ∧ (s.main = .call → s.calls = []) ∧
  (s.main = .returned → s.calls = [] ∧ s.wg = 0)

/-- The Manhattan distance of two nodes of the grid, as a natural number. -/
def Coord.manhattan (a b : Coord) : Nat :=
  (a.X - b.X) + (b.X - a.X) + ((a.Y - b.Y) + (b.Y - a.Y))

/-- `func (a BoardList) Less(i, j int) bool`; `none` when an index is out of
range. -/
def BoardList.Less (a : BoardList) (i j : Nat) : Option Bool :=
  match a.get? i, a.get? j with
  | some x, some y => some (decide (x.Score > y.Score))
  | _, _ => none

/-- The start board of the demo grid (line 193). -/
def demoBoard : Board := ⟨⟨2, 0⟩, demoUsage, demoCapacity⟩

/-- Seven moves that bring the target data of the demo grid to node `(0, 0)`:
the empty node goes to the target's left, takes its place, and walks round it
twice. -/
def demoPath : List Move :=
  [⟨⟨1, 0⟩, ⟨1, 1⟩⟩, ⟨⟨2, 0⟩, ⟨1, 0⟩⟩, ⟨⟨2, 1⟩, ⟨2, 0⟩⟩, ⟨⟨1, 1⟩, ⟨2, 1⟩⟩,
   ⟨⟨0, 1⟩, ⟨1, 1⟩⟩, ⟨⟨0, 0⟩, ⟨0, 1⟩⟩, ⟨⟨1, 0⟩, ⟨0, 0⟩⟩]

/-- A grid of five nodes: the target data at `(2, 0)` is two moves from
`(0, 0)`, and one unit of data can go back and forth between `(0, 2)` and
`(1, 2)`. -/
def spinBoard : Board :=
  ⟨⟨2, 0⟩,
   [(⟨0, 0⟩, 0), (⟨1, 0⟩, 0), (⟨2, 0⟩, 1), (⟨0, 2⟩, 1), (⟨1, 2⟩, 0)],
   [(⟨0, 0⟩, 1), (⟨1, 0⟩, 1), (⟨2, 0⟩, 1), (⟨0, 2⟩, 1), (⟨1, 2⟩, 1)]⟩

end Day22

/-! ## 2018, day 23: the drones -/

namespace Day23

/-- The value a 64-bit signed Go `int` holds after an operation whose exact
result is `n`. -/
def wrap (n : Int) : Int :=
  (n + 9223372036854775808) % 18446744073709551616 - 9223372036854775808

/-- The integers a Go `int` can hold. -/
def IsInt (n : Int) : Prop :=
  -9223372036854775808 ≤ n ∧ n < 9223372036854775808

instance (n : Int) : Decidable (IsInt n) := by
  unfold IsInt; infer_instance

/-- `type Coord struct { X, Y, Z int }`. -/
structure Coord where
  X : Int
  Y : Int
  Z : Int
  deriving DecidableEq, Repr

/-- `type Drone struct { Loc Coord; Power int }`. -/
structure Drone where
  Loc : Coord
  Power : Int
  deriving DecidableEq, Repr

/-- All three fields of a coordinate are Go `int`s. -/
def Coord.Wf (c : Coord) : Prop := IsInt c.X ∧ IsInt c.Y ∧ IsInt c.Z

instance (c : Coord) : Decidable c.Wf := by
  unfold Coord.Wf; infer_instance

/-- All four fields of a drone are Go `int`s. -/
def Drone.Wf (d : Drone) : Prop := d.Loc.Wf ∧ IsInt d.Power

instance (d : Drone) : Decidable d.Wf := by
  unfold Drone.Wf; infer_instance

/-- `func (c Coord) Distance(t Coord) int`. -/
def Coord.Distance (c t : Coord) : Int :=
  let xDelta := wrap (c.X - t.X)
  let yDelta := wrap (c.Y - t.Y)
  let zDelta := wrap (c.Z - t.Z)
  let xDelta := if xDelta < 0 then wrap (-xDelta) else xDelta
  let yDelta := if yDelta < 0 then wrap (-yDelta) else yDelta
  let zDelta := if zDelta < 0 then wrap (-zDelta) else zDelta
  wrap (wrap (xDelta + yDelta) + zDelta)

/-- `func (d Drone) InRange(t Coord) bool`. -/
def Drone.InRange (d : Drone) (t : Coord) : Bool :=
  decide (d.Loc.Distance t ≤ d.Power)

/-- `func (d Drone) DistanceToRange(t Coord) int`. -/
def Drone.DistanceToRange (d : Drone) (t : Coord) : Int :=
  wrap (d.Loc.Distance t - d.Power)

/-- `type DroneList []Drone`. -/
abbrev DroneList := List Drone

/-- `func (drones DroneList) InRange(t Coord) int`: the counter starts at `0`
and is incremented once per drone in range (a slice has fewer than `2^63`
elements, so the counter does not overflow). -/
def DroneList.InRange (drones : DroneList) (t : Coord) : Int :=
  drones.foldl (fun inRange d => if d.InRange t then inRange + 1 else inRange) 0

/-- The Manhattan distance of two points, over the mathematical integers. -/
def manhattan (c t : Coord) : Int :=
  |c.X - t.X| + |c.Y - t.Y| + |c.Z - t.Z|

/-- The counters `dronesInRange` and `rangeToMe` after the inner loop of
`main` (lines 123-132) for the drone `d`. -/
def countBoth (drones : DroneList) (d : Drone) : Int × Int :=
  drones.foldl
    (fun acc t =>
      (if d.InRange t.Loc then acc.1 + 1 else acc.1,
       if t.InRange d.Loc then acc.2 + 1 else acc.2))
    (0, 0)

/-- The variables of the first loop of `main` (lines 118-139). -/
structure Scan where
  highestPower : Int
  dronesInRangeForHighest : Int
  seeds : List (Coord × Int)
  deriving DecidableEq, Repr

/-- One iteration of the outer loop of lines 122-139. -/
def scanStep (drones : DroneList) (st : Scan) (d : Drone) : Scan :=
  let both := countBoth drones d
  let seeds := GoMap.set st.seeds d.Loc both.2
  if d.Power > st.highestPower then
    { highestPower := d.Power, dronesInRangeForHighest := both.1, seeds := seeds }
  else
    { st with seeds := seeds }

/-- Lines 118-139 of `main`; `dronesInRangeForHighest` is what line 140
prints as "Highest drones in range of one drone". -/
def scan (drones : DroneList) : Scan :=
  drones.foldl (scanStep drones)
    { highestPower := 0, dronesInRangeForHighest := 0, seeds := [] }

/-- The newline-terminated lines of the input, each with its `\n`, in the
order in which `r.ReadString` of line 103 returns them; what follows the last
`\n` comes with `io.EOF` and ends the loop unparsed. -/
def readLines : List Char → List (List Char)
  | [] => []
  | c :: s =>
    if c = '\n' then [c] :: readLines s
    else
      match readLines s with
      | [] => []
      | l :: ls => (c :: l) :: ls

/-- Lines 109-115 of `main` for one line `l` whose final byte has been removed:
`none` when an index or slice expression panics. -/
def parseLine (l : List Char) : Option Drone :=
  if l.length < 5 then none
  else
    let parts := strings.Split (l.drop 5) ['>', ',', ' ', 'r', '=']
    match parts with
    | p0 :: p1 :: _ =>
      let power := strconv.Atoi p1
      let position := strings.Split p0 [',']
      match position with
      | s0 :: s1 :: s2 :: _ =>
        some ⟨⟨strconv.Atoi s0, strconv.Atoi s1, strconv.Atoi s2⟩, power⟩
      | _ => none
    | _ => none

/-- The loop of lines 102-116 over the lines already read. -/
def parseLines : List (List Char) → DroneList → Option DroneList
  | [], drones => some drones
  | l :: ls, drones =>
    match parseLine l.dropLast with
    | none => none
    | some d => parseLines ls (drones ++ [d])

/-- Lines 99-116 of `main`: the drone list read from the input file's bytes. -/
def readDrones (input : List Char) : Option DroneList :=
  parseLines (readLines input) []

/-- The line `pos=<x,y,z>, r=p` of a drone, without its newline. -/
def droneLine (d : Drone) : List Char :=
  "pos=<".toList ++ strconv.showInt d.Loc.X ++ [','] ++ strconv.showInt d.Loc.Y ++ [',']
    ++ strconv.showInt d.Loc.Z ++ ">, r=".toList ++ strconv.showInt d.Power

/-- A line is of the form `pos=<x,y,z>, r=p` with four decimal integers. -/
def IsDroneLine (l : List Char) : Prop := ∃ d : Drone, l = droneLine d

/-- The lines on which lines 109-114 panic: fewer than five bytes, no
`>, r=` after the fifth byte, or fewer than two commas before the first
`>, r=`. -/
def Stops (l : List Char) : Prop :=
  l.length < 5 ∨ ¬ ['>', ',', ' ', 'r', '='] <:+: l.drop 5 ∨
    ((strings.Split (l.drop 5) ['>', ',', ' ', 'r', '=']).headD []).count ',' < 2

/-! ### The search for the best point (lines 142-272) -/

/-- Go's `a / b` on two `int`s when `b` is not `0`: the quotient truncated
toward zero (`minInt / -1` wraps to `minInt`). -/
def quo (a b : Int) : Int := wrap (a.tdiv b)

/-- `func (c Coord) WalkPartway(t Coord, d int) Coord`; `none` when the
division by `sum` panics, which it does when `sum` is `0`. -/
def Coord.WalkPartway (c t : Coord) (d : Int) : Option Coord :=
  let xDelta := wrap (t.X - c.X)
  let yDelta := wrap (t.Y - c.Y)
  let zDelta := wrap (t.Z - c.Z)
  let sum := 0
  let sum := if xDelta < 0 then wrap (sum - xDelta) else wrap (sum + xDelta)
  let sum := if yDelta < 0 then wrap (sum - yDelta) else wrap (sum + yDelta)
  let sum := if zDelta < 0 then wrap (sum - zDelta) else wrap (sum + zDelta)
  if sum = 0 then none
  else
    some ⟨wrap (c.X + quo (wrap (d * xDelta)) sum),
          wrap (c.Y + quo (wrap (d * yDelta)) sum),
          wrap (c.Z + quo (wrap (d * zDelta)) sum)⟩

/-- `type Candidate struct { Loc Coord; Quality int }`. -/
structure Candidate where
  Loc : Coord
  Quality : Int
  deriving DecidableEq, Repr

/-- The variables that the loop of lines 169-179 writes. -/
structure Probe where
  alreadyIn : Int
  ranges : List (Coord × Int)
  candidates : List Candidate
  deriving DecidableEq, Repr

/-- One iteration of the loop of lines 169-179 at the location `loc`; the
counters are bounded by the length of `drones`, so that `++` does not
overflow. -/
def probeStep (loc : Coord) (p : Probe) (d : Drone) : Option Probe :=
  if d.InRange loc then
    some { p with alreadyIn := p.alreadyIn + 1
                  ranges := GoMap.set p.ranges loc (GoMap.get p.ranges loc + 1) }
  else
    let dist := d.DistanceToRange loc
    match loc.WalkPartway d.Loc (wrap (dist + 1)) with
    | none => none
    | some mid => some { p with candidates := p.candidates ++ [⟨mid, dist⟩] }

/-- Lines 166-179 of `main`. -/
def probe (drones : DroneList) (loc : Coord) (ranges : List (Coord × Int)) : Option Probe :=
  drones.foldlM (probeStep loc) ⟨0, ranges, []⟩

/-- The variables of the loop of lines 152-196. -/
structure Search where
  ranges : List (Coord × Int)
  worklist : List Candidate
  highScore : Int
  deriving DecidableEq, Repr

/-- What the two calls of `sort.Slice` in one pass of the loop of lines
152-196 return: `sort.Slice` is not stable, so the order of candidates of
equal quality is left open. -/
structure Order where
  work : List Candidate → List Candidate
  cands : List Candidate → List Candidate

/-- The slice `ys` is a possible result of `sort.Slice(xs, less)`: the same
elements, none before one that is `less`. -/
def SortSlice (less : Candidate → Candidate → Bool) (xs ys : List Candidate) : Prop :=
  ys.Perm xs ∧ ys.Pairwise (fun a b => less b a = false)

/-- Both functions of the order return results of their `sort.Slice`
(lines 153-155 and 189-191). -/
def Order.Valid (o : Order) : Prop :=
  (∀ xs, SortSlice (fun a b => decide (a.Quality > b.Quality)) xs (o.work xs)) ∧
  (∀ xs, SortSlice (fun a b => decide (a.Quality < b.Quality)) xs (o.cands xs))

/-- One pass of the body of the loop of lines 152-196 (lines 153-195); `none`
when `WalkPartway` panics. -/
def Search.step (drones : DroneList) (s : Search) (o : Order) : Option Search :=
  match o.work s.worklist with
  | [] => none
  | c :: worklist =>
    let loc := c.Loc
    if GoMap.get s.ranges loc ≠ 0 then some { s with worklist := worklist }
    else
      match probe drones loc s.ranges with
      | none => none
      | some p =>
        let here := GoMap.get p.ranges loc
        if here < wrap (s.highScore - 2) then
          some { s with ranges := p.ranges, worklist := worklist }
        else
          some { ranges := p.ranges
                 worklist := worklist ++
                   (o.cands p.candidates).map (fun c => ⟨c.Loc, wrap (here + 1)⟩)
                 highScore := if here > s.highScore then here else s.highScore }

/-- The loop of lines 152-196, one pass for each order of the list: it ends
before the list does when the worklist is empty. -/
def Search.run (drones : DroneList) : Search → List Order → Option Search
  | s, [] => some s
  | s, o :: orders =>
    if s.worklist = [] then some s
    else
      match s.step drones o with
      | none => none
      | some s' => Search.run drones s' orders

/-- The variables when the loop of line 152 is reached: `seeds` is the map
in the order in which the loop of lines 147-149 visits it. -/
def Search.init (seeds : List (Coord × Int)) : Search :=
  ⟨[], seeds.map (fun e => ⟨e.1, e.2⟩), 0⟩

/-- Lines 198-209 of `main`: `lowestSum` and `lowestCoord` after the loop over
`ranges`, visited in the order of the list. -/
def lowest (highScore : Int) (ranges : List (Coord × Int)) : Int × Coord :=
  ranges.foldl
    (fun acc e =>
      if e.2 ≠ highScore then acc
      else
        let mySum := wrap (wrap (e.1.X + e.1.Y) + e.1.Z)
        if mySum < acc.1 then (mySum, e.1) else acc)
    (9999999999999, ⟨0, 0, 0⟩)

/-- The value `*coords[v]` for `coords := []*int{&s.X, &s.Y, &s.Z}`. -/
def Coord.coord (s : Coord) : Nat → Int
  | 0 => s.X
  | 1 => s.Y
  | _ => s.Z

/-- The assignment `*coords[v] = n`. -/
def Coord.setCoord (s : Coord) (v : Nat) (n : Int) : Coord :=
  match v with
  | 0 => { s with X := n }
  | 1 => { s with Y := n }
  | _ => { s with Z := n }

/-- The variables of the loop of lines 214-270. -/
structure Refine where
  s : Coord
  highScore : Int
  improved : Bool
  deriving DecidableEq, Repr

/-- The loop of lines 223-235 on the coordinate `v`; `none` when it has not
ended after `fuel` passes. -/
def walkAxis (drones : DroneList) (v : Nat) (direction : Int) :
    Nat → Int → Refine → Option Refine
  | 0, _, _ => none
  | fuel + 1, original, r =>
    let s := r.s.setCoord v (wrap (r.s.coord v + direction))
    let inRange := drones.InRange s
    if inRange < r.highScore then some { r with s := s.setCoord v original }
    else if inRange > r.highScore then
      walkAxis drones v direction fuel (s.coord v) ⟨s, inRange, true⟩
    else walkAxis drones v direction fuel original { r with s := s }

/-- The loop of lines 250-267 on the coordinates `first` and `second`; `none`
when it has not ended after `fuel` passes. -/
def walkPair (drones : DroneList) (first second : Nat) (direction : Int) :
    Nat → Int → Int → Refine → Option Refine
  | 0, _, _, _ => none
  | fuel + 1, oFirst, oSecond, r =>
    let s := r.s.setCoord first (wrap (r.s.coord first + direction))
    let s := s.setCoord second (wrap (s.coord second - direction))
    let inRange := drones.InRange s
    if inRange < r.highScore then
      some { r with s := (s.setCoord first oFirst).setCoord second oSecond }
    else if inRange > r.highScore then
      walkPair drones first second direction fuel (s.coord first) (s.coord second)
        ⟨s, inRange, true⟩
    else walkPair drones first second direction fuel oFirst oSecond { r with s := s }

/-- Lines 220-237 of `main`: each coordinate in both directions. -/
def walkAxes (drones : DroneList) (fuel : Nat) (r : Refine) : Option Refine :=
  [0, 1, 2].foldlM
    (fun r v =>
      [1, -1].foldlM (fun r direction => walkAxis drones v direction fuel (r.s.coord v) r) r)
    r

/-- Lines 242-269 of `main`: each pair of coordinates in both directions. -/
def walkPairs (drones : DroneList) (fuel : Nat) (r : Refine) : Option Refine :=
  [0, 1, 2].foldlM
    (fun r i =>
      [1, -1].foldlM
        (fun r direction =>
          walkPair drones ((i + 1) % 3) ((i + 2) % 3) direction fuel
            (r.s.coord ((i + 1) % 3)) (r.s.coord ((i + 2) % 3)) r)
        r)
    r

/-- The loop of lines 214-270; `none` when one of its loops has not ended
after `fuel` passes. -/
def refine (drones : DroneList) (fuel : Nat) : Nat → Refine → Option Refine
  | 0, _ => none
  | n + 1, r =>
    if r.improved then
      match walkAxes drones fuel { r with improved := false } with
      | none => none
      | some r =>
        match walkPairs drones fuel r with
        | none => none
        | some r => refine drones fuel n r
    else some r

/-- What Go leaves open in a run of lines 142-272: the order in which the
loops of lines 147 and 200 visit their maps, and the results of `sort.Slice`
in each pass of the loop of line 152. -/
structure Choices where
  seeds : List (Coord × Int) → List (Coord × Int)
  orders : List Order
  ranges : List (Coord × Int) → List (Coord × Int)

/-- The maps are visited entry by entry and the slices are sorted. -/
def Choices.Valid (ch : Choices) : Prop :=
  (∀ m, (ch.seeds m).Perm m) ∧ (∀ o ∈ ch.orders, o.Valid) ∧ (∀ m, (ch.ranges m).Perm m)

/-- Lines 142-272 of `main`: the "Solution point" that line 272 prints;
`none` when the program panics or a loop has not ended within the passes that
`ch.orders` and `fuel` allow. -/
def solution (drones : DroneList) (ch : Choices) (fuel : Nat) : Option Coord :=
  match Search.run drones (Search.init (ch.seeds (scan drones).seeds)) ch.orders with
  | some ⟨ranges, [], highScore⟩ =>
    let lowestCoord := (lowest highScore (ch.ranges ranges)).2
    (refine drones fuel fuel ⟨lowestCoord, highScore, true⟩).map (fun r => r.s)
  | _ => none

/-- `sort.Slice` as an insertion sort, which is one of the results it may
give. -/
def Order.insertion : Order :=
  ⟨fun xs => xs.insertionSort (fun a b => b.Quality ≤ a.Quality),
   fun xs => xs.insertionSort (fun a b => a.Quality ≤ b.Quality)⟩

/-- The location a drone out of range contributes to the candidates. -/
def Walked (loc : Coord) (d : Drone) (mid : Coord) : Prop :=
  d.InRange loc = false ∧
    loc.WalkPartway d.Loc (wrap (d.DistanceToRange loc + 1)) = some mid

/-- The cases of one pass of the loop of lines 152-196. -/
inductive Search.Pass (drones : DroneList) (o : Order) (s : Search) : Search → Prop
  | skip (c : Candidate) (rest : List Candidate) (hw : o.work s.worklist = c :: rest)
      (hr : GoMap.get s.ranges c.Loc ≠ 0) : Search.Pass drones o s { s with worklist := rest }
  | prune (c : Candidate) (rest : List Candidate) (p : Probe)
      (hw : o.work s.worklist = c :: rest) (hr : GoMap.get s.ranges c.Loc = 0)
      (hp : probe drones c.Loc s.ranges = some p)
      (hlow : GoMap.get p.ranges c.Loc < wrap (s.highScore - 2)) :
      Search.Pass drones o s ⟨p.ranges, rest, s.highScore⟩
  | expand (c : Candidate) (rest : List Candidate) (p : Probe)
      (hw : o.work s.worklist = c :: rest) (hr : GoMap.get s.ranges c.Loc = 0)
      (hp : probe drones c.Loc s.ranges = some p)
      (hlow : ¬ GoMap.get p.ranges c.Loc < wrap (s.highScore - 2)) :
      Search.Pass drones o s
        ⟨p.ranges,
         rest ++ (o.cands p.candidates).map
           (fun x => ⟨x.Loc, wrap (GoMap.get p.ranges c.Loc + 1)⟩),
         if GoMap.get p.ranges c.Loc > s.highScore then GoMap.get p.ranges c.Loc
         else s.highScore⟩

/-- A run in which the maps are visited in the order of their lists and
`sort.Slice` is an insertion sort, with `n` passes of the loop of line 152. -/
def Choices.plain (n : Nat) : Choices := ⟨id, List.replicate n Order.insertion, id⟩

/-- Two drones of power `2` whose ranges are far apart. -/
def farDrones : DroneList := [⟨⟨0, 0, 0⟩, 2⟩, ⟨⟨3, 3, 3⟩, 2⟩]

/-- Two locations between the drones of `farDrones`, in range of neither. -/
def farGaps : List Coord := [⟨1, 1, 1⟩, ⟨2, 2, 2⟩]

/-- The worklist holds a location that the search has not scored and whose
pass adds a location of `farGaps`; no location of `farGaps` is ever scored. -/
def FarPending (s : Search) : Prop :=
  0 ≤ s.highScore ∧ s.highScore ≤ 2 ∧ (∀ z ∈ farGaps, GoMap.get s.ranges z = 0) ∧
    ∃ c ∈ s.worklist, (c.Loc ∈ farGaps ∨ c.Loc = ⟨0, 0, 0⟩ ∨ c.Loc = ⟨3, 3, 3⟩) ∧
      GoMap.get s.ranges c.Loc = 0

/-- Every coordinate of the location is at most `500000001` in absolute value. -/
def Coord.Near (c : Coord) : Prop :=
  (-500000001 ≤ c.X ∧ c.X ≤ 500000001) ∧ (-500000001 ≤ c.Y ∧ c.Y ≤ 500000001) ∧
    (-500000001 ≤ c.Z ∧ c.Z ≤ 500000001)

/-- The coordinates of the drone are at most `500000000` in absolute value and
its power is not negative. -/
def Drone.Bounded (d : Drone) : Prop :=
  (-500000000 ≤ d.Loc.X ∧ d.Loc.X ≤ 500000000) ∧
    (-500000000 ≤ d.Loc.Y ∧ d.Loc.Y ≤ 500000000) ∧
    (-500000000 ≤ d.Loc.Z ∧ d.Loc.Z ≤ 500000000) ∧ 0 ≤ d.Power

/-- What the loop of lines 152-196 keeps true of its variables. -/
structure Search.Inv (drones : DroneList) (s : Search) : Prop where
  nodup : (GoMap.keys s.ranges).Nodup
  scored : ∀ k, GoMap.get s.ranges k = 0 ∨ GoMap.get s.ranges k = DroneList.InRange drones k
  nonneg : 0 ≤ s.highScore
  le : ∀ k, GoMap.get s.ranges k ≤ s.highScore
  best : s.highScore = 0 ∨ ∃ k, GoMap.get s.ranges k = s.highScore ∧ k.Near
  seeds : ∀ d ∈ drones, GoMap.get s.ranges d.Loc ≠ 0 ∨ ∃ c ∈ s.worklist, c.Loc = d.Loc
  near : ∀ c ∈ s.worklist, c.Loc.Near

/-- The point `s` is in range of `highScore` drones. -/
def Refine.Exact (drones : DroneList) (r : Refine) : Prop :=
  DroneList.InRange drones r.s = r.highScore

/-- The point one step from `s` along the coordinate `v` (line 224). -/
def Coord.stepAxis (s : Coord) (v : Nat) (direction : Int) : Coord :=
  s.setCoord v (wrap (s.coord v + direction))

/-- The point one step from `s` along `first` and one step back along
`second` (lines 251-252). -/
def Coord.stepPair (s : Coord) (first second : Nat) (direction : Int) : Coord :=
  let t := s.setCoord first (wrap (s.coord first + direction))
  t.setCoord second (wrap (t.coord second - direction))

/-- The twelve points at which the walks of one pass of the loop of lines
214-270 start from `s`. -/
def Coord.nextTo (s : Coord) : List Coord :=
  [s.stepAxis 0 1, s.stepAxis 0 (-1), s.stepAxis 1 1, s.stepAxis 1 (-1),
   s.stepAxis 2 1, s.stepAxis 2 (-1),
   s.stepPair 1 2 1, s.stepPair 1 2 (-1), s.stepPair 2 0 1, s.stepPair 2 0 (-1),
   s.stepPair 0 1 1, s.stepPair 0 1 (-1)]

/-- No point next to `s` is in range of more than `highScore` drones. -/
def Refine.Settled (drones : DroneList) (r : Refine) : Prop :=
  ∀ p ∈ r.s.nextTo, DroneList.InRange drones p ≤ r.highScore

/-- Two drones whose ranges share the points `(0,1,1)`, `(1,0,1)` and
`(1,1,0)` only. -/
def overlapDrones : DroneList := [⟨⟨0, 0, 0⟩, 2⟩, ⟨⟨1, 1, 1⟩, 1⟩]

instance (d : Drone) : Decidable d.Bounded := by
  unfold Drone.Bounded; infer_instance

/-! ### What the search scans and prints -/

/-- The location whose drones a pass of the loop of lines 152-196 scans
(lines 166-179): none when the location taken has a score already. -/
def Search.scans (s : Search) (o : Order) : List Coord :=
  match o.work s.worklist with
  | [] => []
  | c :: _ => if GoMap.get s.ranges c.Loc ≠ 0 then [] else [c.Loc]

/-- The line `Iteratively guessed loc: in range of n` that a pass of the loop
of lines 152-196 prints (line 185), as the pair of `loc` and `n`. -/
def Search.prints (drones : DroneList) (s : Search) (o : Order) : List (Coord × Int) :=
  match o.work s.worklist with
  | [] => []
  | c :: _ =>
    if GoMap.get s.ranges c.Loc ≠ 0 then []
    else
      match probe drones c.Loc s.ranges with
      | none => []
      | some p =>
        let here := GoMap.get p.ranges c.Loc
        if here < wrap (s.highScore - 2) then []
        else if here > s.highScore then [(c.Loc, here)]
        else []

/-- The locations scanned during the passes of `Search.run`, in order. -/
def Search.scanned (drones : DroneList) : Search → List Order → List Coord
  | _, [] => []
  | s, o :: orders =>
    if s.worklist = [] then []
    else
      match s.step drones o with
      | none => []
      | some s' => s.scans o ++ Search.scanned drones s' orders

/-- The lines `Iteratively guessed` printed during the passes of
`Search.run`, in order. -/
def Search.printed (drones : DroneList) : Search → List Order → List (Coord × Int)
  | _, [] => []
  | s, o :: orders =>
    if s.worklist = [] then []
    else
      match s.step drones o with
      | none => []
      | some s' => s.prints drones o ++ Search.printed drones s' orders

/-- The scores of the locations scanned so far, `done`, are their numbers of
drones in range, and `highScore` is the greatest of them. -/
def Search.Tally (drones : DroneList) (s : Search) (done : List Coord) : Prop :=
  0 ≤ s.highScore ∧
  (∀ loc ∈ done, GoMap.get s.ranges loc = DroneList.InRange drones loc) ∧
  (∀ loc ∈ done, GoMap.get s.ranges loc ≤ s.highScore) ∧
  ((done = [] ∧ s.highScore = 0) ∨ ∃ loc ∈ done, GoMap.get s.ranges loc = s.highScore)

/-- The candidate `c := worklist[0]` that a pass of the loop of lines 152-196
takes after `sort.Slice` (line 157). -/
def Search.taken (s : Search) (o : Order) : Option Candidate :=
  (o.work s.worklist).head?

/-- One drone far from the origin: the sum of its coordinates is above the
constant `9999999999999` of line 198. -/
def loneDrone : DroneList := [⟨⟨10000000000000, 0, 0⟩, 0⟩]

end Day23

/-! ## Theorems -/

namespace Day23

theorem wrap_of_isInt {n : Int} (h : IsInt n) : wrap n = n := by
  unfold IsInt at h
  unfold wrap
  omega

theorem isInt_wrap (n : Int) : IsInt (wrap n) := by
  unfold IsInt wrap
  omega

/-- Below `2^63` the code's `Distance` is the Manhattan distance. -/
theorem Distance_eq_manhattan (c t : Coord)
    (h : manhattan c t < 9223372036854775808) :
    c.Distance t = manhattan c t := by
  unfold manhattan at h
  have hx := abs_nonneg (c.X - t.X)
  have hy := abs_nonneg (c.Y - t.Y)
  have hz := abs_nonneg (c.Z - t.Z)
  have wx : wrap (c.X - t.X) = c.X - t.X := by
    apply wrap_of_isInt
    have := abs_le.mp (le_refl |c.X - t.X|)
    unfold IsInt; omega
  have wy : wrap (c.Y - t.Y) = c.Y - t.Y := by
    apply wrap_of_isInt
    have := abs_le.mp (le_refl |c.Y - t.Y|)
    unfold IsInt; omega
  have wz : wrap (c.Z - t.Z) = c.Z - t.Z := by
    apply wrap_of_isInt
    have := abs_le.mp (le_refl |c.Z - t.Z|)
    unfold IsInt; omega
  have ax : (if c.X - t.X < 0 then wrap (-(c.X - t.X)) else c.X - t.X) = |c.X - t.X| := by
    split
    · rw [wrap_of_isInt, abs_of_neg (by assumption)]
      have := abs_le.mp (le_refl |c.X - t.X|)
      unfold IsInt; omega
    · rw [abs_of_nonneg (by omega)]
  have ay : (if c.Y - t.Y < 0 then wrap (-(c.Y - t.Y)) else c.Y - t.Y) = |c.Y - t.Y| := by
    split
    · rw [wrap_of_isInt, abs_of_neg (by assumption)]
      have := abs_le.mp (le_refl |c.Y - t.Y|)
      unfold IsInt; omega
    · rw [abs_of_nonneg (by omega)]
  have az : (if c.Z - t.Z < 0 then wrap (-(c.Z - t.Z)) else c.Z - t.Z) = |c.Z - t.Z| := by
    split
    · rw [wrap_of_isInt, abs_of_neg (by assumption)]
      have := abs_le.mp (le_refl |c.Z - t.Z|)
      unfold IsInt; omega
    · rw [abs_of_nonneg (by omega)]
  unfold Coord.Distance manhattan
  simp only [wx, wy, wz, ax, ay, az]
  rw [wrap_of_isInt (n := |c.X - t.X| + |c.Y - t.Y|) (by unfold IsInt; omega)]
  rw [wrap_of_isInt (by unfold IsInt; omega)]

/-- C6 (as amended): when the Manhattan distance `D` of the drone's centre and
the point is below `2^63`, `Distance` returns `D` and `InRange` holds exactly
when `D <= Power`; when moreover `D - Power` is below `2^63`,
`DistanceToRange <= 0` exactly when `InRange`. -/
theorem inRange_iff_manhattan_le (d : Drone) (t : Coord)
    (hp : IsInt d.Power)
    (h : manhattan d.Loc t < 9223372036854775808) :
    d.Loc.Distance t = manhattan d.Loc t ∧
    (d.InRange t = true ↔
      |d.Loc.X - t.X| + |d.Loc.Y - t.Y| + |d.Loc.Z - t.Z| ≤ d.Power) ∧
    (manhattan d.Loc t - d.Power < 9223372036854775808 →
      (d.DistanceToRange t ≤ 0 ↔ d.InRange t = true)) := by
  have hD := Distance_eq_manhattan d.Loc t h
  refine ⟨hD, ?_, ?_⟩
  · unfold Drone.InRange
    rw [hD]
    simp [manhattan]
  · intro h2
    unfold Drone.DistanceToRange Drone.InRange
    rw [hD]
    have hm : 0 ≤ manhattan d.Loc t := by
      unfold manhattan
      have hx := abs_nonneg (d.Loc.X - t.X)
      have hy := abs_nonneg (d.Loc.Y - t.Y)
      have hz := abs_nonneg (d.Loc.Z - t.Z)
      omega
    rw [wrap_of_isInt (by unfold IsInt at hp ⊢; omega)]
    simp

/-- Witness for C6: the drone at `(1, 2, 3)` with power `4` and the point
`(2, 2, 2)`; and the drone at `(0, 0, 0)` with the least power an `int` holds,
for which `D - Power` is `2^63`. -/
theorem inRange_iff_manhattan_le_witness :
    (Drone.mk ⟨1, 2, 3⟩ 4).Loc.Distance ⟨2, 2, 2⟩ = manhattan ⟨1, 2, 3⟩ ⟨2, 2, 2⟩ ∧
    ((Drone.mk ⟨1, 2, 3⟩ 4).InRange ⟨2, 2, 2⟩ = true ↔
      |(1 : Int) - 2| + |(2 : Int) - 2| + |(3 : Int) - 2| ≤ 4) ∧
    ((Drone.mk ⟨1, 2, 3⟩ 4).DistanceToRange ⟨2, 2, 2⟩ ≤ 0 ↔
      (Drone.mk ⟨1, 2, 3⟩ 4).InRange ⟨2, 2, 2⟩ = true) ∧
    ((Drone.mk ⟨0, 0, 0⟩ (-9223372036854775808)).InRange ⟨0, 0, 0⟩ = true ↔
      |(0 : Int) - 0| + |(0 : Int) - 0| + |(0 : Int) - 0| ≤ -9223372036854775808) :=
  ⟨(inRange_iff_manhattan_le (Drone.mk ⟨1, 2, 3⟩ 4) ⟨2, 2, 2⟩ (by decide) (by decide)).1,
   (inRange_iff_manhattan_le (Drone.mk ⟨1, 2, 3⟩ 4) ⟨2, 2, 2⟩ (by decide) (by decide)).2.1,
   (inRange_iff_manhattan_le (Drone.mk ⟨1, 2, 3⟩ 4) ⟨2, 2, 2⟩ (by decide) (by decide)).2.2
     (by decide),
   (inRange_iff_manhattan_le (Drone.mk ⟨0, 0, 0⟩ (-9223372036854775808)) ⟨0, 0, 0⟩
     (by decide) (by decide)).2.1⟩

/-- C6 fails as stated: for the drone centred at `(-2^63, 0, 0)` with power
`0`, the point `(0, 0, 0)` is reported in range (the subtraction and the
negation overflow), although its Manhattan distance `2^63` exceeds the power. -/
theorem inRange_not_manhattan_at_minInt :
    (Drone.mk ⟨-9223372036854775808, 0, 0⟩ 0).Wf ∧ (Coord.mk 0 0 0).Wf ∧
    (Drone.mk ⟨-9223372036854775808, 0, 0⟩ 0).InRange ⟨0, 0, 0⟩ = true ∧
    ¬ (|(-9223372036854775808 : Int) - 0| + |(0 : Int) - 0| + |(0 : Int) - 0| ≤ 0) := by
  refine ⟨by decide, by decide, by decide, by decide⟩

theorem countBoth_fst (drones : DroneList) (d : Drone) :
    (countBoth drones d).1 = (drones.countP (fun t => d.InRange t.Loc) : Nat) := by
  unfold countBoth
  suffices h : ∀ (l : DroneList) (a b : Int),
      (l.foldl
        (fun acc t =>
          (if d.InRange t.Loc then acc.1 + 1 else acc.1,
           if t.InRange d.Loc then acc.2 + 1 else acc.2))
        (a, b)).1 = a + (l.countP (fun t => d.InRange t.Loc) : Nat) by
    simpa using h drones 0 0
  intro l
  induction l with
  | nil => intro a b; simp
  | cons t l ih =>
    intro a b
    rw [List.foldl_cons, ih]
    by_cases ht : d.InRange t.Loc = true
    · simp [ht, List.countP_cons]; ring
    · simp [ht, List.countP_cons]

theorem scan_foldl_lt (drones : DroneList) (p : Int) (l : DroneList) (st : Scan)
    (hst : st.highestPower < p) (hl : ∀ t ∈ l, t.Power < p) :
    (l.foldl (scanStep drones) st).highestPower < p := by
  induction l generalizing st with
  | nil => simpa using hst
  | cons t l ih =>
    rw [List.foldl_cons]
    apply ih
    · unfold scanStep
      have := hl t (List.mem_cons_self _ _)
      dsimp only
      split <;> simp_all
    · intro u hu
      exact hl u (List.mem_cons_of_mem _ hu)

theorem scan_foldl_keep (drones : DroneList) (l : DroneList) (st : Scan)
    (hl : ∀ t ∈ l, t.Power ≤ st.highestPower) :
    (l.foldl (scanStep drones) st).highestPower = st.highestPower ∧
    (l.foldl (scanStep drones) st).dronesInRangeForHighest = st.dronesInRangeForHighest := by
  induction l generalizing st with
  | nil => simp
  | cons t l ih =>
    rw [List.foldl_cons]
    have ht := hl t (List.mem_cons_self _ _)
    have hstep : scanStep drones st t =
        { st with seeds := GoMap.set st.seeds t.Loc (countBoth drones t).2 } := by
      unfold scanStep
      dsimp only
      rw [if_neg (by omega)]
    rw [hstep]
    exact ih _ (fun u hu => hl u (List.mem_cons_of_mem _ hu))

/-- C4: when the greatest power is positive, the number printed as "Highest
drones in range of one drone" is the number of drones `t` with
`Distance(d.Loc, t.Loc) <= d.Power`, for `d` the first drone of the list that
has the greatest power. -/
theorem scan_counts_first_strongest (drones pre post : DroneList) (d : Drone)
    (hsplit : drones = pre ++ d :: post)
    (hpre : ∀ t ∈ pre, t.Power < d.Power)
    (hpost : ∀ t ∈ post, t.Power ≤ d.Power)
    (hpos : 0 < d.Power) :
    (scan drones).dronesInRangeForHighest =
      (drones.countP (fun t => decide (d.Loc.Distance t.Loc ≤ d.Power)) : Nat) := by
  have key : (List.foldl (scanStep drones)
      { highestPower := 0, dronesInRangeForHighest := 0, seeds := [] }
      (pre ++ d :: post)).dronesInRangeForHighest = (countBoth drones d).1 := by
    have h1 := scan_foldl_lt drones d.Power pre
      { highestPower := 0, dronesInRangeForHighest := 0, seeds := [] } hpos hpre
    rw [List.foldl_append, List.foldl_cons]
    have hstep : ∀ st : Scan, st.highestPower < d.Power →
        (scanStep drones st d).highestPower = d.Power ∧
        (scanStep drones st d).dronesInRangeForHighest = (countBoth drones d).1 := by
      intro st hst
      unfold scanStep
      dsimp only
      rw [if_pos (by omega)]
      simp
    obtain ⟨e1, e2⟩ := hstep _ h1
    obtain ⟨_, k2⟩ := scan_foldl_keep drones post _
      (fun t ht => by rw [e1]; exact hpost t ht)
    rw [k2, e2]
  have hscan : scan drones = List.foldl (scanStep drones)
      { highestPower := 0, dronesInRangeForHighest := 0, seeds := [] }
      (pre ++ d :: post) := by
    unfold scan
    rw [← hsplit]
  rw [hscan, key, countBoth_fst]
  rfl

/-- Witness for C4: three drones, the second and third sharing the greatest
power. -/
theorem scan_counts_first_strongest_witness :
    (scan [⟨⟨0, 0, 0⟩, 1⟩, ⟨⟨1, 0, 0⟩, 4⟩, ⟨⟨9, 0, 0⟩, 4⟩]).dronesInRangeForHighest =
      (([⟨⟨0, 0, 0⟩, 1⟩, ⟨⟨1, 0, 0⟩, 4⟩, ⟨⟨9, 0, 0⟩, 4⟩] : DroneList).countP
        (fun t => decide ((Drone.mk ⟨1, 0, 0⟩ 4).Loc.Distance t.Loc ≤
          (Drone.mk ⟨1, 0, 0⟩ 4).Power)) : Nat) :=
  scan_counts_first_strongest _ [⟨⟨0, 0, 0⟩, 1⟩] [⟨⟨9, 0, 0⟩, 4⟩] ⟨⟨1, 0, 0⟩, 4⟩
    rfl (by decide) (by decide) (by decide)

end Day23

/-! ### `strings.Split` and `strconv.Atoi` -/

namespace strings

theorem splitFrom_ne_nil (sep s : List Char) (k : Nat) : splitFrom sep s k ≠ [] := by
  induction s generalizing k with
  | nil => simp [splitFrom]
  | cons c s ih =>
    cases k with
    | succ k => simpa [splitFrom] using ih k
    | zero =>
      unfold splitFrom
      split
      · simp
      · split <;> simp

theorem splitFrom_cons_zero (sep : List Char) (c : Char) (s : List Char) :
    splitFrom sep (c :: s) 0 =
      if sep.isPrefixOf (c :: s) then [] :: splitFrom sep s (sep.length - 1)
      else
        match splitFrom sep s 0 with
        | p :: ps => (c :: p) :: ps
        | [] => [[c]] := rfl

/-- A string without the first byte of the separator is not cut. -/
theorem splitFrom_of_not_mem (h : Char) (tl s : List Char) (hs : h ∉ s) :
    splitFrom (h :: tl) s 0 = [s] := by
  induction s with
  | nil => simp [splitFrom]
  | cons c s ih =>
    have hc : h ≠ c := fun e => hs (by simp [e])
    have hs2 : h ∉ s := fun e => hs (List.mem_cons_of_mem _ e)
    rw [splitFrom_cons_zero, if_neg (by simp [List.isPrefixOf, hc])]
    rw [ih hs2]

theorem splitFrom_skip (sep x b : List Char) :
    splitFrom sep (x ++ b) x.length = splitFrom sep b 0 := by
  induction x with
  | nil => simp
  | cons c x ih => simpa [splitFrom] using ih

/-- The piece before the first occurrence of the separator. -/
theorem splitFrom_append_sep (h : Char) (tl a b : List Char) (ha : h ∉ a) :
    splitFrom (h :: tl) (a ++ (h :: tl) ++ b) 0 = a :: splitFrom (h :: tl) b 0 := by
  induction a with
  | nil =>
    have hp : (h :: tl).isPrefixOf (h :: (tl ++ b)) = true := by
      rw [List.isPrefixOf_iff_prefix]
      exact ⟨b, by simp⟩
    simp only [List.nil_append, List.cons_append]
    rw [splitFrom_cons_zero, if_pos hp]
    simp only [List.length_cons, Nat.add_sub_cancel]
    rw [splitFrom_skip]
  | cons c a ih =>
    have hc : h ≠ c := fun e => ha (by simp [e])
    have ha2 : h ∉ a := fun e => ha (List.mem_cons_of_mem _ e)
    simp only [List.cons_append]
    rw [splitFrom_cons_zero, if_neg (by simp [List.isPrefixOf, hc])]
    have := ih ha2
    simp only [List.cons_append, List.append_assoc] at this
    simp only [List.append_assoc, List.cons_append]
    rw [this]

/-- `Split` cuts at least once exactly when the separator occurs. -/
theorem splitFrom_length_iff (sep : List Char) (hsep : sep ≠ []) (s : List Char) (k : Nat) :
    2 ≤ (splitFrom sep s k).length ↔ sep <:+: s.drop k := by
  induction s generalizing k with
  | nil =>
    simp only [splitFrom, List.length_singleton, List.drop_nil, List.infix_nil]
    constructor
    · intro h; omega
    · intro h; exact absurd h hsep
  | cons c s ih =>
    cases k with
    | succ k => simpa [splitFrom] using ih k
    | zero =>
      rw [splitFrom_cons_zero]
      simp only [List.drop_zero]
      by_cases hp : sep.isPrefixOf (c :: s) = true
      · rw [if_pos hp]
        have hne := splitFrom_ne_nil sep s (sep.length - 1)
        have hlen : 0 < (splitFrom sep s (sep.length - 1)).length :=
          List.length_pos.mpr hne
        constructor
        · intro _
          exact (List.isPrefixOf_iff_prefix.mp hp).isInfix
        · intro _
          simp only [List.length_cons]
          omega
      · rw [if_neg hp]
        have hne := splitFrom_ne_nil sep s 0
        have hih := ih 0
        simp only [List.drop_zero] at hih
        rw [List.infix_cons_iff, ← hih]
        have hnp : ¬ sep <+: c :: s := fun h => hp (List.isPrefixOf_iff_prefix.mpr h)
        cases hsp : splitFrom sep s 0 with
        | nil => exact absurd hsp hne
        | cons q qs =>
          simp only [List.length_cons]
          constructor
          · intro h; exact Or.inr h
          · intro h
            rcases h with h | h
            · exact absurd h hnp
            · exact h

/-- Cutting at a single byte gives one piece more than the byte occurs. -/
theorem split_single_length (c : Char) (s : List Char) :
    (Split s [c]).length = s.count c + 1 := by
  unfold Split
  induction s with
  | nil => simp [splitFrom]
  | cons a s ih =>
    rw [splitFrom_cons_zero]
    have hne := splitFrom_ne_nil [c] s 0
    by_cases hac : c = a
    · subst hac
      rw [if_pos (by simp [List.isPrefixOf])]
      simp only [List.length_singleton, Nat.sub_self, List.length_cons, ih]
      simp [ih]
    · rw [if_neg (by simp [List.isPrefixOf, hac])]
      cases hsp : splitFrom [c] s 0 with
      | nil => exact absurd hsp hne
      | cons q qs =>
        rw [hsp] at ih
        simp only [List.length_cons] at ih ⊢
        rw [ih, List.count_cons]
        have : (a == c) = false := by
          simp only [beq_eq_false_iff_ne, ne_eq]
          exact fun e => hac e.symm
        simp [this]

end strings

namespace strconv

theorem digitOf_digitChar : ∀ d, d < 10 → digitOf (digitChar d) = some d := by
  decide

theorem isDigit_digitChar : ∀ d, d < 10 → IsDigit (digitChar d) := by
  decide

theorem le_valueFrom (acc : Nat) (ds : List Nat) : acc ≤ valueFrom acc ds := by
  induction ds generalizing acc with
  | nil => simp [valueFrom]
  | cons d ds ih =>
    have := ih (acc * 10 + d)
    simp only [valueFrom, List.foldl_cons] at this ⊢
    omega

theorem parseUint_digits (ds : List Nat) (acc : Nat) (hd : ∀ d ∈ ds, d < 10)
    (hv : valueFrom acc ds < 18446744073709551616) :
    parseUint (ds.map digitChar) acc = some (valueFrom acc ds) := by
  induction ds generalizing acc with
  | nil => simp [parseUint, valueFrom]
  | cons d ds ih =>
    have hd0 : d < 10 := hd d (List.mem_cons_self _ _)
    have hle := le_valueFrom (acc * 10 + d) ds
    simp only [valueFrom, List.foldl_cons] at hv hle ⊢
    simp only [List.map_cons, parseUint, digitOf_digitChar d hd0]
    rw [if_neg (by omega)]
    exact ih _ (fun x hx => hd x (List.mem_cons_of_mem _ hx)) hv

theorem valueFrom_reverse_digits (n : Nat) :
    valueFrom 0 (Nat.digits 10 n).reverse = n := by
  unfold valueFrom
  rw [List.foldl_reverse]
  have h := Nat.ofDigits_digits 10 n
  rw [Nat.ofDigits_eq_foldr] at h
  have e : (fun (x y : Nat) => y * 10 + x) = (fun (x y : Nat) => (x : Nat) + 10 * y) := by
    funext x y
    omega
  rw [e]
  simpa using h

theorem showNat_ne_nil (n : Nat) : showNat n ≠ [] := by
  unfold showNat
  split
  · simp
  · rename_i h
    simp only [ne_eq, List.map_eq_nil_iff, List.reverse_eq_nil_iff]
    exact Nat.digits_ne_nil_iff_ne_zero.mpr h

theorem isDigit_of_mem_showNat (n : Nat) (c : Char) (hc : c ∈ showNat n) : IsDigit c := by
  unfold showNat at hc
  split at hc
  · simp only [List.mem_singleton] at hc
    subst hc
    decide
  · simp only [List.mem_map, List.mem_reverse] at hc
    obtain ⟨d, hd, rfl⟩ := hc
    exact isDigit_digitChar d (Nat.digits_lt_base (by norm_num) hd)

theorem parseUint_showNat (n : Nat) (hn : n < 18446744073709551616) :
    parseUint (showNat n) 0 = some n := by
  unfold showNat
  split
  · rename_i h
    subst h
    decide
  · have hv := valueFrom_reverse_digits n
    have := parseUint_digits (Nat.digits 10 n).reverse 0
      (fun d hd => Nat.digits_lt_base (by norm_num) (List.mem_reverse.mp hd))
      (by rw [hv]; exact hn)
    rw [this, hv]

/-- `Atoi` reads back the numeral of a natural number below `2^63`. -/
theorem Atoi_showNat (n : Nat) (hn : n < 9223372036854775808) :
    Atoi (showNat n) = (n : Int) := by
  have hne := showNat_ne_nil n
  have hdig := isDigit_of_mem_showNat n
  have hp := parseUint_showNat n (by omega)
  cases hs : showNat n with
  | nil => exact absurd hs hne
  | cons c r =>
    rw [hs] at hp hdig
    have hc : IsDigit c := hdig c (List.mem_cons_self _ _)
    have hc1 : c ≠ '-' := by
      intro e; subst e; revert hc; decide
    have hc2 : c ≠ '+' := by
      intro e; subst e; revert hc; decide
    unfold Atoi
    simp only [hc1, hc2, or_self, if_false, hp]
    rw [if_neg (by simp), if_neg (by omega)]

/-- `Atoi` reads back the numeral of every Go `int`. -/
theorem Atoi_showInt (i : Int) (h1 : -9223372036854775808 ≤ i) (h2 : i < 9223372036854775808) :
    Atoi (showInt i) = i := by
  unfold showInt
  split
  · rename_i hneg
    have hne := showNat_ne_nil i.natAbs
    have hp := parseUint_showNat i.natAbs (by omega)
    unfold Atoi
    simp only [true_or, if_true, hp]
    rw [if_neg hne, if_neg (by omega)]
    omega
  · rename_i hpos
    rw [Atoi_showNat _ (by omega)]
    omega

theorem mem_showInt (i : Int) (c : Char) (hc : c ∈ showInt i) : c = '-' ∨ IsDigit c := by
  unfold showInt at hc
  split at hc
  · rcases List.mem_cons.mp hc with h | h
    · exact Or.inl h
    · exact Or.inr (isDigit_of_mem_showNat _ _ h)
  · exact Or.inr (isDigit_of_mem_showNat _ _ hc)

end strconv

/-! ### Day 23: reading the drones -/

namespace Day23

theorem readLines_append (l rest : List Char) (hl : '\n' ∉ l) :
    readLines (l ++ '\n' :: rest) = (l ++ ['\n']) :: readLines rest := by
  induction l with
  | nil => simp [readLines]
  | cons c l ih =>
    have hc : c ≠ '\n' := fun e => hl (by simp [e])
    have hl2 : '\n' ∉ l := fun e => hl (List.mem_cons_of_mem _ e)
    have e : readLines (c :: (l ++ '\n' :: rest)) =
        if c = '\n' then [c] :: readLines (l ++ '\n' :: rest)
        else
          match readLines (l ++ '\n' :: rest) with
          | [] => []
          | l :: ls => (c :: l) :: ls := rfl
    rw [List.cons_append, e, if_neg hc, ih hl2]
    rfl

theorem not_mem_showInt (i : Int) (c : Char) (h1 : c ≠ '-') (h2 : ¬ strconv.IsDigit c) :
    c ∉ strconv.showInt i := by
  intro hc
  rcases strconv.mem_showInt i c hc with h | h
  · exact h1 h
  · exact h2 h

theorem not_mem_droneLine (d : Drone) : '\n' ∉ droneLine d := by
  have hx := not_mem_showInt d.Loc.X '\n' (by decide) (by decide)
  have hy := not_mem_showInt d.Loc.Y '\n' (by decide) (by decide)
  have hz := not_mem_showInt d.Loc.Z '\n' (by decide) (by decide)
  have hp := not_mem_showInt d.Power '\n' (by decide) (by decide)
  unfold droneLine
  simp only [List.mem_append, not_or]
  exact ⟨⟨⟨⟨⟨⟨⟨by decide, hx⟩, by decide⟩, hy⟩, by decide⟩, hz⟩, by decide⟩, hp⟩

/-- The parser reads a drone back from its line. -/
theorem parseLine_droneLine (d : Drone) (h : d.Wf) : parseLine (droneLine d) = some d := by
  obtain ⟨⟨⟨hx1, hx2⟩, ⟨hy1, hy2⟩, ⟨hz1, hz2⟩⟩, ⟨hp1, hp2⟩⟩ := h
  have gx := not_mem_showInt d.Loc.X '>' (by decide) (by decide)
  have gy := not_mem_showInt d.Loc.Y '>' (by decide) (by decide)
  have gz := not_mem_showInt d.Loc.Z '>' (by decide) (by decide)
  have gp := not_mem_showInt d.Power '>' (by decide) (by decide)
  have cx := not_mem_showInt d.Loc.X ',' (by decide) (by decide)
  have cy := not_mem_showInt d.Loc.Y ',' (by decide) (by decide)
  have cz := not_mem_showInt d.Loc.Z ',' (by decide) (by decide)
  have hlen : ¬ (droneLine d).length < 5 := by
    simp [droneLine]
  have hdrop : (droneLine d).drop 5 =
      (strconv.showInt d.Loc.X ++ [','] ++ strconv.showInt d.Loc.Y ++ [',']
        ++ strconv.showInt d.Loc.Z) ++ ['>', ',', ' ', 'r', '='] ++ strconv.showInt d.Power := by
    simp [droneLine]
  have hsplit : strings.Split ((droneLine d).drop 5) ['>', ',', ' ', 'r', '='] =
      [strconv.showInt d.Loc.X ++ [','] ++ strconv.showInt d.Loc.Y ++ [',']
        ++ strconv.showInt d.Loc.Z, strconv.showInt d.Power] := by
    rw [hdrop]
    unfold strings.Split
    rw [strings.splitFrom_append_sep, strings.splitFrom_of_not_mem _ _ _ gp]
    simp only [List.mem_append, not_or]
    exact ⟨⟨⟨⟨gx, by decide⟩, gy⟩, by decide⟩, gz⟩
  have hpos : strings.Split (strconv.showInt d.Loc.X ++ [','] ++ strconv.showInt d.Loc.Y
      ++ [','] ++ strconv.showInt d.Loc.Z) [','] =
      [strconv.showInt d.Loc.X, strconv.showInt d.Loc.Y, strconv.showInt d.Loc.Z] := by
    unfold strings.Split
    have e : strconv.showInt d.Loc.X ++ [','] ++ strconv.showInt d.Loc.Y ++ [',']
        ++ strconv.showInt d.Loc.Z =
        strconv.showInt d.Loc.X ++ [','] ++ (strconv.showInt d.Loc.Y ++ [',']
        ++ strconv.showInt d.Loc.Z) := by simp
    rw [e, strings.splitFrom_append_sep _ _ _ _ cx, strings.splitFrom_append_sep _ _ _ _ cy,
      strings.splitFrom_of_not_mem _ _ _ cz]
  unfold parseLine
  rw [if_neg hlen]
  simp only [hsplit, hpos]
  rw [strconv.Atoi_showInt _ hx1 hx2, strconv.Atoi_showInt _ hy1 hy2,
    strconv.Atoi_showInt _ hz1 hz2, strconv.Atoi_showInt _ hp1 hp2]

theorem parseLines_droneLines (ds acc : DroneList) (h : ∀ d ∈ ds, d.Wf) :
    parseLines (ds.map (fun d => droneLine d ++ ['\n'])) acc = some (acc ++ ds) := by
  induction ds generalizing acc with
  | nil => simp [parseLines]
  | cons d ds ih =>
    simp only [List.map_cons, parseLines, List.dropLast_concat,
      parseLine_droneLine d (h d (List.mem_cons_self _ _))]
    rw [ih _ (fun x hx => h x (List.mem_cons_of_mem _ hx))]
    simp

theorem readLines_droneLines (ds : DroneList) :
    readLines (ds.flatMap (fun d => droneLine d ++ ['\n'])) =
      ds.map (fun d => droneLine d ++ ['\n']) := by
  induction ds with
  | nil => simp [readLines]
  | cons d ds ih =>
    simp only [List.flatMap_cons, List.map_cons, List.append_assoc, List.singleton_append]
    rw [readLines_append _ _ (not_mem_droneLine d), ih]

/-- C10: for drones whose four fields are Go `int`s, the parser turns the
text made of their newline-terminated lines `pos=<x,y,z>, r=p` into exactly
these drones, in the order of the lines. -/
theorem readDrones_droneLines (ds : DroneList) (h : ∀ d ∈ ds, d.Wf) :
    readDrones (ds.flatMap (fun d => droneLine d ++ ['\n'])) = some ds := by
  unfold readDrones
  rw [readLines_droneLines, parseLines_droneLines ds [] h]
  simp

/-- Witness for C10: two lines, one with negative numbers. -/
theorem readDrones_droneLines_witness :
    readDrones (([⟨⟨1, -2, 3⟩, 4⟩, ⟨⟨0, 5, -7⟩, 60⟩] : DroneList).flatMap
      (fun d => droneLine d ++ ['\n'])) = some [⟨⟨1, -2, 3⟩, 4⟩, ⟨⟨0, 5, -7⟩, 60⟩] :=
  readDrones_droneLines [⟨⟨1, -2, 3⟩, 4⟩, ⟨⟨0, 5, -7⟩, 60⟩] (by decide)

end Day23

namespace Day23

theorem parseLine_none_iff (l : List Char) : parseLine l = none ↔ Stops l := by
  unfold parseLine Stops
  by_cases hlen : l.length < 5
  · simp [hlen]
  · rw [if_neg hlen]
    have hinf := strings.splitFrom_length_iff ['>', ',', ' ', 'r', '='] (by simp) (l.drop 5) 0
    rw [List.drop_zero] at hinf
    have hne := strings.splitFrom_ne_nil ['>', ',', ' ', 'r', '='] (l.drop 5) 0
    unfold strings.Split at *
    cases hsp : strings.splitFrom ['>', ',', ' ', 'r', '='] (l.drop 5) 0 with
    | nil => exact absurd hsp hne
    | cons p0 ps =>
      rw [hsp] at hinf
      cases ps with
      | nil =>
        have : ¬ ['>', ',', ' ', 'r', '='] <:+: l.drop 5 := by
          rw [← hinf]; simp
        simp [hlen, this]
      | cons p1 ps =>
        have hin : ['>', ',', ' ', 'r', '='] <:+: l.drop 5 := by
          rw [← hinf]; simp
        have hc := strings.split_single_length ',' p0
        unfold strings.Split at hc
        simp only [hlen, hin, not_true_eq_false, false_or, List.headD_cons]
        cases hq : strings.splitFrom [','] p0 0 with
        | nil => rw [hq] at hc; simp at hc
        | cons s0 qs =>
          cases qs with
          | nil =>
            rw [hq] at hc
            simp only [List.length_singleton] at hc
            simp only [true_iff]
            omega
          | cons s1 qs =>
            cases qs with
            | nil =>
              rw [hq] at hc
              simp only [List.length_cons, List.length_nil] at hc
              simp only [true_iff]
              omega
            | cons s2 qs =>
              rw [hq] at hc
              simp only [List.length_cons] at hc
              simp only [reduceCtorEq, false_iff, not_lt]
              omega

theorem parseLines_none_iff (ls : List (List Char)) (acc : DroneList) :
    parseLines ls acc = none ↔ ∃ l ∈ ls, parseLine l.dropLast = none := by
  induction ls generalizing acc with
  | nil => simp [parseLines]
  | cons l ls ih =>
    unfold parseLines
    cases hp : parseLine l.dropLast with
    | none => simp [hp]
    | some d =>
      simp only [List.mem_cons, exists_eq_or_imp, hp, reduceCtorEq, false_or]
      exact ih _

theorem parseLines_length (ls : List (List Char)) (acc ds : DroneList)
    (h : parseLines ls acc = some ds) : ds.length = acc.length + ls.length := by
  induction ls generalizing acc with
  | nil =>
    simp only [parseLines, Option.some.injEq] at h
    simp [h]
  | cons l ls ih =>
    unfold parseLines at h
    cases hp : parseLine l.dropLast with
    | none => rw [hp] at h; simp at h
    | some d =>
      rw [hp] at h
      rw [ih _ h, List.length_append, List.length_cons, List.length_cons, List.length_nil]
      omega

/-- C8 (as amended): a line stops the program instead of adding a drone
exactly when, its newline removed, it has fewer than five bytes, has no
`>, r=` after its fifth byte, or has fewer than two commas before the first
`>, r=`; the program stops exactly when the input has such a line, and
otherwise every newline-terminated line, well-formed or not, adds one drone. -/
theorem readDrones_stops_iff (input : List Char) :
    (∀ l, parseLine l = none ↔ Stops l) ∧
    (readDrones input = none ↔ ∃ l ∈ readLines input, Stops l.dropLast) ∧
    (∀ ds, readDrones input = some ds → ds.length = (readLines input).length) := by
  refine ⟨parseLine_none_iff, ?_, ?_⟩
  · unfold readDrones
    rw [parseLines_none_iff]
    constructor
    · rintro ⟨l, hl, h⟩
      exact ⟨l, hl, (parseLine_none_iff _).mp h⟩
    · rintro ⟨l, hl, h⟩
      exact ⟨l, hl, (parseLine_none_iff _).mpr h⟩
  · intro ds h
    have := parseLines_length _ _ _ h
    simpa using this

theorem take_five_of_isDroneLine (l : List Char) (h : IsDroneLine l) :
    l.take 5 = ['p', 'o', 's', '=', '<'] := by
  obtain ⟨d, rfl⟩ := h
  simp [droneLine]

/-- C8 fails as stated: the line `hello1,2,3>, r=4` is not of the form
`pos=<x,y,z>, r=p`, yet the program does not stop on it and adds the drone
`(1, 2, 3)` with power `4`. -/
theorem readDrones_accepts_malformed :
    ¬ IsDroneLine "hello1,2,3>, r=4".toList ∧
    readDrones "hello1,2,3>, r=4\n".toList = some [⟨⟨1, 2, 3⟩, 4⟩] := by
  constructor
  · intro h
    have := take_five_of_isDroneLine _ h
    revert this
    decide
  · decide

end Day23

/-! ### The node pattern -/

namespace regexp

theorem Class.test_disjoint (k k' : Class) (h : k ≠ k') (c : Char) (hc : k'.test c = true) :
    k.test c = false := by
  cases k <;> cases k'
  · exact absurd rfl h
  · simp only [Class.test, decide_eq_true_eq] at hc
    subst hc
    decide
  · simp only [Class.test, decide_eq_true_eq, decide_eq_false_iff_not] at hc ⊢
    intro e
    subst e
    revert hc
    decide
  · exact absurd rfl h

theorem Tok.not_test_of_apart (k : Class) (t : Tok) (h : Tok.apart k t) (c : Char)
    (hc : t.starts c) : k.test c = false := by
  cases t with
  | lit c' =>
    simp only [Tok.starts] at hc
    subst hc
    exact h
  | plus k' cap => exact Class.test_disjoint k k' h c hc

/-- A non-empty pattern matches only non-empty text, which begins with a byte
the first piece can begin with. -/
theorem Matches.head (t : Tok) (ts : List Tok) (m : List Char) (caps : List (List Char))
    (h : Matches (t :: ts) m caps) : ∃ c r, m = c :: r ∧ t.starts c := by
  cases t with
  | lit c' =>
    obtain ⟨r, hm, _⟩ := h
    exact ⟨c', r, hm, rfl⟩
  | plus k cap =>
    obtain ⟨d, r, caps', hd, hall, hm, _, _⟩ := h
    cases d with
    | nil => exact absurd rfl hd
    | cons c d =>
      exact ⟨c, d ++ r, by simp [hm], hall c (List.mem_cons_self _ _)⟩

theorem takeWhile_append_stop (p : Char → Bool) (d r : List Char)
    (hd : ∀ c ∈ d, p c = true) (hr : ∀ c r', r = c :: r' → p c = false) :
    (d ++ r).takeWhile p = d ∧ (d ++ r).dropWhile p = r := by
  induction d with
  | nil =>
    cases r with
    | nil => simp
    | cons c r' =>
      have := hr c r' rfl
      simp [List.takeWhile, List.dropWhile, this]
  | cons c d ih =>
    have hc := hd c (List.mem_cons_self _ _)
    have := ih (fun x hx => hd x (List.mem_cons_of_mem _ hx))
    simp [List.takeWhile, List.dropWhile, hc, this]

/-- The greedy matcher finds every match of a pattern satisfying `Det`. -/
theorem matchToks_complete (ts : List Tok) (hdet : Det ts) (m post : List Char)
    (caps : List (List Char)) (h : Matches ts m caps) :
    matchToks ts (m ++ post) = some (caps, post) := by
  induction ts generalizing m caps with
  | nil =>
    obtain ⟨rfl, rfl⟩ := h
    simp [matchToks]
  | cons t ts ih =>
    cases t with
    | lit c =>
      obtain ⟨r, rfl, hr⟩ := h
      simp only [List.cons_append, matchToks, if_true]
      exact ih hdet r caps hr
    | plus k cap =>
      obtain ⟨d, r, caps', hd, hall, rfl, hr, rfl⟩ := h
      cases ts with
      | nil => simp [Det] at hdet
      | cons t' ts' =>
        obtain ⟨hap, hdet'⟩ := hdet
        obtain ⟨c0, r0, hr0, hstart⟩ := Matches.head t' ts' r caps' hr
        have hstop : ∀ c r', r ++ post = c :: r' → k.test c = false := by
          intro c r' e
          rw [hr0] at e
          simp only [List.cons_append, List.cons.injEq] at e
          rw [← e.1]
          exact Tok.not_test_of_apart k t' hap c0 hstart
        obtain ⟨e1, e2⟩ := takeWhile_append_stop k.test d (r ++ post) hall hstop
        have ih' := ih hdet' r caps' hr
        rw [List.append_assoc]
        unfold matchToks
        simp only [e1, e2, if_neg hd, ih']

/-- What the greedy matcher returns is a match. -/
theorem matchToks_sound (ts : List Tok) (s rest : List Char) (caps : List (List Char))
    (h : matchToks ts s = some (caps, rest)) :
    ∃ m, s = m ++ rest ∧ Matches ts m caps := by
  induction ts generalizing s caps with
  | nil =>
    simp only [matchToks, Option.some.injEq, Prod.mk.injEq] at h
    obtain ⟨rfl, rfl⟩ := h
    exact ⟨[], rfl, rfl, rfl⟩
  | cons t ts ih =>
    cases t with
    | lit c =>
      cases s with
      | nil => simp [matchToks] at h
      | cons d s =>
        simp only [matchToks] at h
        split at h
        · rename_i hcd
          subst hcd
          obtain ⟨m, hm, hM⟩ := ih s caps h
          exact ⟨c :: m, by simp [hm], m, rfl, hM⟩
        · simp at h
    | plus k cap =>
      unfold matchToks at h
      simp only at h
      split at h
      · simp at h
      · rename_i hrun
        cases hrec : matchToks ts (s.dropWhile k.test) with
        | none => rw [hrec] at h; simp at h
        | some res =>
          obtain ⟨caps', rest'⟩ := res
          rw [hrec] at h
          simp only [Option.some.injEq, Prod.mk.injEq] at h
          obtain ⟨hcaps, rfl⟩ := h
          obtain ⟨m, hm, hM⟩ := ih _ caps' hrec
          refine ⟨s.takeWhile k.test ++ m, ?_, s.takeWhile k.test, m, caps', hrun, ?_, rfl, hM,
            hcaps.symm⟩
          · rw [List.append_assoc, ← hm, List.takeWhile_append_dropWhile]
          · intro c hc
            exact List.mem_takeWhile_imp hc

theorem Matches.length_caps (ts : List Tok) (m : List Char) (caps : List (List Char))
    (h : Matches ts m caps) : caps.length = groups ts := by
  induction ts generalizing m caps with
  | nil => simp [h.2, groups]
  | cons t ts ih =>
    cases t with
    | lit c =>
      obtain ⟨r, _, hr⟩ := h
      simpa [groups] using ih r caps hr
    | plus k cap =>
      obtain ⟨d, r, caps', _, _, _, hr, rfl⟩ := h
      have := ih r caps' hr
      cases cap <;> simp [groups, this]; omega

/-- `FindStringSubmatch` returns `nil` or a match found in the line, together
with its capture groups. -/
theorem FindStringSubmatch_sound (ts : List Tok) (l : List Char) :
    FindStringSubmatch ts l = [] ∨
    ∃ pre w post caps, l = pre ++ w ++ post ∧ Matches ts w caps ∧
      FindStringSubmatch ts l = w :: caps := by
  induction l with
  | nil =>
    unfold FindStringSubmatch
    cases h : matchToks ts [] with
    | none => exact Or.inl rfl
    | some res =>
      obtain ⟨caps, rest⟩ := res
      obtain ⟨m, hm, hM⟩ := matchToks_sound ts [] rest caps h
      have hm0 : m = [] := by
        cases m with
        | nil => rfl
        | cons a b => simp at hm
      subst hm0
      exact Or.inr ⟨[], [], [], caps, rfl, hM, rfl⟩
  | cons c s ih =>
    unfold FindStringSubmatch
    cases h : matchToks ts (c :: s) with
    | none =>
      rcases ih with ih | ⟨pre, w, post, caps, hl, hM, hF⟩
      · exact Or.inl ih
      · exact Or.inr ⟨c :: pre, w, post, caps, by simp [hl], hM, hF⟩
    | some res =>
      obtain ⟨caps, rest⟩ := res
      obtain ⟨m, hm, hM⟩ := matchToks_sound ts (c :: s) rest caps h
      refine Or.inr ⟨[], m, rest, caps, by simp [hm], hM, ?_⟩
      simp only [hm, List.length_append, Nat.add_sub_cancel, List.take_left]

/-- For a pattern satisfying `Det`, `FindStringSubmatch` returns `nil` only
when the line contains no match. -/
theorem FindStringSubmatch_complete (ts : List Tok) (hdet : Det ts) (l : List Char)
    (h : ContainsMatch ts l) : FindStringSubmatch ts l ≠ [] := by
  obtain ⟨pre, m, post, caps, rfl, hM⟩ := h
  have hmatch := matchToks_complete ts hdet m post caps hM
  induction pre with
  | nil =>
    simp only [List.nil_append]
    cases hmp : m ++ post with
    | nil =>
      rw [hmp] at hmatch
      simp [FindStringSubmatch, hmatch]
    | cons c s =>
      rw [hmp] at hmatch
      simp [FindStringSubmatch, hmatch]
  | cons c pre ih =>
    simp only [List.cons_append, List.append_assoc] at ih ⊢
    unfold FindStringSubmatch
    cases h : matchToks ts (c :: (pre ++ (m ++ post))) with
    | none => exact ih
    | some res => simp

/-- `FindStringSubmatch` returns `nil` exactly when the line contains no
match, and otherwise the whole match followed by one string per group. -/
theorem FindStringSubmatch_iff (ts : List Tok) (hdet : Det ts) (l : List Char) :
    (FindStringSubmatch ts l = [] ↔ ¬ ContainsMatch ts l) ∧
    (ContainsMatch ts l → (FindStringSubmatch ts l).length = groups ts + 1) := by
  rcases FindStringSubmatch_sound ts l with h | ⟨pre, w, post, caps, hl, hM, hF⟩
  · refine ⟨⟨fun _ hc => FindStringSubmatch_complete ts hdet l hc h, fun _ => h⟩, ?_⟩
    intro hc
    exact absurd h (FindStringSubmatch_complete ts hdet l hc)
  · have hc : ContainsMatch ts l := ⟨pre, w, post, caps, hl, hM⟩
    refine ⟨⟨fun h0 => ?_, fun hn => absurd hc hn⟩, fun _ => ?_⟩
    · rw [hF] at h0; simp at h0
    · rw [hF, List.length_cons, Matches.length_caps ts w caps hM]

end regexp

/-! ### Go maps -/

namespace GoMap

theorem get_set {κ ν : Type} [DecidableEq κ] [Zero ν] (m : List (κ × ν)) (k k' : κ) (v : ν) :
    get (set m k v) k' = if k = k' then v else get m k' := by
  induction m with
  | nil => simp [set, get]
  | cons p m ih =>
    obtain ⟨a, b⟩ := p
    by_cases hak : a = k
    · subst hak
      by_cases hk : a = k' <;> simp [set, get, hk]
    · by_cases hk : k = k'
      · subst hk
        simp [set, get, hak, ih]
      · by_cases hak' : a = k'
        · subst hak'
          simp [set, get, hak, hk]
        · simp [set, get, hak, hak', ih, hk]

theorem keys_set {κ ν : Type} [DecidableEq κ] (m : List (κ × ν)) (k : κ) (v : ν) :
    keys (set m k v) = if k ∈ keys m then keys m else keys m ++ [k] := by
  induction m with
  | nil => simp [set, keys]
  | cons p m ih =>
    obtain ⟨a, b⟩ := p
    by_cases hak : a = k
    · subst hak
      simp [set, keys]
    · have hka : ¬ k = a := fun e => hak e.symm
      unfold keys at ih ⊢
      simp only [set, if_neg hak, List.map_cons, List.mem_cons, hka, false_or, ih]
      split <;> simp

theorem mem_keys_set {κ ν : Type} [DecidableEq κ] (m : List (κ × ν)) (k k' : κ) (v : ν) :
    k' ∈ keys (set m k v) ↔ k' = k ∨ k' ∈ keys m := by
  rw [keys_set]
  split
  · rename_i h
    constructor
    · exact Or.inr
    · rintro (rfl | h')
      · exact h
      · exact h'
  · simp only [List.mem_append, List.mem_singleton]
    tauto

theorem nodup_keys_set {κ ν : Type} [DecidableEq κ] (m : List (κ × ν)) (k : κ) (v : ν)
    (h : (keys m).Nodup) : (keys (set m k v)).Nodup := by
  rw [keys_set]
  split
  · exact h
  · rename_i hk
    rw [List.nodup_append]
    refine ⟨h, by simp, ?_⟩
    intro a ha hb
    simp only [List.mem_singleton] at hb
    subst hb
    exact hk ha

end GoMap

/-! ### Day 22: `parse` -/

namespace Day22

theorem det_nodePattern : regexp.Det nodePattern := by decide

theorem groups_nodePattern : regexp.groups nodePattern = 4 := by decide

theorem parseLoop_none_iff (input : List (List Char)) (capacity usage : State) :
    parseLoop input capacity usage = none ↔
      ∃ l ∈ input, ¬ regexp.ContainsMatch nodePattern l := by
  induction input generalizing capacity usage with
  | nil => simp [parseLoop]
  | cons l input ih =>
    obtain ⟨h1, h2⟩ := regexp.FindStringSubmatch_iff nodePattern det_nodePattern l
    unfold parseLoop
    simp only [List.mem_cons, exists_eq_or_imp]
    by_cases hc : regexp.ContainsMatch nodePattern l
    · have hlen := h2 hc
      rw [groups_nodePattern] at hlen
      simp only [hlen, ne_eq, not_true_eq_false, if_false, hc, false_or]
      exact ih _ _
    · have hnil := h1.mpr hc
      simp [hnil, hc]

/-- C7: `parse` ends the process at line 93, returning no maps, exactly when
some input line contains no match of the node pattern; when every line
contains a match it returns the usage map and the capacity map. -/
theorem parse_fatal_iff (input : List (List Char)) :
    (parse input = none ↔ ∃ l ∈ input, ¬ regexp.ContainsMatch nodePattern l) ∧
    ((∀ l ∈ input, regexp.ContainsMatch nodePattern l) →
      ∃ usage capacity, parse input = some (usage, capacity)) := by
  have h := parseLoop_none_iff input [] []
  refine ⟨h, fun hall => ?_⟩
  cases hp : parse input with
  | none =>
    obtain ⟨l, hl, hn⟩ := h.mp hp
    exact absurd (hall l hl) hn
  | some r => exact ⟨r.1, r.2, rfl⟩

end Day22

namespace regexp

theorem Matches.lits (w : List Char) (ts : List Tok) (r : List Char) (caps : List (List Char))
    (h : Matches ts r caps) : Matches (w.map Tok.lit ++ ts) (w ++ r) caps := by
  induction w with
  | nil => simpa using h
  | cons c w ih => exact ⟨w ++ r, rfl, ih⟩

theorem Matches.group (k : Class) (ts : List Tok) (d r : List Char)
    (caps : List (List Char)) (hd : d ≠ []) (hall : ∀ c ∈ d, k.test c = true)
    (h : Matches ts r caps) :
    Matches (Tok.plus k true :: ts) (d ++ r) (d :: caps) :=
  ⟨d, r, caps, hd, hall, rfl, h, rfl⟩

theorem Matches.ungrouped (k : Class) (ts : List Tok) (d r : List Char)
    (caps : List (List Char)) (hd : d ≠ []) (hall : ∀ c ∈ d, k.test c = true)
    (h : Matches ts r caps) :
    Matches (Tok.plus k false :: ts) (d ++ r) caps :=
  ⟨d, r, caps, hd, hall, rfl, h, rfl⟩

theorem Matches.byte (c : Char) (ts : List Tok) (r : List Char)
    (caps : List (List Char)) (h : Matches ts r caps) :
    Matches (Tok.lit c :: ts) (c :: r) caps :=
  ⟨r, rfl, h⟩

theorem FindStringSubmatch_whole (ts : List Tok) (l : List Char) (caps : List (List Char))
    (hl : l ≠ []) (h : matchToks ts l = some (caps, [])) :
    FindStringSubmatch ts l = l :: caps := by
  cases l with
  | nil => exact absurd rfl hl
  | cons c s =>
    unfold FindStringSubmatch
    rw [h]
    simp

end regexp

namespace Day22

theorem digits_showNat (n : Nat) : ∀ c ∈ strconv.showNat n, regexp.Class.digit.test c = true := by
  intro c hc
  simp only [regexp.Class.test, decide_eq_true_eq]
  exact strconv.isDigit_of_mem_showNat n c hc

theorem spaces_replicate (k : Nat) :
    ∀ c ∈ List.replicate (k + 1) ' ', regexp.Class.space.test c = true := by
  intro c hc
  simp only [regexp.Class.test, decide_eq_true_eq]
  exact List.eq_of_mem_replicate hc

/-- A node line as a whole matches the node pattern, the four groups being
its first four numerals. -/
theorem matches_line (n : Node) :
    regexp.Matches nodePattern n.line
      [strconv.showNat n.x, strconv.showNat n.y, strconv.showNat n.size,
        strconv.showNat n.used] := by
  have hne := strconv.showNat_ne_nil
  have hsp : ∀ k, List.replicate (k + 1) ' ' ≠ [] := by
    intro k; simp
  unfold nodePattern Node.line
  simp only [List.append_assoc, List.singleton_append, List.cons_append, List.nil_append]
  apply regexp.Matches.lits
  apply regexp.Matches.group _ _ _ _ _ (hne _) (digits_showNat _)
  apply regexp.Matches.byte
  apply regexp.Matches.byte
  apply regexp.Matches.group _ _ _ _ _ (hne _) (digits_showNat _)
  apply regexp.Matches.ungrouped _ _ _ _ _ (hsp _) (spaces_replicate _)
  apply regexp.Matches.group _ _ _ _ _ (hne _) (digits_showNat _)
  apply regexp.Matches.byte
  apply regexp.Matches.ungrouped _ _ _ _ _ (hsp _) (spaces_replicate _)
  apply regexp.Matches.group _ _ _ _ _ (hne _) (digits_showNat _)
  apply regexp.Matches.byte
  apply regexp.Matches.ungrouped _ _ _ _ _ (hsp _) (spaces_replicate _)
  apply regexp.Matches.ungrouped _ _ _ _ _ (hne _) (digits_showNat _)
  apply regexp.Matches.byte
  apply regexp.Matches.ungrouped _ _ _ _ _ (hsp _) (spaces_replicate _)
  apply regexp.Matches.ungrouped _ _ _ _ _ (hne _) (digits_showNat _)
  apply regexp.Matches.byte
  exact ⟨rfl, rfl⟩

theorem findStringSubmatch_line (n : Node) :
    regexp.FindStringSubmatch nodePattern n.line =
      [n.line, strconv.showNat n.x, strconv.showNat n.y, strconv.showNat n.size,
        strconv.showNat n.used] := by
  have h := regexp.matchToks_complete nodePattern det_nodePattern n.line [] _ (matches_line n)
  rw [List.append_nil] at h
  apply regexp.FindStringSubmatch_whole _ _ _ _ h
  simp [Node.line]

/-- The maps built by `parse` from node lines: one assignment per line. -/
theorem parseLoop_lines (nodes : List Node) (capacity usage : State)
    (h : ∀ n ∈ nodes, n.x ≤ 255 ∧ n.y ≤ 255 ∧ n.size ≤ 65535 ∧ n.used ≤ 65535) :
    parseLoop (nodes.map Node.line) capacity usage =
      some (nodes.foldl (fun m n => GoMap.set m n.key n.used) usage,
        nodes.foldl (fun m n => GoMap.set m n.key n.size) capacity) := by
  induction nodes generalizing capacity usage with
  | nil => simp [parseLoop]
  | cons n nodes ih =>
    obtain ⟨hx, hy, hs, hu⟩ := h n (List.mem_cons_self _ _)
    have ex : ((strconv.Atoi (strconv.showNat n.x)) % 256).toNat = n.x := by
      rw [strconv.Atoi_showNat _ (by omega)]; omega
    have ey : ((strconv.Atoi (strconv.showNat n.y)) % 256).toNat = n.y := by
      rw [strconv.Atoi_showNat _ (by omega)]; omega
    have es : ((strconv.Atoi (strconv.showNat n.size)) % 65536).toNat = n.size := by
      rw [strconv.Atoi_showNat _ (by omega)]; omega
    have eu : ((strconv.Atoi (strconv.showNat n.used)) % 65536).toNat = n.used := by
      rw [strconv.Atoi_showNat _ (by omega)]; omega
    simp only [List.map_cons, List.foldl_cons]
    unfold parseLoop
    simp only [findStringSubmatch_line, List.length_cons, List.length_nil, ne_eq,
      not_true_eq_false, if_false, List.getD_cons_succ, List.getD_cons_zero, ex, ey, es, eu]
    exact ih _ _ (fun m hm => h m (List.mem_cons_of_mem _ hm))

theorem keys_foldl_set (nodes : List Node) (f g : Node → Nat) (m m' : State)
    (h : GoMap.keys m = GoMap.keys m') :
    GoMap.keys (nodes.foldl (fun m n => GoMap.set m n.key (f n)) m) =
      GoMap.keys (nodes.foldl (fun m n => GoMap.set m n.key (g n)) m') := by
  induction nodes generalizing m m' with
  | nil => simpa using h
  | cons n nodes ih =>
    simp only [List.foldl_cons]
    apply ih
    rw [GoMap.keys_set, GoMap.keys_set, h]

theorem nodup_keys_foldl_set (nodes : List Node) (f : Node → Nat) (m : State)
    (h : (GoMap.keys m).Nodup) :
    (GoMap.keys (nodes.foldl (fun m n => GoMap.set m n.key (f n)) m)).Nodup := by
  induction nodes generalizing m with
  | nil => simpa using h
  | cons n nodes ih =>
    simp only [List.foldl_cons]
    exact ih _ (GoMap.nodup_keys_set m _ _ h)

theorem mem_keys_foldl_set (nodes : List Node) (f : Node → Nat) (m : State) (k : Coord) :
    k ∈ GoMap.keys (nodes.foldl (fun m n => GoMap.set m n.key (f n)) m) ↔
      k ∈ GoMap.keys m ∨ ∃ n ∈ nodes, n.key = k := by
  induction nodes generalizing m with
  | nil => simp
  | cons n nodes ih =>
    simp only [List.foldl_cons, List.mem_cons, exists_eq_or_imp]
    rw [ih, GoMap.mem_keys_set]
    constructor
    · rintro ((h | h) | h)
      · exact Or.inr (Or.inl h.symm)
      · exact Or.inl h
      · exact Or.inr (Or.inr h)
    · rintro (h | h | h)
      · exact Or.inl (Or.inr h)
      · exact Or.inl (Or.inl h.symm)
      · exact Or.inr h

theorem get_foldl_set_of_not_mem (nodes : List Node) (f : Node → Nat) (m : State) (k : Coord)
    (h : ∀ n ∈ nodes, n.key ≠ k) :
    GoMap.get (nodes.foldl (fun m n => GoMap.set m n.key (f n)) m) k = GoMap.get m k := by
  induction nodes generalizing m with
  | nil => simp
  | cons n nodes ih =>
    simp only [List.foldl_cons]
    rw [ih _ (fun x hx => h x (List.mem_cons_of_mem _ hx)), GoMap.get_set,
      if_neg (h n (List.mem_cons_self _ _))]

theorem get_foldl_set_last (pre post : List Node) (n : Node) (f : Node → Nat) (m : State)
    (h : ∀ x ∈ post, x.key ≠ n.key) :
    GoMap.get ((pre ++ n :: post).foldl (fun m n => GoMap.set m n.key (f n)) m) n.key = f n := by
  rw [List.foldl_append, List.foldl_cons, get_foldl_set_of_not_mem post f _ _ h, GoMap.get_set,
    if_pos rfl]

/-- C9: from well-formed node lines with `x, y <= 255` and `Size`, `Used`
`<= 65535`, `parse` returns a usage map and a capacity map with the same keys,
the keys being exactly the nodes named by the lines, and for each node the
`Used` and `Size` columns of the last line naming it. -/
theorem parse_lines (nodes : List Node)
    (h : ∀ n ∈ nodes, n.x ≤ 255 ∧ n.y ≤ 255 ∧ n.size ≤ 65535 ∧ n.used ≤ 65535) :
    ∃ usage capacity, parse (nodes.map Node.line) = some (usage, capacity) ∧
      GoMap.keys usage = GoMap.keys capacity ∧ (GoMap.keys usage).Nodup ∧
      (∀ k, k ∈ GoMap.keys usage ↔ ∃ n ∈ nodes, n.key = k) ∧
      (∀ pre n post, nodes = pre ++ n :: post → (∀ m ∈ post, m.key ≠ n.key) →
        GoMap.get usage n.key = n.used ∧ GoMap.get capacity n.key = n.size) := by
  refine ⟨_, _, parseLoop_lines nodes [] [] h, keys_foldl_set nodes _ _ [] [] rfl,
    nodup_keys_foldl_set nodes _ [] (by simp [GoMap.keys]), ?_, ?_⟩
  · intro k
    rw [mem_keys_foldl_set]
    simp [GoMap.keys]
  · intro pre n post hn hpost
    subst hn
    exact ⟨get_foldl_set_last pre post n _ [] hpost, get_foldl_set_last pre post n _ [] hpost⟩

/-- Witness for C9: the nine lines of the demo grid. -/
theorem parse_lines_witness :
    ∃ usage capacity, parse (demoNodes.map Node.line) = some (usage, capacity) ∧
      GoMap.keys usage = GoMap.keys capacity ∧ (GoMap.keys usage).Nodup ∧
      (∀ k, k ∈ GoMap.keys usage ↔ ∃ n ∈ demoNodes, n.key = k) ∧
      (∀ pre n post, demoNodes = pre ++ n :: post → (∀ m ∈ post, m.key ≠ n.key) →
        GoMap.get usage n.key = n.used ∧ GoMap.get capacity n.key = n.size) :=
  parse_lines demoNodes (by decide)

end Day22

namespace Day22

/-- The lines of `demoNodes` are the nine lines of the demo grid. -/
theorem demoNodes_lines : demoNodes.map Node.line = demoLines := by
  simp [demoNodes, Node.line, demoLines, strconv.showNat, strconv.digitChar]

end Day22

/-! ### Day 22: `findAllMoves` -/

namespace GoMap

theorem get_of_mem {κ ν : Type} [DecidableEq κ] [Zero ν] (m : List (κ × ν)) (k : κ) (v : ν)
    (hn : (keys m).Nodup) (h : (k, v) ∈ m) : get m k = v := by
  induction m with
  | nil => simp at h
  | cons p m ih =>
    obtain ⟨a, b⟩ := p
    simp only [keys, List.map_cons, List.nodup_cons] at hn
    rcases List.mem_cons.mp h with h | h
    · simp only [Prod.mk.injEq] at h
      obtain ⟨rfl, rfl⟩ := h
      simp [get]
    · have hak : a ≠ k := by
        intro e
        subst e
        exact hn.1 (List.mem_map_of_mem Prod.fst h)
      simp only [get, if_neg hak]
      exact ih hn.2 h

theorem mem_of_mem_keys {κ ν : Type} [DecidableEq κ] [Zero ν] (m : List (κ × ν)) (k : κ)
    (h : k ∈ keys m) : (k, get m k) ∈ m := by
  induction m with
  | nil => simp [keys] at h
  | cons p m ih =>
    obtain ⟨a, b⟩ := p
    by_cases hak : a = k
    · subst hak
      simp [get]
    · simp only [keys, List.map_cons, List.mem_cons] at h
      rcases h with h | h
      · exact absurd h.symm hak
      · simp only [get, if_neg hak, List.mem_cons]
        exact Or.inr (ih h)

/-- Two listings of the same map read the same value at every key. -/
theorem get_perm {κ ν : Type} [DecidableEq κ] [Zero ν] (m m' : List (κ × ν))
    (hn : (keys m).Nodup) (hp : m'.Perm m) (k : κ) : get m' k = get m k := by
  have hn' : (keys m').Nodup := (List.Perm.nodup_iff (hp.map Prod.fst)).mpr hn
  by_cases hk : k ∈ keys m
  · have h1 := mem_of_mem_keys m k hk
    exact get_of_mem m' k _ hn' (hp.mem_iff.mpr h1)
  · have hk' : k ∉ keys m' := fun h => hk ((hp.map Prod.fst).mem_iff.mp h)
    have hz : ∀ (l : List (κ × ν)), k ∉ keys l → get l k = 0 := by
      intro l
      induction l with
      | nil => intro _; rfl
      | cons p l ih =>
        intro h
        obtain ⟨a, b⟩ := p
        simp only [keys, List.map_cons, List.mem_cons, not_or] at h
        have hak : ¬ a = k := fun e => h.1 e.symm
        simp only [get, if_neg hak]
        exact ih h.2
    rw [hz m hk, hz m' hk']

end GoMap

namespace Day22

theorem mem_findAllMoves (usage capacity : State) (hu : (GoMap.keys usage).Nodup)
    (hc : (GoMap.keys capacity).Nodup) (m : Move) :
    m ∈ findAllMoves usage capacity ↔
      m.From ∈ GoMap.keys usage ∧ GoMap.get usage m.From ≠ 0 ∧ m.To ∈ GoMap.keys capacity ∧
      m.From ≠ m.To ∧
      (GoMap.get usage m.To + GoMap.get usage m.From) % 65536 ≤ GoMap.get capacity m.To := by
  unfold findAllMoves
  simp only [List.mem_flatMap]
  constructor
  · rintro ⟨⟨f, u⟩, hfu, hm⟩
    have hgu := GoMap.get_of_mem usage f u hu hfu
    split at hm
    · simp at hm
    · rename_i hu0
      simp only [List.mem_flatMap] at hm
      obtain ⟨⟨t, c⟩, htc, hm⟩ := hm
      have hgc := GoMap.get_of_mem capacity t c hc htc
      split at hm
      · simp at hm
      · rename_i hft
        split at hm
        · rename_i hle
          simp only [List.mem_singleton] at hm
          subst hm
          simp only at hu0 hft hle ⊢
          refine ⟨List.mem_map_of_mem Prod.fst hfu, by rw [hgu]; exact hu0,
            List.mem_map_of_mem Prod.fst htc, hft, ?_⟩
          rw [hgu, hgc]
          exact hle
        · simp at hm
  · rintro ⟨hf, hu0, ht, hft, hle⟩
    refine ⟨(m.From, GoMap.get usage m.From), GoMap.mem_of_mem_keys usage _ hf, ?_⟩
    simp only [if_neg hu0, List.mem_flatMap]
    refine ⟨(m.To, GoMap.get capacity m.To), GoMap.mem_of_mem_keys capacity _ ht, ?_⟩
    simp only [if_neg hft, if_pos hle, List.mem_singleton]

theorem nodup_findAllMoves (usage capacity : State) (hu : (GoMap.keys usage).Nodup)
    (hc : (GoMap.keys capacity).Nodup) : (findAllMoves usage capacity).Nodup := by
  unfold findAllMoves
  have hu' : usage.Nodup := List.Nodup.of_map _ hu
  have hc' : capacity.Nodup := List.Nodup.of_map _ hc
  rw [List.nodup_flatMap]
  constructor
  · rintro ⟨f, u⟩ _
    split
    · exact List.nodup_nil
    · rw [List.nodup_flatMap]
      constructor
      · rintro ⟨t, c⟩ _
        split
        · exact List.nodup_nil
        · split
          · exact List.nodup_singleton _
          · exact List.nodup_nil
      · refine (List.pairwise_map.mp hc).imp ?_
        rintro ⟨t, c⟩ ⟨t', c'⟩ htt
        simp only [Function.onFun]
        intro x hx hx'
        split at hx
        · simp at hx
        · split at hx
          · split at hx'
            · simp at hx'
            · split at hx'
              · simp only [List.mem_singleton] at hx hx'
                rw [hx] at hx'
                simp only [Move.mk.injEq, true_and] at hx'
                exact htt hx'
              · simp at hx'
          · simp at hx
  · refine (List.pairwise_map.mp hu).imp ?_
    rintro ⟨f, u⟩ ⟨f', u'⟩ hff
    simp only [Function.onFun]
    intro x hx hx'
    have key : ∀ (g : Coord) (v : Nat), x ∈ (if v = 0 then []
        else
          capacity.flatMap fun tc =>
            if g = tc.1 then []
            else if (GoMap.get usage tc.1 + v) % 65536 ≤ tc.2 then [(⟨g, tc.1⟩ : Move)]
            else []) → x.From = g := by
      intro g v hx
      split at hx
      · simp at hx
      · simp only [List.mem_flatMap] at hx
        obtain ⟨tc, _, hx⟩ := hx
        split at hx
        · simp at hx
        · split at hx
          · simp only [List.mem_singleton] at hx
            rw [hx]
          · simp at hx
    exact hff ((key f u hx).symm.trans (key f' u' hx'))

end Day22

namespace Day22

/-- The maps of the demo grid are what `parse` returns for its nine lines. -/
theorem parse_demoLines : parse demoLines = some (demoUsage, demoCapacity) := by
  decide

theorem mem_findAllMoves_pair (usage capacity : State) (hu : (GoMap.keys usage).Nodup)
    (hc : (GoMap.keys capacity).Nodup)
    (hk : ∀ k, k ∈ GoMap.keys usage ↔ k ∈ GoMap.keys capacity)
    (hsum : ∀ a ∈ GoMap.keys usage, ∀ b ∈ GoMap.keys usage,
      GoMap.get usage a + GoMap.get usage b < 65536) (a b : Coord) :
    (⟨a, b⟩ : Move) ∈ findAllMoves usage capacity ↔ (a, b) ∈ viablePairs usage capacity := by
  rw [mem_findAllMoves usage capacity hu hc]
  unfold viablePairs
  simp only [Finset.mem_filter, Finset.mem_product, List.mem_toFinset]
  constructor
  · rintro ⟨ha, h0, hb, hab, hle⟩
    have hb' := (hk b).mpr hb
    have := hsum b hb' a ha
    rw [Nat.mod_eq_of_lt this] at hle
    exact ⟨⟨ha, hb'⟩, hab, h0, by omega⟩
  · rintro ⟨⟨ha, hb⟩, hab, h0, hle⟩
    have := hsum b hb a ha
    refine ⟨ha, h0, (hk b).mp hb, hab, ?_⟩
    rw [Nat.mod_eq_of_lt this]
    omega

/-- C3: for a usage map and a capacity map with the same keys in which no
sum of two usages reaches `65536`, `findAllMoves` returns a duplicate-free
list with one move per viable pair, and listing the two maps in another order
only permutes the result. -/
theorem findAllMoves_viablePairs (usage capacity : State) (hu : (GoMap.keys usage).Nodup)
    (hc : (GoMap.keys capacity).Nodup)
    (hk : ∀ k, k ∈ GoMap.keys usage ↔ k ∈ GoMap.keys capacity)
    (hsum : ∀ a ∈ GoMap.keys usage, ∀ b ∈ GoMap.keys usage,
      GoMap.get usage a + GoMap.get usage b < 65536) :
    (findAllMoves usage capacity).Nodup ∧
    (findAllMoves usage capacity).length = (viablePairs usage capacity).card ∧
    ∀ usage' capacity' : State, usage'.Perm usage → capacity'.Perm capacity →
      (findAllMoves usage' capacity').Perm (findAllMoves usage capacity) ∧
      (findAllMoves usage' capacity').length = (viablePairs usage capacity).card := by
  have hnd := nodup_findAllMoves usage capacity hu hc
  have hinj : Function.Injective (fun m : Move => (m.From, m.To)) := by
    rintro ⟨a, b⟩ ⟨a', b'⟩ h
    simp only [Prod.mk.injEq] at h
    simp [h.1, h.2]
  have hlen : (findAllMoves usage capacity).length = (viablePairs usage capacity).card := by
    have hnd' := hnd.map hinj
    have hset : ((findAllMoves usage capacity).map (fun m : Move => (m.From, m.To))).toFinset =
        viablePairs usage capacity := by
      ext ⟨a, b⟩
      rw [← mem_findAllMoves_pair usage capacity hu hc hk hsum a b]
      simp only [List.mem_toFinset, List.mem_map, Prod.mk.injEq]
      constructor
      · rintro ⟨⟨a', b'⟩, hm, rfl, rfl⟩
        exact hm
      · intro hm
        exact ⟨⟨a, b⟩, hm, rfl, rfl⟩
    rw [← hset, List.toFinset_card_of_nodup hnd', List.length_map]
  refine ⟨hnd, hlen, ?_⟩
  intro usage' capacity' hpu hpc
  have hu' : (GoMap.keys usage').Nodup := (List.Perm.nodup_iff (hpu.map Prod.fst)).mpr hu
  have hc' : (GoMap.keys capacity').Nodup := (List.Perm.nodup_iff (hpc.map Prod.fst)).mpr hc
  have hperm : (findAllMoves usage' capacity').Perm (findAllMoves usage capacity) := by
    rw [List.perm_ext_iff_of_nodup (nodup_findAllMoves usage' capacity' hu' hc') hnd]
    intro m
    rw [mem_findAllMoves usage' capacity' hu' hc', mem_findAllMoves usage capacity hu hc]
    rw [GoMap.get_perm usage usage' hu hpu, GoMap.get_perm usage usage' hu hpu,
      GoMap.get_perm capacity capacity' hc hpc]
    have e1 : m.From ∈ GoMap.keys usage' ↔ m.From ∈ GoMap.keys usage :=
      (hpu.map Prod.fst).mem_iff
    have e2 : m.To ∈ GoMap.keys capacity' ↔ m.To ∈ GoMap.keys capacity :=
      (hpc.map Prod.fst).mem_iff
    rw [e1, e2]
  exact ⟨hperm, by rw [hperm.length_eq, hlen]⟩

/-- Witness for C3: the maps of the demo grid. -/
theorem findAllMoves_viablePairs_witness :
    (findAllMoves demoUsage demoCapacity).Nodup ∧
    (findAllMoves demoUsage demoCapacity).length = (viablePairs demoUsage demoCapacity).card ∧
    ∀ usage' capacity' : State, usage'.Perm demoUsage → capacity'.Perm demoCapacity →
      (findAllMoves usage' capacity').Perm (findAllMoves demoUsage demoCapacity) ∧
      (findAllMoves usage' capacity').length = (viablePairs demoUsage demoCapacity).card :=
  findAllMoves_viablePairs demoUsage demoCapacity (by decide) (by decide)
    (fun _ => Iff.rfl) (by decide)

end Day22

/-! ### Day 22: the fewest moves -/

namespace Day22

theorem mem_level_of_reach (n : Nat) (b c : Board) (bs : List Board) (hb : b ∈ bs)
    (h : Reach n b c) : c ∈ level n bs := by
  induction n generalizing b bs with
  | zero =>
    simp only [Reach] at h
    subst h
    exact hb
  | succ n ih =>
    obtain ⟨m, hm, hr⟩ := h
    apply ih (b.child m) _ _ hr
    rw [List.mem_dedup, List.mem_flatMap]
    exact ⟨b, hb, List.mem_map_of_mem _ hm⟩

theorem reach_of_follow (ms : List Move) (b c : Board) (h : b.follow ms = some c) :
    Reach ms.length b c := by
  induction ms generalizing b with
  | nil =>
    simp only [Board.follow, Option.some.injEq] at h
    exact h
  | cons m ms ih =>
    unfold Board.follow at h
    split at h
    · rename_i hm
      exact ⟨m, hm, ih _ h⟩
    · simp at h

/-- On the demo grid the fewest moves that bring the target data to node
`(0, 0)` are `7`. -/
theorem leastWin_demoBoard : LeastWin demoBoard 7 := by
  refine ⟨by decide, ⟨⟨⟨0, 0⟩, [(⟨0, 0⟩, 6), (⟨0, 1⟩, 8), (⟨0, 2⟩, 28), (⟨1, 0⟩, 0),
    (⟨1, 1⟩, 6), (⟨1, 2⟩, 7), (⟨2, 0⟩, 8), (⟨2, 1⟩, 7), (⟨2, 2⟩, 6)], demoCapacity⟩,
    reach_of_follow demoPath demoBoard _ (by decide), by decide⟩, ?_⟩
  intro j c h1 h2 hr
  have hmem := mem_level_of_reach j demoBoard c [demoBoard] (by simp) hr
  have hall : ∀ j, j < 7 → ∀ c ∈ level j [demoBoard], c.Win = false := by
    decide!
  exact hall j h2 c hmem

/-- On the five-node grid the fewest moves are `2`. -/
theorem leastWin_spinBoard : LeastWin spinBoard 2 := by
  refine ⟨by decide, ⟨⟨⟨0, 0⟩, [(⟨0, 0⟩, 1), (⟨1, 0⟩, 0), (⟨2, 0⟩, 0), (⟨0, 2⟩, 1),
    (⟨1, 2⟩, 0)], spinBoard.Capacity⟩,
    reach_of_follow [⟨⟨2, 0⟩, ⟨1, 0⟩⟩, ⟨⟨1, 0⟩, ⟨0, 0⟩⟩] spinBoard _ (by decide), by decide⟩, ?_⟩
  intro j c h1 h2 hr
  have hmem := mem_level_of_reach j spinBoard c [spinBoard] (by simp) hr
  have hall : ∀ j, j < 2 → ∀ c ∈ level j [spinBoard], c.Win = false := by
    decide!
  exact hall j h2 c hmem

end Day22

/-! ### Day 22: the children of a board -/

namespace Day22

theorem Board.valid_nonneg (b : Board) : 0 ≤ b.Valid := by
  unfold Board.Valid
  positivity

theorem Board.win_iff_valid (b : Board) : b.Win = true ↔ b.Valid = 0 := by
  obtain ⟨⟨x, y⟩, u, c⟩ := b
  simp only [Board.Win, Board.Valid, decide_eq_true_eq, Coord.mk.injEq]
  constructor
  · rintro ⟨rfl, rfl⟩
    simp
  · intro h
    have hx : (0 : Int) ≤ (x : Int) * x := mul_self_nonneg _
    have hy : (0 : Int) ≤ (y : Int) * y := mul_self_nonneg _
    have hx0 : (x : Int) * x = 0 := by omega
    have hy0 : (y : Int) * y = 0 := by omega
    rw [mul_self_eq_zero] at hx0 hy0
    exact ⟨by exact_mod_cast hx0, by exact_mod_cast hy0⟩

theorem Board.mem_scored (b : Board) (x : BoardScore) :
    x ∈ b.scored ↔
      ∃ m ∈ findAdjacentMoves b.Usage b.Capacity, x = ⟨b.child m, (b.child m).Valid⟩ := by
  unfold Board.scored
  simp only [List.mem_flatMap]
  constructor
  · rintro ⟨m, hm, hx⟩
    rw [if_pos (Board.valid_nonneg _)] at hx
    exact ⟨m, hm, by simpa using hx⟩
  · rintro ⟨m, hm, rfl⟩
    refine ⟨m, hm, ?_⟩
    rw [if_pos (Board.valid_nonneg _)]
    simp

theorem Board.mem_MakeMoves (b : Board) (x : BoardScore) :
    x ∈ b.MakeMoves ↔
      ∃ m ∈ findAdjacentMoves b.Usage b.Capacity, x = ⟨b.child m, (b.child m).Valid⟩ := by
  unfold Board.MakeMoves
  rw [(List.perm_insertionSort _ _).mem_iff]
  exact Board.mem_scored b x

theorem Board.sorted_MakeMoves (b : Board) :
    b.MakeMoves.Sorted fun x y => x.Score ≥ y.Score := by
  unfold Board.MakeMoves
  haveI : IsTotal BoardScore (fun x y => x.Score ≥ y.Score) :=
    ⟨fun x y => le_total y.Score x.Score⟩
  haveI : IsTrans BoardScore (fun x y => x.Score ≥ y.Score) :=
    ⟨fun x y z (hxy : y.Score ≤ x.Score) (hyz : z.Score ≤ y.Score) => le_trans hyz hxy⟩
  exact List.sorted_insertionSort _ _

/-- What `MakeMoves` returns in the model is one of the results it may return. -/
theorem Board.isMakeMoves_self (b : Board) : b.IsMakeMoves b.MakeMoves :=
  ⟨List.Perm.refl _, b.sorted_MakeMoves⟩

/-- In every result of `MakeMoves`, the score of a child is `0` exactly when
the child is won. -/
theorem Board.win_iff_score (b : Board) (children : BoardList) (h : b.IsMakeMoves children)
    (x : BoardScore) (hx : x ∈ children) : x.Child.Win = true ↔ x.Score = 0 := by
  have hx' := h.1.mem_iff.mp hx
  obtain ⟨m, _, rfl⟩ := (b.mem_MakeMoves x).mp hx'
  exact Board.win_iff_valid _

/-- The children that come before a child that is not won are not won. -/
theorem Board.not_win_before (b : Board) (children pre post : BoardList) (x : BoardScore)
    (h : b.IsMakeMoves children) (hsplit : children = pre ++ x :: post)
    (hx : x.Child.Win = false) : ∀ y ∈ pre, y.Child.Win = false := by
  intro y hy
  have hxm : x ∈ children := by rw [hsplit]; simp
  have hym : y ∈ children := by rw [hsplit]; simp [hy]
  have hsorted := h.2
  rw [hsplit] at hsorted
  have hge : y.Score ≥ x.Score := by
    have := List.pairwise_append.mp hsorted
    exact this.2.2 y hy x (List.mem_cons_self _ _)
  have hx0 : x.Score ≠ 0 := by
    intro e
    have := (b.win_iff_score children h x hxm).mpr e
    rw [hx] at this
    exact Bool.false_ne_true this
  have hxpos : 0 ≤ x.Score := by
    obtain ⟨m, _, rfl⟩ := (b.mem_MakeMoves x).mp (h.1.mem_iff.mp hxm)
    exact Board.valid_nonneg _
  cases hw : y.Child.Win with
  | false => rfl
  | true =>
    have := (b.win_iff_score children h y hym).mp hw
    omega

end Day22

/-! ### Day 22: runs of the search -/

namespace Day22

theorem Pool.run_append (s : Pool) (a b : List Pick) :
    s.run (a ++ b) = (s.run a).bind fun s' => s'.run b := by
  induction a generalizing s with
  | nil => simp [Pool.run]
  | cons p a ih =>
    simp only [List.cons_append, Pool.run]
    cases h : s.step p with
    | none => simp
    | some s' => simpa using ih s'

theorem get?_append_length (F : List Task) (T : Task) (rest : List Task) :
    (F ++ T :: rest).get? F.length = some T := by
  induction F with
  | nil => rfl
  | cons a F ih => simpa using ih

theorem set_append_length (F : List Task) (T T' : Task) (rest : List Task) :
    (F ++ T :: rest).set F.length T' = F ++ T' :: rest := by
  induction F with
  | nil => rfl
  | cons a F ih => simp

theorem eraseIdx_append_length (F : List Task) (T : Task) (rest : List Task) :
    (F ++ T :: rest).eraseIdx F.length = F ++ rest := by
  induction F with
  | nil => rfl
  | cons a F ih => simpa using ih

/-- The call at position `F.length` records a win. -/
theorem Pool.step_win (w dp : Nat) (F rest : List Task) (b : Board) (d m : Nat)
    (c : BoardScore) (ch : BoardList) (order : Board → BoardList)
    (hg : w = 0 ∨ d < w) (hc : c.Child.Win = true) :
    Pool.step ⟨w, F ++ ⟨b, d, c :: ch, m⟩ :: rest, dp⟩ ⟨F.length, order⟩ =
      some ⟨(d + 1) % 256, F ++ ⟨b, d, ch, m⟩ :: rest, dp⟩ := by
  unfold Pool.step
  simp only [get?_append_length, set_append_length, if_pos hg, hc, if_true]

/-- The call at position `F.length` starts a call for a child that is not won. -/
theorem Pool.step_spawn (w dp : Nat) (F rest : List Task) (b : Board) (d m : Nat)
    (c : BoardScore) (ch : BoardList) (order : Board → BoardList)
    (hg : w = 0 ∨ d < w) (hc : c.Child.Win = false)
    (ho : c.Child.IsMakeMoves (order c.Child)) :
    Pool.step ⟨w, F ++ ⟨b, d, c :: ch, m⟩ :: rest, dp⟩ ⟨F.length, order⟩ =
      some ⟨w, ⟨c.Child, (d + 1) % 256, order c.Child, m + 1⟩ ::
        (F ++ ⟨b, d, ch, m⟩ :: rest), max dp (m + 1)⟩ := by
  unfold Pool.step
  simp only [get?_append_length, set_append_length, if_pos hg, hc, if_pos ho,
    Bool.false_eq_true, if_false]

/-- The call at position `F.length` passes over a child. -/
theorem Pool.step_prune (w dp : Nat) (F rest : List Task) (b : Board) (d m : Nat)
    (c : BoardScore) (ch : BoardList) (order : Board → BoardList)
    (hg : ¬ (w = 0 ∨ d < w)) :
    Pool.step ⟨w, F ++ ⟨b, d, c :: ch, m⟩ :: rest, dp⟩ ⟨F.length, order⟩ =
      some ⟨w, F ++ ⟨b, d, ch, m⟩ :: rest, dp⟩ := by
  unfold Pool.step
  simp only [get?_append_length, set_append_length, if_neg hg]

/-- The call at position `F.length` ends. -/
theorem Pool.step_done (w dp : Nat) (F rest : List Task) (b : Board) (d m : Nat)
    (order : Board → BoardList) :
    Pool.step ⟨w, F ++ ⟨b, d, [], m⟩ :: rest, dp⟩ ⟨F.length, order⟩ =
      some ⟨w, F ++ rest, dp⟩ := by
  unfold Pool.step
  simp only [get?_append_length, eraseIdx_append_length]

/-- While no win is recorded, the call at position `F.length` can start a call
for each of its next children that are not won. -/
theorem Pool.run_spawn_prefix (pre : BoardList) (hpre : ∀ x ∈ pre, x.Child.Win = false)
    (F rest : List Task) (b : Board) (d m dp : Nat) (ch : BoardList) :
    ∃ sched F' dp', Pool.run ⟨0, F ++ ⟨b, d, pre ++ ch, m⟩ :: rest, dp⟩ sched =
      some ⟨0, F' ++ ⟨b, d, ch, m⟩ :: rest, dp'⟩ := by
  induction pre generalizing F dp with
  | nil => exact ⟨[], F, dp, rfl⟩
  | cons x pre ih =>
    have hx := hpre x (List.mem_cons_self _ _)
    obtain ⟨sched, F', dp', h⟩ := ih (fun y hy => hpre y (List.mem_cons_of_mem _ hy))
      (⟨x.Child, (d + 1) % 256, x.Child.MakeMoves, m + 1⟩ :: F) (max dp (m + 1))
    refine ⟨⟨F.length, Board.MakeMoves⟩ :: sched, F', dp', ?_⟩
    simp only [List.cons_append, Pool.run]
    rw [Pool.step_spawn 0 dp F rest b d m x (pre ++ ch) Board.MakeMoves (Or.inl rfl) hx
      (Board.isMakeMoves_self _)]
    exact h

/-- While no win is recorded, the scheduler can follow any walk through boards
that are not won: it reaches a pool whose newest call is on the last board of
the walk. -/
theorem Pool.run_follow (n : Nat) (b P : Board) (hw : Walk n b P) (d m : Nat) (hd : d < 256)
    (rest : List Task) (dp : Nat) :
    ∃ sched tasks' dp', Pool.run ⟨0, ⟨b, d, b.MakeMoves, m⟩ :: rest, dp⟩ sched =
      some ⟨0, ⟨P, (d + n) % 256, P.MakeMoves, m + n⟩ :: tasks', dp'⟩ := by
  induction n generalizing b d m rest dp with
  | zero =>
    simp only [Walk] at hw
    subst hw
    exact ⟨[], rest, dp, by simp [Pool.run, Nat.mod_eq_of_lt hd]⟩
  | succ n ih =>
    obtain ⟨mv, hmv, hnw, hw'⟩ := hw
    have hmem : (⟨b.child mv, (b.child mv).Valid⟩ : BoardScore) ∈ b.MakeMoves :=
      (b.mem_MakeMoves _).mpr ⟨mv, hmv, rfl⟩
    obtain ⟨pre, post, hsplit⟩ := List.append_of_mem hmem
    have hpre := b.not_win_before b.MakeMoves pre post _ b.isMakeMoves_self hsplit hnw
    obtain ⟨s1, F', dp1, h1⟩ := Pool.run_spawn_prefix pre hpre [] rest b d m dp
      (⟨b.child mv, (b.child mv).Valid⟩ :: post)
    have h2 := Pool.step_spawn 0 dp1 F' rest b d m ⟨b.child mv, (b.child mv).Valid⟩ post
      Board.MakeMoves (Or.inl rfl) hnw (Board.isMakeMoves_self _)
    obtain ⟨s3, tasks', dp3, h3⟩ := ih (b.child mv) hw' ((d + 1) % 256) (m + 1)
      (Nat.mod_lt _ (by norm_num)) (F' ++ ⟨b, d, post, m⟩ :: rest) (max dp1 (m + 1))
    refine ⟨s1 ++ (⟨F'.length, Board.MakeMoves⟩ :: s3), tasks', dp3, ?_⟩
    rw [Pool.run_append]
    rw [hsplit]
    simp only [List.nil_append] at h1
    rw [h1]
    simp only [Option.some_bind, Pool.run, h2]
    rw [h3]
    have e1 : ((d + 1) % 256 + n) % 256 = (d + (n + 1)) % 256 := by omega
    have e2 : m + 1 + n = m + (n + 1) := by omega
    rw [e1, e2]

/-- A call whose `depth` is `0` and that has a won child can record the win
as a win in one move. -/
theorem Pool.run_win (ch : BoardList) (hwon : ∃ c ∈ ch, c.Child.Win = true)
    (F rest : List Task) (b : Board) (m dp : Nat) :
    ∃ sched tasks' dp', Pool.run ⟨0, F ++ ⟨b, 0, ch, m⟩ :: rest, dp⟩ sched =
      some ⟨1, tasks', dp'⟩ := by
  induction ch generalizing F dp with
  | nil =>
    obtain ⟨c, hc, _⟩ := hwon
    simp at hc
  | cons x ch ih =>
    cases hx : x.Child.Win with
    | true =>
      refine ⟨[⟨F.length, Board.MakeMoves⟩], F ++ ⟨b, 0, ch, m⟩ :: rest, dp, ?_⟩
      simp only [Pool.run]
      rw [Pool.step_win 0 dp F rest b 0 m x ch Board.MakeMoves (Or.inl rfl) hx]
    | false =>
      have hwon' : ∃ c ∈ ch, c.Child.Win = true := by
        obtain ⟨c, hc, hcw⟩ := hwon
        rcases List.mem_cons.mp hc with h | h
        · subst h
          rw [hx] at hcw
          exact absurd hcw Bool.false_ne_true
        · exact ⟨c, h, hcw⟩
      obtain ⟨sched, tasks', dp', h⟩ := ih hwon'
        (⟨x.Child, (0 + 1) % 256, x.Child.MakeMoves, m + 1⟩ :: F) (max dp (m + 1))
      refine ⟨⟨F.length, Board.MakeMoves⟩ :: sched, tasks', dp', ?_⟩
      simp only [Pool.run]
      rw [Pool.step_spawn 0 dp F rest b 0 m x ch Board.MakeMoves (Or.inl rfl) hx
        (Board.isMakeMoves_self _)]
      exact h

/-- Once a win in one move is recorded, a call whose `depth` is not `0` passes
over all its children and ends. -/
theorem Pool.run_pruned (ch : BoardList) (rest : List Task) (b : Board) (d m dp : Nat)
    (hd : 1 ≤ d) :
    ∃ sched, Pool.run ⟨1, ⟨b, d, ch, m⟩ :: rest, dp⟩ sched = some ⟨1, rest, dp⟩ := by
  induction ch with
  | nil =>
    refine ⟨[⟨0, Board.MakeMoves⟩], ?_⟩
    simp only [Pool.run]
    have hstep := Pool.step_done 1 dp [] rest b d m Board.MakeMoves
    simp only [List.nil_append, List.length_nil] at hstep
    rw [hstep]
  | cons x ch ih =>
    obtain ⟨sched, h⟩ := ih
    refine ⟨⟨0, Board.MakeMoves⟩ :: sched, ?_⟩
    simp only [Pool.run]
    have hstep := Pool.step_prune 1 dp [] rest b d m x ch Board.MakeMoves (by omega)
    simp only [List.nil_append, List.length_nil] at hstep
    rw [hstep]
    exact h

/-- Once a win in one move is recorded, every call can be run to its end, and
the recorded value stays `1`. -/
theorem Pool.run_task (ch : BoardList) (rest : List Task) (b : Board) (d m dp : Nat) :
    ∃ sched dp', Pool.run ⟨1, ⟨b, d, ch, m⟩ :: rest, dp⟩ sched = some ⟨1, rest, dp'⟩ := by
  induction ch generalizing dp with
  | nil =>
    refine ⟨[⟨0, Board.MakeMoves⟩], dp, ?_⟩
    simp only [Pool.run]
    have hstep := Pool.step_done 1 dp [] rest b d m Board.MakeMoves
    simp only [List.nil_append, List.length_nil] at hstep
    rw [hstep]
  | cons x ch ih =>
    by_cases hd : d = 0
    · subst hd
      cases hx : x.Child.Win with
      | true =>
        obtain ⟨sched, dp', h⟩ := ih dp
        refine ⟨⟨0, Board.MakeMoves⟩ :: sched, dp', ?_⟩
        simp only [Pool.run]
        have hstep := Pool.step_win 1 dp [] rest b 0 m x ch Board.MakeMoves (Or.inr (by omega)) hx
        simp only [List.nil_append, List.length_nil] at hstep
        rw [hstep]
        exact h
      | false =>
        obtain ⟨s1, h1⟩ := Pool.run_pruned x.Child.MakeMoves (⟨b, 0, ch, m⟩ :: rest) x.Child
          ((0 + 1) % 256) (m + 1) (max dp (m + 1)) (by norm_num)
        obtain ⟨s2, dp', h2⟩ := ih (max dp (m + 1))
        refine ⟨⟨0, Board.MakeMoves⟩ :: (s1 ++ s2), dp', ?_⟩
        simp only [Pool.run]
        have hstep := Pool.step_spawn 1 dp [] rest b 0 m x ch Board.MakeMoves (Or.inr (by omega)) hx
          (Board.isMakeMoves_self _)
        simp only [List.nil_append, List.length_nil] at hstep
        rw [hstep]
        simp only [List.nil_append]
        rw [Pool.run_append, h1]
        exact h2
    · obtain ⟨sched, dp', h⟩ := ih dp
      refine ⟨⟨0, Board.MakeMoves⟩ :: sched, dp', ?_⟩
      simp only [Pool.run]
      have hstep := Pool.step_prune 1 dp [] rest b d m x ch Board.MakeMoves (by omega)
      simp only [List.nil_append, List.length_nil] at hstep
      rw [hstep]
      exact h

/-- Once a win in one move is recorded, the search can be run to its end, and
it ends with the value `1`. -/
theorem Pool.run_all (tasks : List Task) (dp : Nat) :
    ∃ sched dp', Pool.run ⟨1, tasks, dp⟩ sched = some ⟨1, [], dp'⟩ := by
  induction tasks generalizing dp with
  | nil => exact ⟨[], dp, rfl⟩
  | cons t tasks ih =>
    obtain ⟨b, d, ch, m⟩ := t
    obtain ⟨s1, dp1, h1⟩ := Pool.run_task ch tasks b d m dp
    obtain ⟨s2, dp2, h2⟩ := ih dp1
    exact ⟨s1 ++ s2, dp2, by rw [Pool.run_append, h1]; exact h2⟩

/-- A walk of a multiple of `256` moves through boards that are not won, to a
board with a won child, makes `ProcessBoard` return `1` under some schedule:
the `uint8` depth of the call reached is `0` again. -/
theorem Board.processBoard_wraps (b P : Board) (n : Nat) (hw : Walk n b P)
    (hn : n % 256 = 0) (hwon : ∃ c ∈ P.MakeMoves, c.Child.Win = true) :
    ∃ sched, b.ProcessBoard Board.MakeMoves sched = some 1 := by
  obtain ⟨s1, tasks1, dp1, h1⟩ := Pool.run_follow n b P hw 0 0 (by norm_num) [] 0
  rw [Nat.zero_add, hn] at h1
  obtain ⟨s2, tasks2, dp2, h2⟩ := Pool.run_win P.MakeMoves hwon [] tasks1 P n dp1
  obtain ⟨s3, dp3, h3⟩ := Pool.run_all tasks2 dp2
  refine ⟨s1 ++ (s2 ++ s3), ?_⟩
  unfold Board.ProcessBoard Pool.init
  rw [if_pos (Board.isMakeMoves_self _), Pool.run_append, h1]
  simp only [Option.some_bind, List.nil_append] at h2 ⊢
  rw [Pool.run_append, h2]
  simp only [Option.some_bind]
  rw [h3]

theorem Reach.snoc (n : Nat) (b c : Board) (m : Move) (h : Reach n b c)
    (hm : m ∈ findAdjacentMoves c.Usage c.Capacity) : Reach (n + 1) b (c.child m) := by
  induction n generalizing b with
  | zero =>
    simp only [Reach] at h
    subst h
    exact ⟨m, hm, rfl⟩
  | succ n ih =>
    obtain ⟨m0, hm0, hr⟩ := h
    exact ⟨m0, hm0, ih _ hr⟩

theorem mem_eraseIdx_of_ne (l : List Task) (i : Nat) (x y : Task) (hx : x ∈ l)
    (hy : l.get? i = some y) (hne : x ≠ y) : x ∈ l.eraseIdx i := by
  induction l generalizing i with
  | nil => simp at hx
  | cons a l ih =>
    cases i with
    | zero =>
      simp only [List.get?_cons_zero, Option.some.injEq] at hy
      subst hy
      rcases List.mem_cons.mp hx with h | h
      · exact absurd h hne
      · simpa using h
    | succ i =>
      simp only [List.get?_cons_succ] at hy
      rcases List.mem_cons.mp hx with h | h
      · simp [h]
      · simp only [List.eraseIdx_cons_succ, List.mem_cons]
        exact Or.inr (ih i h hy)

theorem mem_set_of_ne (l : List Task) (i : Nat) (x y z : Task) (hx : x ∈ l)
    (hy : l.get? i = some y) (hne : x ≠ y) : x ∈ l.set i z := by
  induction l generalizing i with
  | nil => simp at hx
  | cons a l ih =>
    cases i with
    | zero =>
      simp only [List.get?_cons_zero, Option.some.injEq] at hy
      subst hy
      rcases List.mem_cons.mp hx with h | h
      · exact absurd h hne
      · simp [h]
    | succ i =>
      simp only [List.get?_cons_succ] at hy
      rcases List.mem_cons.mp hx with h | h
      · simp [h]
      · simp only [List.set_cons_succ, List.mem_cons]
        exact Or.inr (ih i h hy)

theorem mem_set_self (l : List Task) (i : Nat) (y z : Task)
    (hy : l.get? i = some y) : z ∈ l.set i z := by
  induction l generalizing i with
  | nil => simp at hy
  | cons a l ih =>
    cases i with
    | zero => simp
    | succ i =>
      simp only [List.get?_cons_succ] at hy
      simp only [List.set_cons_succ, List.mem_cons]
      exact Or.inr (ih i hy)

theorem mem_of_get? (l : List Task) (i : Nat) (y : Task) (hy : l.get? i = some y) : y ∈ l := by
  induction l generalizing i with
  | nil => simp at hy
  | cons a l ih =>
    cases i with
    | zero =>
      simp only [List.get?_cons_zero, Option.some.injEq] at hy
      simp [hy]
    | succ i =>
      simp only [List.get?_cons_succ] at hy
      exact List.mem_cons_of_mem _ (ih i hy)

theorem Pool.deepest_le_step (s s' : Pool) (p : Pick) (h : s.step p = some s') :
    s.deepest ≤ s'.deepest := by
  unfold Pool.step at h
  split at h
  · simp at h
  · split at h
    · simp only [Option.some.injEq] at h
      subst h
      exact le_refl _
    · simp only at h
      split at h
      · split at h
        · simp only [Option.some.injEq] at h
          subst h
          exact le_refl _
        · split at h
          · simp only [Option.some.injEq] at h
            subst h
            exact le_max_left _ _
          · simp at h
      · simp only [Option.some.injEq] at h
        subst h
        exact le_refl _

theorem Pool.deepest_le_run (sched : List Pick) (s s' : Pool) (h : s.run sched = some s') :
    s.deepest ≤ s'.deepest := by
  induction sched generalizing s with
  | nil =>
    simp only [Pool.run, Option.some.injEq] at h
    subst h
    exact le_refl _
  | cons p sched ih =>
    unfold Pool.run at h
    cases hs : s.step p with
    | none => rw [hs] at h; simp at h
    | some s1 =>
      rw [hs] at h
      exact le_trans (Pool.deepest_le_step s s1 p hs) (ih s1 h)


theorem Pending.after_set (k : Nat) (tasks : List Task) (i : Nat) (t : Task) (c : BoardScore)
    (rest : BoardList) (hp : Pending k tasks) (hget : tasks.get? i = some t)
    (hch : t.children = c :: rest) :
    Pending k (tasks.set i { t with children := rest }) ∨
    (t.moves < k ∧ ∃ won, Reach (k - t.moves - 1) c.Child won ∧ won.Win = true) := by
  obtain ⟨t1, ht1, hm, c1, hc1, won, hr, hw⟩ := hp
  by_cases e : t1 = t
  · subst e
    rw [hch] at hc1
    rcases List.mem_cons.mp hc1 with h | h
    · subst h
      exact Or.inr ⟨hm, won, hr, hw⟩
    · exact Or.inl ⟨_, mem_set_self tasks i t1 _ hget, hm, c1, h, won, hr, hw⟩
  · exact Or.inl ⟨t1, mem_set_of_ne tasks i t1 t _ ht1 hget e, hm, c1, hc1, won, hr, hw⟩

theorem Pending.after_done (k : Nat) (tasks : List Task) (i : Nat) (t : Task)
    (hp : Pending k tasks) (hget : tasks.get? i = some t) (hch : t.children = []) :
    Pending k (tasks.eraseIdx i) := by
  obtain ⟨t1, ht1, hm, c1, hc1, won, hr, hw⟩ := hp
  have e : t1 ≠ t := by
    intro e
    subst e
    rw [hch] at hc1
    simp at hc1
  exact ⟨t1, mem_eraseIdx_of_ne tasks i t1 t ht1 hget e, hm, c1, hc1, won, hr, hw⟩

theorem Pending.after_spawn (k : Nat) (tasks : List Task) (x : Task) (hp : Pending k tasks) :
    Pending k (x :: tasks) := by
  obtain ⟨t1, ht1, h⟩ := hp
  exact ⟨t1, List.mem_cons_of_mem _ ht1, h⟩

/-- A step of a run without wrap-around keeps the invariant. -/
theorem Pool.inv_step (b0 : Board) (k : Nat) (hk : LeastWin b0 k) (hk255 : k ≤ 255)
    (s s' : Pool) (p : Pick) (hinv : Pool.Inv b0 k s) (h : s.step p = some s')
    (hd : s'.deepest ≤ 255) : Pool.Inv b0 k s' := by
  obtain ⟨I1, I2, I3⟩ := hinv
  obtain ⟨hk1, _, hmin⟩ := hk
  have hmono := Pool.deepest_le_step s s' p h
  unfold Pool.step at h
  cases hget : s.tasks.get? p.task with
  | none => rw [hget] at h; simp at h
  | some t =>
    rw [hget] at h
    simp only at h
    have htmem := mem_of_get? _ _ _ hget
    obtain ⟨hreach, hmoves, hdepth, hchild⟩ := I1 t htmem
    have hdm : t.depth = t.moves := by
      rw [hdepth]
      exact Nat.mod_eq_of_lt (by omega)
    cases hch : t.children with
    | nil =>
      rw [hch] at h
      simp only [Option.some.injEq] at h
      subst h
      refine ⟨fun x hx => I1 x (List.mem_of_mem_eraseIdx hx), I2, ?_⟩
      rcases I3 with hf | hp
      · exact Or.inl hf
      · exact Or.inr (Pending.after_done k _ _ t hp hget hch)
    | cons c rest =>
      rw [hch] at h
      simp only at h
      have hcmem : c ∈ t.board.MakeMoves := hchild c (by rw [hch]; simp)
      obtain ⟨mv, hmv, hceq⟩ := (t.board.mem_MakeMoves c).mp hcmem
      have hcreach : Reach (t.moves + 1) b0 c.Child := by
        rw [hceq]
        exact Reach.snoc _ _ _ mv hreach hmv
      have hset : ∀ x ∈ s.tasks.set p.task { t with children := rest },
          Reach x.moves b0 x.board ∧ x.moves ≤ s.deepest ∧
            x.depth = x.moves % 256 ∧ ∀ c ∈ x.children, c ∈ x.board.MakeMoves := by
        intro x hx
        rcases List.mem_or_eq_of_mem_set hx with hx | hx
        · exact I1 x hx
        · subst hx
          exact ⟨hreach, hmoves, hdepth, fun y hy => hchild y (by rw [hch]; simp [hy])⟩
      by_cases hg : s.winner = 0 ∨ t.depth < s.winner
      · rw [if_pos hg] at h
        cases hwin : c.Child.Win with
        | true =>
          rw [hwin] at h
          simp only [if_true, Option.some.injEq] at h
          subst h
          have hge : k ≤ t.moves + 1 := by
            by_contra hlt
            have := hmin (t.moves + 1) c.Child (by omega) (by omega) hcreach
            rw [hwin] at this
            exact Bool.noConfusion this
          refine ⟨hset, ?_, ?_⟩
          · simp only
            omega
          · simp only
            rcases I3 with hf | hp
            · left
              omega
            · rcases Pending.after_set k _ _ t c rest hp hget hch with hp' | ⟨hlt, _⟩
              · exact Or.inr hp'
              · left
                omega
        | false =>
          rw [hwin] at h
          simp only [Bool.false_eq_true, if_false] at h
          by_cases ho : c.Child.IsMakeMoves (p.order c.Child)
          · rw [if_pos ho] at h
            simp only [Option.some.injEq] at h
            subst h
            simp only at hd
            have hm1 : t.moves + 1 ≤ 255 := le_trans (le_max_right _ _) hd
            refine ⟨?_, I2, ?_⟩
            · intro x hx
              simp only at hx ⊢
              rcases List.mem_cons.mp hx with hx | hx
              · subst hx
                refine ⟨hcreach, le_max_right _ _, ?_, ?_⟩
                · simp only
                  rw [hdepth]
                  omega
                · intro y hy
                  exact ho.1.mem_iff.mp hy
              · obtain ⟨a1, a2, a3, a4⟩ := hset x hx
                exact ⟨a1, le_trans a2 (le_max_left _ _), a3, a4⟩
            · rcases I3 with hf | hp
              · exact Or.inl hf
              · right
                rcases Pending.after_set k _ _ t c rest hp hget hch with hp' | ⟨hlt, won, hr, hw⟩
                · exact Pending.after_spawn k _ _ hp'
                · cases hrem : k - t.moves - 1 with
                  | zero =>
                    rw [hrem] at hr
                    simp only [Reach] at hr
                    subst hr
                    rw [hwin] at hw
                    exact Bool.noConfusion hw
                  | succ r =>
                    rw [hrem] at hr
                    obtain ⟨m2, hm2, hr2⟩ := hr
                    refine ⟨_, List.mem_cons_self _ _, ?_, ⟨c.Child.child m2, (c.Child.child m2).Valid⟩,
                      ?_, won, ?_, hw⟩
                    · simp only
                      omega
                    · simp only
                      exact ho.1.mem_iff.mpr ((c.Child.mem_MakeMoves _).mpr ⟨m2, hm2, rfl⟩)
                    · simp only
                      have : k - (t.moves + 1) - 1 = r := by omega
                      rw [this]
                      exact hr2
          · rw [if_neg ho] at h
            simp at h
      · rw [if_neg hg] at h
        simp only [Option.some.injEq] at h
        subst h
        refine ⟨hset, I2, ?_⟩
        rcases I3 with hf | hp
        · exact Or.inl hf
        · rcases Pending.after_set k _ _ t c rest hp hget hch with hp' | ⟨hlt, _⟩
          · exact Or.inr hp'
          · exfalso
            omega

theorem Pool.inv_run (b0 : Board) (k : Nat) (hk : LeastWin b0 k) (hk255 : k ≤ 255)
    (sched : List Pick) (s s' : Pool) (hinv : Pool.Inv b0 k s) (h : s.run sched = some s')
    (hd : s'.deepest ≤ 255) : Pool.Inv b0 k s' := by
  induction sched generalizing s with
  | nil =>
    simp only [Pool.run, Option.some.injEq] at h
    subst h
    exact hinv
  | cons p sched ih =>
    unfold Pool.run at h
    cases hs : s.step p with
    | none => rw [hs] at h; simp at h
    | some s1 =>
      rw [hs] at h
      have h1 := Pool.deepest_le_run sched s1 s' h
      exact ih s1 (Pool.inv_step b0 k hk hk255 s s1 p hinv hs (le_trans h1 hd)) h

theorem Pool.inv_init (b0 : Board) (k : Nat) (hk : LeastWin b0 k) (order : Board → BoardList)
    (ho : b0.IsMakeMoves (order b0)) : Pool.Inv b0 k (Pool.init b0 order) := by
  obtain ⟨hk1, ⟨won, hr, hw⟩, _⟩ := hk
  refine ⟨?_, Or.inl rfl, Or.inr ?_⟩
  · intro t ht
    simp only [Pool.init, List.mem_singleton] at ht
    subst ht
    exact ⟨rfl, le_refl _, rfl, fun c hc => ho.1.mem_iff.mp hc⟩
  · cases k with
    | zero => omega
    | succ k =>
      obtain ⟨m, hm, hr'⟩ := hr
      refine ⟨_, List.mem_singleton.mpr rfl, by simp, ⟨b0.child m, (b0.child m).Valid⟩, ?_, won, ?_,
        hw⟩
      · exact ho.1.mem_iff.mpr ((b0.mem_MakeMoves _).mpr ⟨m, hm, rfl⟩)
      · simpa using hr'

/-- When a won board is first reached after `k <= 255` moves, every complete
run of `ProcessBoard` in which no call of `EvalLoop` is started more than
`255` moves deep (the `uint8` depth never wraps) returns `k`. -/
theorem Board.processBoard_eq_leastWin (b : Board) (k : Nat) (hk : LeastWin b k)
    (hk255 : k ≤ 255) (order : Board → BoardList) (sched : List Pick) (w : Nat)
    (h : b.ProcessBoard order sched = some w) (hd : b.deepest order sched ≤ 255) : w = k := by
  unfold Board.ProcessBoard at h
  unfold Board.deepest at hd
  split at h
  · rename_i ho
    cases hrun : (Pool.init b order).run sched with
    | none => rw [hrun] at h; simp at h
    | some sf =>
      rw [hrun] at h hd
      simp only at hd
      have hinv := Pool.inv_run b k hk hk255 sched _ sf (Pool.inv_init b k hk order ho) hrun hd
      obtain ⟨w', tasks, dp⟩ := sf
      cases tasks with
      | nil =>
        simp only [Option.some.injEq] at h
        subst h
        obtain ⟨_, I2, I3⟩ := hinv
        rcases I3 with hf | ⟨t, ht, _⟩
        · simp only at hf I2
          omega
        · simp at ht
      | cons t ts => simp at h
  · simp at h

end Day22

/-! ### Day 22: a run in which the depth wraps -/

namespace Day22

theorem walk_of_walk (ms : List Move) (b c : Board) (h : b.walk ms = some c) :
    Walk ms.length b c := by
  induction ms generalizing b with
  | nil =>
    simp only [Board.walk, Option.some.injEq] at h
    exact h
  | cons m ms ih =>
    unfold Board.walk at h
    split at h
    · rename_i hm
      exact ⟨m, hm.1, hm.2, ih _ h⟩
    · simp at h

theorem Walk.trans (a a' : Nat) (b c d : Board) (h : Walk a b c) (h' : Walk a' c d) :
    Walk (a + a') b d := by
  induction a generalizing b with
  | zero =>
    simp only [Walk] at h
    subst h
    simpa using h'
  | succ a ih =>
    obtain ⟨m, hm, hnw, hw⟩ := h
    rw [Nat.succ_add]
    exact ⟨m, hm, hnw, ih _ hw⟩

theorem Walk.loop (p : Nat) (b : Board) (h : Walk p b b) (j : Nat) : Walk (j * p) b b := by
  induction j with
  | zero =>
    rw [Nat.zero_mul]
    rfl
  | succ j ih =>
    rw [Nat.succ_mul]
    exact Walk.trans _ _ _ _ _ ih h

/-- On the five-node grid, `256` moves lead through boards that are not won to
a board one move from a win: the spare unit of data goes back and forth `255`
times, then the target data moves to `(1, 0)`. -/
theorem walk_spinBoard :
    ∃ P, Walk 256 spinBoard P ∧ ∃ c ∈ P.MakeMoves, c.Child.Win = true := by
  have hloop : Walk 2 spinBoard spinBoard :=
    walk_of_walk [⟨⟨0, 2⟩, ⟨1, 2⟩⟩, ⟨⟨1, 2⟩, ⟨0, 2⟩⟩] spinBoard spinBoard (by decide)
  have h254 := Walk.loop 2 spinBoard hloop 127
  have hlast := walk_of_walk [⟨⟨0, 2⟩, ⟨1, 2⟩⟩, ⟨⟨2, 0⟩, ⟨1, 0⟩⟩] spinBoard
    ⟨⟨1, 0⟩, [(⟨0, 0⟩, 0), (⟨1, 0⟩, 1), (⟨2, 0⟩, 0), (⟨0, 2⟩, 0), (⟨1, 2⟩, 1)],
      spinBoard.Capacity⟩ (by decide)
  exact ⟨_, Walk.trans _ _ _ _ _ h254 hlast, by decide⟩

/-- On the demo grid, `256` moves lead through boards that are not won to a
board one move from a win: the data of node `(1, 0)` goes back and forth `125`
times, then the first six moves of `demoPath` are made. -/
theorem walk_demoBoard :
    ∃ P, Walk 256 demoBoard P ∧ ∃ c ∈ P.MakeMoves, c.Child.Win = true := by
  have hloop : Walk 2 demoBoard demoBoard :=
    walk_of_walk [⟨⟨1, 0⟩, ⟨1, 1⟩⟩, ⟨⟨1, 1⟩, ⟨1, 0⟩⟩] demoBoard demoBoard (by decide)
  have h250 := Walk.loop 2 demoBoard hloop 125
  have hlast := walk_of_walk (demoPath.take 6) demoBoard
    ⟨⟨1, 0⟩, [(⟨0, 0⟩, 0), (⟨0, 1⟩, 8), (⟨0, 2⟩, 28), (⟨1, 0⟩, 6), (⟨1, 1⟩, 6), (⟨1, 2⟩, 7),
      (⟨2, 0⟩, 8), (⟨2, 1⟩, 7), (⟨2, 2⟩, 6)], demoCapacity⟩ (by decide)
  exact ⟨_, Walk.trans _ _ _ _ _ h250 hlast, by decide⟩

/-- C1 fails on the code: on the five-node grid a won board is first reached
after `2` moves, yet under some schedule every search branch finishes and
`ProcessBoard` returns `1`.  A branch is run `256` moves deep before a win is
recorded; its `uint8` depth is `0` again, and its won child is recorded as a
win in one move. -/
theorem processBoard_spinBoard_wraps :
    LeastWin spinBoard 2 ∧ ∃ sched, spinBoard.ProcessBoard Board.MakeMoves sched = some 1 := by
  obtain ⟨P, hw, hwon⟩ := walk_spinBoard
  exact ⟨leastWin_spinBoard, Board.processBoard_wraps spinBoard P 256 hw (by decide) hwon⟩

/-- C2 fails on the code: on the demo grid the fewest moves are `7`, yet under
some schedule `ProcessBoard` returns `1` for the demo board (the same
wrap-around of the `uint8` depth as on the five-node grid). -/
theorem processBoard_demoBoard_wraps :
    LeastWin demoBoard 7 ∧ ∃ sched, demoBoard.ProcessBoard Board.MakeMoves sched = some 1 := by
  obtain ⟨P, hw, hwon⟩ := walk_demoBoard
  exact ⟨leastWin_demoBoard, Board.processBoard_wraps demoBoard P 256 hw (by decide) hwon⟩

/-- On the demo grid every complete run of `ProcessBoard` in which no call of
`EvalLoop` is started more than `255` moves deep returns `7`. -/
theorem processBoard_demoBoard_of_no_wrap (order : Board → BoardList) (sched : List Pick)
    (w : Nat) (h : demoBoard.ProcessBoard order sched = some w)
    (hd : demoBoard.deepest order sched ≤ 255) : w = 7 :=
  Board.processBoard_eq_leastWin demoBoard 7 leastWin_demoBoard (by decide) order sched w h hd

end Day22

/-! ### Day 22: what a move does -/

namespace GoMap

theorem get_eq_zero_of_not_mem {κ ν : Type} [DecidableEq κ] [Zero ν] (m : List (κ × ν)) (k : κ)
    (h : k ∉ keys m) : get m k = 0 := by
  induction m with
  | nil => rfl
  | cons p m ih =>
    obtain ⟨a, b⟩ := p
    simp only [keys, List.map_cons, List.mem_cons, not_or] at h
    have hak : ¬ a = k := fun e => h.1 e.symm
    simp only [get, if_neg hak]
    exact ih h.2

/-- Reading a map whose values were rewritten entry by entry, the keys kept. -/
theorem get_map {κ ν : Type} [DecidableEq κ] [Zero ν] (m : List (κ × ν))
    (g : κ × ν → κ × ν) (hg : ∀ p, (g p).1 = p.1) (k : κ) :
    get (m.map g) k = if k ∈ keys m then (g (k, get m k)).2 else 0 := by
  induction m with
  | nil => simp [get, keys]
  | cons p m ih =>
    obtain ⟨a, b⟩ := p
    have hga := hg (a, b)
    by_cases hak : a = k
    · subst hak
      simp only [List.map_cons, keys, List.mem_cons, true_or, if_true]
      have : g (a, b) = (a, (g (a, b)).2) := Prod.ext hga rfl
      rw [this]
      simp [get]
    · have hka : ¬ k = a := fun e => hak e.symm
      have e1 : get (g (a, b) :: m.map g) k = get (m.map g) k := by
        have : g (a, b) = (a, (g (a, b)).2) := Prod.ext hga rfl
        rw [this]
        simp [get, hak]
      rw [List.map_cons, e1, ih]
      simp only [keys, List.map_cons, List.mem_cons, hka, false_or, get, if_neg hak]

theorem keys_map {κ ν : Type} (m : List (κ × ν)) (g : κ × ν → κ × ν)
    (hg : ∀ p, (g p).1 = p.1) : keys (m.map g) = keys m := by
  unfold keys
  rw [List.map_map]
  apply List.map_congr_left
  intro p _
  exact hg p

end GoMap

namespace Day22

theorem mem_ite_singleton (c : Prop) [Decidable c] (x m : Move) :
    m ∈ (if c then [x] else []) ↔ c ∧ m = x := by
  by_cases h : c <;> simp [h]

theorem mem_adjacentMovesFrom (usage capacity : State) (f : Coord) (u : Nat) (m : Move) :
    m ∈ adjacentMovesFrom usage capacity f u ↔
      u ≠ 0 ∧ m.From = f ∧ m.To ∈ f.neighbours ∧
        (GoMap.get usage m.To + u) % 65536 ≤ GoMap.get capacity m.To := by
  have e : adjacentMovesFrom usage capacity f u =
      if u = 0 then []
      else
        (if (GoMap.get usage ⟨f.X, (f.Y + 1) % 256⟩ + u) % 65536 ≤
            GoMap.get capacity ⟨f.X, (f.Y + 1) % 256⟩ then
          [(⟨f, ⟨f.X, (f.Y + 1) % 256⟩⟩ : Move)] else []) ++
        (if (GoMap.get usage ⟨f.X, (f.Y + 255) % 256⟩ + u) % 65536 ≤
            GoMap.get capacity ⟨f.X, (f.Y + 255) % 256⟩ then
          [(⟨f, ⟨f.X, (f.Y + 255) % 256⟩⟩ : Move)] else []) ++
        (if (GoMap.get usage ⟨(f.X + 1) % 256, f.Y⟩ + u) % 65536 ≤
            GoMap.get capacity ⟨(f.X + 1) % 256, f.Y⟩ then
          [(⟨f, ⟨(f.X + 1) % 256, f.Y⟩⟩ : Move)] else []) ++
        (if (GoMap.get usage ⟨(f.X + 255) % 256, f.Y⟩ + u) % 65536 ≤
            GoMap.get capacity ⟨(f.X + 255) % 256, f.Y⟩ then
          [(⟨f, ⟨(f.X + 255) % 256, f.Y⟩⟩ : Move)] else []) := rfl
  rw [e]
  by_cases hu : u = 0
  · simp [hu]
  · rw [if_neg hu]
    simp only [List.mem_append, mem_ite_singleton, Coord.neighbours, ne_eq, hu,
      not_false_eq_true, true_and, List.mem_cons, List.mem_singleton, List.not_mem_nil,
      or_false]
    obtain ⟨a, b⟩ := m
    simp only [Move.mk.injEq]
    constructor
    · rintro (((⟨h, rfl, rfl⟩ | ⟨h, rfl, rfl⟩) | ⟨h, rfl, rfl⟩) | ⟨h, rfl, rfl⟩)
      · exact ⟨rfl, Or.inl rfl, h⟩
      · exact ⟨rfl, Or.inr (Or.inl rfl), h⟩
      · exact ⟨rfl, Or.inr (Or.inr (Or.inl rfl)), h⟩
      · exact ⟨rfl, Or.inr (Or.inr (Or.inr rfl)), h⟩
    · rintro ⟨rfl, hto, hle⟩
      rcases hto with h | h | h | h
      · subst h; exact Or.inl (Or.inl (Or.inl ⟨hle, rfl, rfl⟩))
      · subst h; exact Or.inl (Or.inl (Or.inr ⟨hle, rfl, rfl⟩))
      · subst h; exact Or.inl (Or.inr ⟨hle, rfl, rfl⟩)
      · subst h; exact Or.inr ⟨hle, rfl, rfl⟩

theorem mem_findAdjacentMoves (usage capacity : State) (hu : (GoMap.keys usage).Nodup)
    (m : Move) :
    m ∈ findAdjacentMoves usage capacity ↔
      m.From ∈ GoMap.keys usage ∧ GoMap.get usage m.From ≠ 0 ∧ m.To ∈ m.From.neighbours ∧
        (GoMap.get usage m.To + GoMap.get usage m.From) % 65536 ≤ GoMap.get capacity m.To := by
  unfold findAdjacentMoves
  simp only [List.mem_flatMap, mem_adjacentMovesFrom]
  constructor
  · rintro ⟨⟨f, u⟩, hfu, hu0, hf, hto, hle⟩
    simp only at hu0 hf hto hle
    have hg := GoMap.get_of_mem usage f u hu hfu
    subst hf
    rw [hg]
    exact ⟨List.mem_map_of_mem Prod.fst hfu, hu0, hto, hle⟩
  · rintro ⟨hf, hu0, hto, hle⟩
    exact ⟨(m.From, GoMap.get usage m.From), GoMap.mem_of_mem_keys usage _ hf, hu0, rfl, hto, hle⟩

theorem Coord.ne_of_mem_neighbours (f t : Coord) (h : t ∈ f.neighbours) : f ≠ t := by
  obtain ⟨x, y⟩ := f
  unfold Coord.neighbours at h
  simp only [List.mem_cons, List.mem_singleton, List.not_mem_nil, or_false] at h
  intro e
  subst e
  rcases h with h | h | h | h <;> simp only [Coord.mk.injEq] at h <;> omega

end Day22

namespace Day22

theorem mem_keys_of_mem_findAdjacentMoves (usage capacity : State)
    (hu : (GoMap.keys usage).Nodup)
    (hk : ∀ k, k ∈ GoMap.keys usage ↔ k ∈ GoMap.keys capacity)
    (hv : ∀ k, GoMap.get usage k < 65536) (m : Move)
    (h : m ∈ findAdjacentMoves usage capacity) : m.To ∈ GoMap.keys usage := by
  obtain ⟨hf, h0, _, hle⟩ := (mem_findAdjacentMoves usage capacity hu m).mp h
  by_contra hto
  have hto' : m.To ∉ GoMap.keys capacity := fun e => hto ((hk _).mpr e)
  rw [GoMap.get_eq_zero_of_not_mem usage _ hto, GoMap.get_eq_zero_of_not_mem capacity _ hto',
    Nat.zero_add, Nat.mod_eq_of_lt (hv _)] at hle
  omega

/-- The moves of `findAdjacentMoves` are the moves of `findAllMoves` between
neighbours, when every usage is below `65536`. -/
theorem findAdjacentMoves_eq_neighbours_of_forall (usage capacity : State)
    (hu : (GoMap.keys usage).Nodup) (hc : (GoMap.keys capacity).Nodup)
    (hk : ∀ k, k ∈ GoMap.keys usage ↔ k ∈ GoMap.keys capacity)
    (hv : ∀ k, GoMap.get usage k < 65536) :
    ∀ m : Move,
      (m ∈ findAdjacentMoves usage capacity ↔
        m ∈ findAllMoves usage capacity ∧ m.To ∈ m.From.neighbours) ∧
      (m ∈ findAdjacentMoves usage capacity →
        m.To ∈ GoMap.keys usage ∧ m.To ∈ GoMap.keys capacity) := by
  intro m
  constructor
  · rw [mem_findAdjacentMoves usage capacity hu, mem_findAllMoves usage capacity hu hc]
    constructor
    · rintro ⟨hf, h0, hto, hle⟩
      have hmem : m ∈ findAdjacentMoves usage capacity :=
        (mem_findAdjacentMoves usage capacity hu m).mpr ⟨hf, h0, hto, hle⟩
      have hkeys := mem_keys_of_mem_findAdjacentMoves usage capacity hu hk hv m hmem
      exact ⟨⟨hf, h0, (hk _).mp hkeys, Coord.ne_of_mem_neighbours _ _ hto, hle⟩, hto⟩
    · rintro ⟨⟨hf, h0, _, _, hle⟩, hto⟩
      exact ⟨hf, h0, hto, hle⟩
  · intro h
    have hkeys := mem_keys_of_mem_findAdjacentMoves usage capacity hu hk hv m h
    exact ⟨hkeys, (hk _).mp hkeys⟩

theorem nodup_neighbour_moves (f : Coord) :
    ([⟨f, ⟨f.X, (f.Y + 1) % 256⟩⟩, ⟨f, ⟨f.X, (f.Y + 255) % 256⟩⟩,
      ⟨f, ⟨(f.X + 1) % 256, f.Y⟩⟩, ⟨f, ⟨(f.X + 255) % 256, f.Y⟩⟩] : List Move).Nodup := by
  simp only [List.nodup_cons, List.mem_cons, List.mem_singleton, Move.mk.injEq,
    Coord.mk.injEq, true_and, List.not_mem_nil, not_false_eq_true, List.nodup_nil, and_true,
    not_or]
  refine ⟨⟨?_, ?_, ?_⟩, ⟨?_, ?_⟩, ?_⟩ <;> omega

theorem sublist_ite_singleton (c : Prop) [Decidable c] (x : Move) :
    (if c then [x] else []).Sublist [x] := by
  by_cases h : c <;> simp [h]

theorem nodup_adjacentMovesFrom (usage capacity : State) (f : Coord) (u : Nat) :
    (adjacentMovesFrom usage capacity f u).Nodup := by
  unfold adjacentMovesFrom
  split
  · exact List.nodup_nil
  · refine List.Nodup.sublist ?_ (nodup_neighbour_moves f)
    exact ((((sublist_ite_singleton _ _).append (sublist_ite_singleton _ _)).append
      (sublist_ite_singleton _ _)).append (sublist_ite_singleton _ _))

theorem nodup_findAdjacentMoves (usage capacity : State) (hu : (GoMap.keys usage).Nodup) :
    (findAdjacentMoves usage capacity).Nodup := by
  unfold findAdjacentMoves
  rw [List.nodup_flatMap]
  constructor
  · rintro ⟨f, u⟩ _
    exact nodup_adjacentMovesFrom usage capacity f u
  · refine (List.pairwise_map.mp hu).imp ?_
    rintro ⟨f, u⟩ ⟨f', u'⟩ hff
    simp only [Function.onFun]
    intro x hx hx'
    have h1 := ((mem_adjacentMovesFrom usage capacity f u x).mp hx).2.1
    have h2 := ((mem_adjacentMovesFrom usage capacity f' u' x).mp hx').2.1
    exact hff (h1.symm.trans h2)

theorem Board.scored_eq_map (b : Board) :
    b.scored = (findAdjacentMoves b.Usage b.Capacity).map fun m =>
      (⟨b.child m, (b.child m).Valid⟩ : BoardScore) := by
  unfold Board.scored
  induction findAdjacentMoves b.Usage b.Capacity with
  | nil => rfl
  | cons m ms ih =>
    simp only [List.flatMap_cons, List.map_cons, ih]
    rw [if_pos (Board.valid_nonneg _)]
    rfl

/-- The usage of a node on the child board that a move makes. -/
theorem Board.get_child_usage (b : Board) (m : Move) (k : Coord) :
    GoMap.get (b.child m).Usage k =
      if k ∈ GoMap.keys b.Usage then
        if k = m.From then 0
        else if k = m.To then (GoMap.get b.Usage m.From + GoMap.get b.Usage k) % 65536
        else GoMap.get b.Usage k
      else 0 := by
  have hg : ∀ p : Coord × Nat,
      (if p.1 = m.From then (p.1, 0)
        else if p.1 = m.To then (p.1, (GoMap.get b.Usage m.From + GoMap.get b.Usage p.1) % 65536)
        else p).1 = p.1 := by
    intro p
    split
    · rfl
    · split <;> rfl
  have e : (b.child m).Usage = b.Usage.map fun kv =>
      if kv.1 = m.From then (kv.1, 0)
      else if kv.1 = m.To then (kv.1, (GoMap.get b.Usage m.From + GoMap.get b.Usage kv.1) % 65536)
      else kv := rfl
  rw [e, GoMap.get_map _ _ hg]
  by_cases hk : k ∈ GoMap.keys b.Usage
  · rw [if_pos hk, if_pos hk]
    by_cases h1 : k = m.From
    · simp [h1]
    · by_cases h2 : k = m.To
      · subst h2
        simp [h1]
      · simp [h1, h2]
  · rw [if_neg hk, if_neg hk]

theorem Board.keys_child_usage (b : Board) (m : Move) :
    GoMap.keys (b.child m).Usage = GoMap.keys b.Usage := by
  have hg : ∀ p : Coord × Nat,
      (if p.1 = m.From then (p.1, 0)
        else if p.1 = m.To then (p.1, (GoMap.get b.Usage m.From + GoMap.get b.Usage p.1) % 65536)
        else p).1 = p.1 := by
    intro p
    split
    · rfl
    · split <;> rfl
  have e : (b.child m).Usage = b.Usage.map fun kv =>
      if kv.1 = m.From then (kv.1, 0)
      else if kv.1 = m.To then (kv.1, (GoMap.get b.Usage m.From + GoMap.get b.Usage kv.1) % 65536)
      else kv := rfl
  rw [e]
  exact GoMap.keys_map _ _ hg

end Day22

namespace Day22

/-- The children of `MakeMoves`, when every usage is below `65536`. -/
theorem makeMoves_children_of_forall (b : Board) (hu : (GoMap.keys b.Usage).Nodup)
    (hk : ∀ k, k ∈ GoMap.keys b.Usage ↔ k ∈ GoMap.keys b.Capacity)
    (hv : ∀ k, GoMap.get b.Usage k < 65536) :
    b.MakeMoves.Perm ((findAdjacentMoves b.Usage b.Capacity).map fun m =>
      (⟨b.child m, (b.child m).Valid⟩ : BoardScore)) ∧
    (findAdjacentMoves b.Usage b.Capacity).Nodup ∧
    ∀ m ∈ findAdjacentMoves b.Usage b.Capacity,
      GoMap.keys (b.child m).Usage = GoMap.keys b.Usage ∧
      GoMap.get (b.child m).Usage m.From = 0 ∧
      GoMap.get (b.child m).Usage m.To =
        (GoMap.get b.Usage m.To + GoMap.get b.Usage m.From) % 65536 ∧
      (GoMap.get b.Usage m.To + GoMap.get b.Usage m.From < 65536 →
        GoMap.get (b.child m).Usage m.To = GoMap.get b.Usage m.To + GoMap.get b.Usage m.From) ∧
      (∀ k, k ≠ m.From → k ≠ m.To → GoMap.get (b.child m).Usage k = GoMap.get b.Usage k) ∧
      (b.child m).Capacity = b.Capacity ∧
      (b.child m).Target = if b.Target = m.From then m.To else b.Target := by
  refine ⟨?_, nodup_findAdjacentMoves _ _ hu, ?_⟩
  · unfold Board.MakeMoves
    rw [← Board.scored_eq_map]
    exact List.perm_insertionSort _ _
  · intro m hm
    have hto := mem_keys_of_mem_findAdjacentMoves b.Usage b.Capacity hu hk hv m hm
    obtain ⟨hf, _, hnb, _⟩ := (mem_findAdjacentMoves b.Usage b.Capacity hu m).mp hm
    have hne : m.To ≠ m.From := fun e => Coord.ne_of_mem_neighbours _ _ hnb e.symm
    have hTo : GoMap.get (b.child m).Usage m.To =
        (GoMap.get b.Usage m.To + GoMap.get b.Usage m.From) % 65536 := by
      rw [Board.get_child_usage, if_pos hto, if_neg hne, if_pos rfl, Nat.add_comm]
    refine ⟨Board.keys_child_usage b m, ?_, hTo, ?_, ?_, rfl, rfl⟩
    · rw [Board.get_child_usage, if_pos hf, if_pos rfl]
    · intro hlt
      rw [hTo, Nat.mod_eq_of_lt hlt]
    · intro k h1 h2
      rw [Board.get_child_usage, if_neg h1, if_neg h2]
      split
      · rfl
      · rename_i hk'
        exact (GoMap.get_eq_zero_of_not_mem _ _ hk').symm

/-- A move keeps every node within its capacity. -/
theorem child_usage_le (b : Board) (hu : (GoMap.keys b.Usage).Nodup)
    (h : ∀ k, GoMap.get b.Usage k ≤ GoMap.get b.Capacity k) (m : Move)
    (hm : m ∈ findAdjacentMoves b.Usage b.Capacity) (k : Coord) :
    GoMap.get (b.child m).Usage k ≤ GoMap.get (b.child m).Capacity k := by
  obtain ⟨_, _, _, hle⟩ := (mem_findAdjacentMoves b.Usage b.Capacity hu m).mp hm
  have hcap : (b.child m).Capacity = b.Capacity := rfl
  rw [Board.get_child_usage, hcap]
  split
  · split
    · exact Nat.zero_le _
    · split
      · rename_i e
        subst e
        rw [Nat.add_comm]
        exact hle
      · exact h k
  · exact Nat.zero_le _

/-- Moves keep every node within its capacity. -/
theorem makeMoves_usage_le_capacity_of_forall (b : Board) (hu : (GoMap.keys b.Usage).Nodup)
    (h : ∀ k, GoMap.get b.Usage k ≤ GoMap.get b.Capacity k) :
    (∀ x ∈ b.MakeMoves, ∀ k,
      GoMap.get x.Child.Usage k ≤ GoMap.get x.Child.Capacity k) ∧
    (∀ n c, Reach n b c → ∀ k, GoMap.get c.Usage k ≤ GoMap.get c.Capacity k) := by
  constructor
  · intro x hx k
    obtain ⟨m, hm, rfl⟩ := (b.mem_MakeMoves x).mp hx
    exact child_usage_le b hu h m hm k
  · intro n
    induction n generalizing b with
    | zero =>
      intro c hr
      simp only [Reach] at hr
      subst hr
      exact h
    | succ n ih =>
      intro c hr
      obtain ⟨m, hm, hr'⟩ := hr
      apply ih (b.child m) _ _ c hr'
      · rw [Board.keys_child_usage]
        exact hu
      · exact child_usage_le b hu h m hm

theorem State.total_eq_sum (s : State) (hs : (GoMap.keys s).Nodup) :
    State.total s = ∑ k ∈ (GoMap.keys s).toFinset, GoMap.get s k := by
  rw [List.sum_toFinset _ hs]
  unfold State.total
  induction s with
  | nil => rfl
  | cons p s ih =>
    obtain ⟨a, b⟩ := p
    simp only [GoMap.keys, List.map_cons, List.nodup_cons] at hs
    simp only [GoMap.keys, List.map_cons, List.sum_cons, GoMap.get, if_true]
    rw [ih hs.2]
    congr 1
    simp only [GoMap.keys, List.map_map]
    congr 1
    apply List.map_congr_left
    intro p hp
    have hne : ¬ a = p.1 := by
      intro e
      exact hs.1 (e ▸ List.mem_map_of_mem Prod.fst hp)
    simp [hne]

/-- A move keeps the total usage, when no sum of two usages overflows. -/
theorem makeMoves_total_usage_of_forall (b : Board) (hu : (GoMap.keys b.Usage).Nodup)
    (hk : ∀ k, k ∈ GoMap.keys b.Usage ↔ k ∈ GoMap.keys b.Capacity)
    (hle : ∀ k, GoMap.get b.Usage k ≤ GoMap.get b.Capacity k)
    (hcap : ∀ k, GoMap.get b.Capacity k < 32768) :
    ∀ x ∈ b.MakeMoves, State.total x.Child.Usage = State.total b.Usage := by
  intro x hx
  obtain ⟨m, hm, rfl⟩ := (b.mem_MakeMoves x).mp hx
  have hv : ∀ k, GoMap.get b.Usage k < 65536 := fun k =>
    lt_of_le_of_lt (hle k) (lt_trans (hcap k) (by norm_num))
  obtain ⟨_, _, hall⟩ := makeMoves_children_of_forall b hu hk hv
  obtain ⟨hkeys, hFrom, _, hTo, hother, _, _⟩ := hall m hm
  have hto := mem_keys_of_mem_findAdjacentMoves b.Usage b.Capacity hu hk hv m hm
  obtain ⟨hf, _, hnb, _⟩ := (mem_findAdjacentMoves b.Usage b.Capacity hu m).mp hm
  have hne : m.To ≠ m.From := fun e => Coord.ne_of_mem_neighbours _ _ hnb e.symm
  have hsum : GoMap.get b.Usage m.To + GoMap.get b.Usage m.From < 65536 := by
    have h1 := lt_of_le_of_lt (hle m.To) (hcap m.To)
    have h2 := lt_of_le_of_lt (hle m.From) (hcap m.From)
    omega
  have hTo' := hTo hsum
  have hu' : (GoMap.keys (b.child m).Usage).Nodup := by rw [hkeys]; exact hu
  rw [State.total_eq_sum _ hu', State.total_eq_sum _ hu, hkeys]
  have hfS : m.From ∈ (GoMap.keys b.Usage).toFinset := List.mem_toFinset.mpr hf
  have htS : m.To ∈ ((GoMap.keys b.Usage).toFinset).erase m.From :=
    Finset.mem_erase.mpr ⟨hne, List.mem_toFinset.mpr hto⟩
  rw [← Finset.add_sum_erase _ _ hfS, ← Finset.add_sum_erase _ _ htS,
    ← Finset.add_sum_erase _ (fun k => GoMap.get b.Usage k) hfS,
    ← Finset.add_sum_erase _ (fun k => GoMap.get b.Usage k) htS]
  have hrest : ∑ k ∈ ((GoMap.keys b.Usage).toFinset.erase m.From).erase m.To,
      GoMap.get (b.child m).Usage k =
      ∑ k ∈ ((GoMap.keys b.Usage).toFinset.erase m.From).erase m.To, GoMap.get b.Usage k := by
    apply Finset.sum_congr rfl
    intro k hk'
    have h2 := (Finset.mem_erase.mp hk').1
    have h1 := (Finset.mem_erase.mp (Finset.mem_erase.mp hk').2).1
    exact hother k h1 h2
  rw [hrest, hFrom, hTo']
  omega

end Day22

/-! ### Day 22: the shared best answer -/

namespace Day22

/-- C16 for one step: while `winner` is not `0`, a step leaves it non-zero and
does not increase it. -/
theorem Pool.winner_step (s s' : Pool) (p : Pick) (h : s.step p = some s')
    (hw : s.winner ≠ 0) (h8 : s.winner ≤ 255) : s'.winner ≠ 0 ∧ s'.winner ≤ s.winner := by
  unfold Pool.step at h
  cases hget : s.tasks.get? p.task with
  | none => rw [hget] at h; simp at h
  | some t =>
    rw [hget] at h
    simp only at h
    cases hch : t.children with
    | nil =>
      rw [hch] at h
      simp only [Option.some.injEq] at h
      subst h
      exact ⟨hw, le_refl _⟩
    | cons c rest =>
      rw [hch] at h
      simp only at h
      by_cases hg : s.winner = 0 ∨ t.depth < s.winner
      · rw [if_pos hg] at h
        cases hwin : c.Child.Win with
        | true =>
          rw [hwin] at h
          simp only [if_true, Option.some.injEq] at h
          subst h
          simp only
          omega
        | false =>
          rw [hwin] at h
          simp only [Bool.false_eq_true, if_false] at h
          split at h
          · simp only [Option.some.injEq] at h
            subst h
            exact ⟨hw, le_refl _⟩
          · simp at h
      · rw [if_neg hg] at h
        simp only [Option.some.injEq] at h
        subst h
        exact ⟨hw, le_refl _⟩

/-- C16: once the shared best answer `winner` (a `uint8`) is non-zero it stays
non-zero and never increases, whatever the schedule: every value stored while
it is non-zero is non-zero and at most the previous one. -/
theorem winner_nonzero_nonincreasing (sched : List Pick) (s s' : Pool)
    (h : s.run sched = some s') (hw : s.winner ≠ 0) (h8 : s.winner ≤ 255) :
    s'.winner ≠ 0 ∧ s'.winner ≤ s.winner := by
  induction sched generalizing s with
  | nil =>
    simp only [Pool.run, Option.some.injEq] at h
    subst h
    exact ⟨hw, le_refl _⟩
  | cons p sched ih =>
    unfold Pool.run at h
    cases hs : s.step p with
    | none => rw [hs] at h; simp at h
    | some s1 =>
      rw [hs] at h
      obtain ⟨h1, h2⟩ := Pool.winner_step s s1 p hs hw h8
      obtain ⟨h3, h4⟩ := ih s1 h h1 (le_trans h2 h8)
      exact ⟨h3, le_trans h4 h2⟩

/-- What a step of a call does with the child it meets. -/
theorem Pool.step_child (s : Pool) (p : Pick) (t : Task) (c : BoardScore) (rest : BoardList)
    (ht : s.tasks.get? p.task = some t) (hc : t.children = c :: rest)
    (ho : c.Child.IsMakeMoves (p.order c.Child)) :
    ∃ s', s.step p = some s' ∧
      (s'.tasks.length = s.tasks.length + 1 ↔
        (c.Child.Win = false ∧ (s.winner = 0 ∨ t.depth < s.winner))) ∧
      (s'.tasks.length = s.tasks.length + 1 →
        s'.tasks.head? = some ⟨c.Child, (t.depth + 1) % 256, p.order c.Child, t.moves + 1⟩ ∧
        s'.winner = s.winner) ∧
      (¬ (s.winner = 0 ∨ t.depth < s.winner) →
        s'.tasks.length = s.tasks.length ∧ s'.winner = s.winner) := by
  unfold Pool.step
  rw [ht]
  simp only [hc]
  by_cases hg : s.winner = 0 ∨ t.depth < s.winner
  · rw [if_pos hg]
    cases hwin : c.Child.Win with
    | true =>
      refine ⟨_, rfl, ?_, ?_, fun h => absurd hg h⟩
      · simp
      · simp
    | false =>
      simp only [Bool.false_eq_true, if_false, if_pos ho]
      refine ⟨_, rfl, ?_, ?_, fun h => absurd hg h⟩
      · simp [hg]
      · simp
  · rw [if_neg hg]
    refine ⟨_, rfl, ?_, ?_, ?_⟩
    · simp [hg]
    · simp
    · simp

/-- C15: in `EvalLoop` at depth `d`, the call meeting a child starts a new call
for it exactly when the child is not won and `winner` is `0` or greater than
`d`, and the new call has depth `d + 1` (as a `uint8`); once a win in
`w <= d` moves has been recorded, whatever runs in between, a call at depth `d`
passes over the child it meets: no call is started and `winner` is not
assigned. -/
theorem evalLoop_expands_iff (s : Pool) (p : Pick) (t : Task) (c : BoardScore)
    (rest : BoardList) (ht : s.tasks.get? p.task = some t) (hc : t.children = c :: rest)
    (ho : c.Child.IsMakeMoves (p.order c.Child)) :
    (∃ s', s.step p = some s' ∧
      (s'.tasks.length = s.tasks.length + 1 ↔
        (c.Child.Win = false ∧ (s.winner = 0 ∨ t.depth < s.winner))) ∧
      (s'.tasks.length = s.tasks.length + 1 →
        s'.tasks.head? = some ⟨c.Child, (t.depth + 1) % 256, p.order c.Child, t.moves + 1⟩ ∧
        s'.winner = s.winner)) ∧
    (∀ (s0 : Pool) (sched : List Pick), 1 ≤ s0.winner → s0.winner ≤ 255 →
      s0.winner ≤ t.depth → s0.run sched = some s →
      ∃ s', s.step p = some s' ∧ s'.tasks.length = s.tasks.length ∧
        s'.winner = s.winner) := by
  obtain ⟨s', hs, h1, h2, h3⟩ := Pool.step_child s p t c rest ht hc ho
  refine ⟨⟨s', hs, h1, h2⟩, ?_⟩
  intro s0 sched hw1 h8 hwd hrun
  obtain ⟨hne, hle⟩ := winner_nonzero_nonincreasing sched s0 s hrun (by omega) h8
  exact ⟨s', hs, h3 (by omega)⟩

end Day22

namespace Day22

theorem Pool.sound_step (b0 : Board) (s s' : Pool) (p : Pick) (hinv : Pool.Sound b0 s)
    (h : s.step p = some s') : Pool.Sound b0 s' := by
  obtain ⟨I1, I2⟩ := hinv
  unfold Pool.step at h
  cases hget : s.tasks.get? p.task with
  | none => rw [hget] at h; simp at h
  | some t =>
    rw [hget] at h
    simp only at h
    have htmem := mem_of_get? _ _ _ hget
    obtain ⟨hreach, hdepth, hchild⟩ := I1 t htmem
    cases hch : t.children with
    | nil =>
      rw [hch] at h
      simp only [Option.some.injEq] at h
      subst h
      exact ⟨fun x hx => I1 x (List.mem_of_mem_eraseIdx hx), I2⟩
    | cons c rest =>
      rw [hch] at h
      simp only at h
      have hcmem : c ∈ t.board.MakeMoves := hchild c (by rw [hch]; simp)
      obtain ⟨mv, hmv, hceq⟩ := (t.board.mem_MakeMoves c).mp hcmem
      have hcreach : Reach (t.moves + 1) b0 c.Child := by
        rw [hceq]
        exact Reach.snoc _ _ _ mv hreach hmv
      have hset : ∀ x ∈ s.tasks.set p.task { t with children := rest },
          Reach x.moves b0 x.board ∧ x.depth = x.moves % 256 ∧
            ∀ c ∈ x.children, c ∈ x.board.MakeMoves := by
        intro x hx
        rcases List.mem_or_eq_of_mem_set hx with hx | hx
        · exact I1 x hx
        · subst hx
          exact ⟨hreach, hdepth, fun y hy => hchild y (by rw [hch]; simp [hy])⟩
      by_cases hg : s.winner = 0 ∨ t.depth < s.winner
      · rw [if_pos hg] at h
        cases hwin : c.Child.Win with
        | true =>
          rw [hwin] at h
          simp only [if_true, Option.some.injEq] at h
          subst h
          refine ⟨hset, fun _ => ⟨t.moves + 1, c.Child, ?_, hcreach, hwin⟩⟩
          simp only
          rw [hdepth]
          omega
        | false =>
          rw [hwin] at h
          simp only [Bool.false_eq_true, if_false] at h
          by_cases ho : c.Child.IsMakeMoves (p.order c.Child)
          · rw [if_pos ho] at h
            simp only [Option.some.injEq] at h
            subst h
            refine ⟨?_, I2⟩
            intro x hx
            simp only at hx
            rcases List.mem_cons.mp hx with hx | hx
            · subst hx
              refine ⟨hcreach, ?_, fun y hy => ho.1.mem_iff.mp hy⟩
              simp only
              rw [hdepth]
              omega
            · exact hset x hx
          · rw [if_neg ho] at h
            simp at h
      · rw [if_neg hg] at h
        simp only [Option.some.injEq] at h
        subst h
        exact ⟨hset, I2⟩

/-- In every run of `ProcessBoard`, a call's `uint8` depth is the number of
moves made since the start board modulo `256`, and a recorded `winner = w` is,
modulo `256`, a number of moves by which a won board is reached. -/
theorem Pool.sound_run (b : Board) (order : Board → BoardList)
    (ho : b.IsMakeMoves (order b)) (sched : List Pick) (s : Pool)
    (h : (Pool.init b order).run sched = some s) : Pool.Sound b s := by
  have hinit : Pool.Sound b (Pool.init b order) := by
    refine ⟨?_, fun h => absurd rfl h⟩
    intro t ht
    simp only [Pool.init, List.mem_singleton] at ht
    subst ht
    exact ⟨rfl, rfl, fun c hc => ho.1.mem_iff.mp hc⟩
  generalize Pool.init b order = s0 at h hinit
  induction sched generalizing s0 with
  | nil =>
    simp only [Pool.run, Option.some.injEq] at h
    subst h
    exact hinit
  | cons p sched ih =>
    unfold Pool.run at h
    cases hs : s0.step p with
    | none => rw [hs] at h; simp at h
    | some s1 =>
      rw [hs] at h
      exact ih s1 h (Pool.sound_step b s0 s1 p hinit hs)

/-- C17 fails on the code: on the five-node grid some run starts a call whose
`uint8` depth is `0` after `256` moves, and goes on to record `winner = 1`
although no won board is reached from the start board by exactly one move. -/
theorem winner_not_moves_spinBoard :
    ∃ sched s sched' s', (Pool.init spinBoard Board.MakeMoves).run sched = some s ∧
      (∃ t ∈ s.tasks, t.depth = 0 ∧ t.moves = 256) ∧
      s.run sched' = some s' ∧ s'.winner = 1 ∧
      ∀ c, Reach 1 spinBoard c → c.Win = false := by
  obtain ⟨P, hw, hwon⟩ := walk_spinBoard
  obtain ⟨s1, tasks1, dp1, h1⟩ := Pool.run_follow 256 spinBoard P hw 0 0 (by norm_num) [] 0
  obtain ⟨s2, tasks2, dp2, h2⟩ := Pool.run_win P.MakeMoves hwon [] tasks1 P (0 + 256) dp1
  refine ⟨s1, _, s2, _, h1, ⟨_, List.mem_cons_self _ _, rfl, rfl⟩, h2, rfl, ?_⟩
  intro c hc
  exact leastWin_spinBoard.2.2 1 c (by norm_num) (by norm_num) hc

end Day22

/-! ### Day 22: the claims about moves, stated on the nodes of the board -/

namespace GoMap

theorem forall_get_lt (m : List (Day22.Coord × Nat)) (N : Nat) (hN : 0 < N)
    (h : ∀ k ∈ keys m, get m k < N) : ∀ k, get m k < N := by
  intro k
  by_cases hk : k ∈ keys m
  · exact h k hk
  · rw [get_eq_zero_of_not_mem m k hk]
    exact hN

theorem forall_get_le (u c : List (Day22.Coord × Nat))
    (h : ∀ k ∈ keys u, get u k ≤ get c k) : ∀ k, get u k ≤ get c k := by
  intro k
  by_cases hk : k ∈ keys u
  · exact h k hk
  · rw [get_eq_zero_of_not_mem u k hk]
    exact Nat.zero_le _

end GoMap

namespace Day22

/-- C14: for a board whose `Usage` and `Capacity` have the same keys (the
usages being `uint16`), `MakeMoves` returns, up to order, one child per move
of `findAdjacentMoves` (the moves are pairwise distinct and the score filter
rejects none); the child of a move has the keys of its parent, usage `0` at
`From`, the `uint16` sum of the two usages at `To` (their exact sum when that
is below `65536`), the parent's usage elsewhere, the parent's `Capacity`, and
`Target = To` if the parent's target is `From`, the parent's target
otherwise. -/
theorem makeMoves_children (b : Board) (hu : (GoMap.keys b.Usage).Nodup)
    (hk : ∀ k, k ∈ GoMap.keys b.Usage ↔ k ∈ GoMap.keys b.Capacity)
    (hv : ∀ k ∈ GoMap.keys b.Usage, GoMap.get b.Usage k < 65536) :
    b.MakeMoves.Perm ((findAdjacentMoves b.Usage b.Capacity).map fun m =>
      (⟨b.child m, (b.child m).Valid⟩ : BoardScore)) ∧
    (findAdjacentMoves b.Usage b.Capacity).Nodup ∧
    ∀ m ∈ findAdjacentMoves b.Usage b.Capacity,
      GoMap.keys (b.child m).Usage = GoMap.keys b.Usage ∧
      GoMap.get (b.child m).Usage m.From = 0 ∧
      GoMap.get (b.child m).Usage m.To =
        (GoMap.get b.Usage m.To + GoMap.get b.Usage m.From) % 65536 ∧
      (GoMap.get b.Usage m.To + GoMap.get b.Usage m.From < 65536 →
        GoMap.get (b.child m).Usage m.To = GoMap.get b.Usage m.To + GoMap.get b.Usage m.From) ∧
      (∀ k, k ≠ m.From → k ≠ m.To → GoMap.get (b.child m).Usage k = GoMap.get b.Usage k) ∧
      (b.child m).Capacity = b.Capacity ∧
      (b.child m).Target = if b.Target = m.From then m.To else b.Target :=
  makeMoves_children_of_forall b hu hk (GoMap.forall_get_lt _ _ (by norm_num) hv)

/-- Witness for C14: the demo board. -/
theorem makeMoves_children_witness :
    demoBoard.MakeMoves.Perm ((findAdjacentMoves demoBoard.Usage demoBoard.Capacity).map fun m =>
      (⟨demoBoard.child m, (demoBoard.child m).Valid⟩ : BoardScore)) ∧
    (findAdjacentMoves demoBoard.Usage demoBoard.Capacity).Nodup ∧
    ∀ m ∈ findAdjacentMoves demoBoard.Usage demoBoard.Capacity,
      GoMap.keys (demoBoard.child m).Usage = GoMap.keys demoBoard.Usage ∧
      GoMap.get (demoBoard.child m).Usage m.From = 0 ∧
      GoMap.get (demoBoard.child m).Usage m.To =
        (GoMap.get demoBoard.Usage m.To + GoMap.get demoBoard.Usage m.From) % 65536 ∧
      (GoMap.get demoBoard.Usage m.To + GoMap.get demoBoard.Usage m.From < 65536 →
        GoMap.get (demoBoard.child m).Usage m.To =
          GoMap.get demoBoard.Usage m.To + GoMap.get demoBoard.Usage m.From) ∧
      (∀ k, k ≠ m.From → k ≠ m.To →
        GoMap.get (demoBoard.child m).Usage k = GoMap.get demoBoard.Usage k) ∧
      (demoBoard.child m).Capacity = demoBoard.Capacity ∧
      (demoBoard.child m).Target = if demoBoard.Target = m.From then m.To
        else demoBoard.Target :=
  makeMoves_children demoBoard (by decide) (fun _ => Iff.rfl) (by decide)

/-- C18: if no node of a board holds more than its capacity, none does on
any child returned by `MakeMoves` (in the code's `uint16` arithmetic), nor on
any board reached by moves. -/
theorem makeMoves_usage_le_capacity (b : Board) (hu : (GoMap.keys b.Usage).Nodup)
    (h : ∀ k ∈ GoMap.keys b.Usage, GoMap.get b.Usage k ≤ GoMap.get b.Capacity k) :
    (∀ x ∈ b.MakeMoves, ∀ k,
      GoMap.get x.Child.Usage k ≤ GoMap.get x.Child.Capacity k) ∧
    (∀ n c, Reach n b c → ∀ k, GoMap.get c.Usage k ≤ GoMap.get c.Capacity k) :=
  makeMoves_usage_le_capacity_of_forall b hu (GoMap.forall_get_le _ _ h)

/-- Witness for C18: the demo board. -/
theorem makeMoves_usage_le_capacity_witness :
    (∀ x ∈ demoBoard.MakeMoves, ∀ k,
      GoMap.get x.Child.Usage k ≤ GoMap.get x.Child.Capacity k) ∧
    (∀ n c, Reach n demoBoard c → ∀ k, GoMap.get c.Usage k ≤ GoMap.get c.Capacity k) :=
  makeMoves_usage_le_capacity demoBoard (by decide) (by decide)

/-- C19: on a board whose `Usage` and `Capacity` have the same keys, with no
node over its capacity and every capacity below `32768`, each child returned
by `MakeMoves` has the total usage of its parent. -/
theorem makeMoves_total_usage (b : Board) (hu : (GoMap.keys b.Usage).Nodup)
    (hk : ∀ k, k ∈ GoMap.keys b.Usage ↔ k ∈ GoMap.keys b.Capacity)
    (hle : ∀ k ∈ GoMap.keys b.Usage, GoMap.get b.Usage k ≤ GoMap.get b.Capacity k)
    (hcap : ∀ k ∈ GoMap.keys b.Capacity, GoMap.get b.Capacity k < 32768) :
    ∀ x ∈ b.MakeMoves, State.total x.Child.Usage = State.total b.Usage :=
  makeMoves_total_usage_of_forall b hu hk (GoMap.forall_get_le _ _ hle)
    (GoMap.forall_get_lt _ _ (by norm_num) hcap)

/-- Witness for C19: the demo board, whose total usage is `76`. -/
theorem makeMoves_total_usage_witness :
    State.total demoBoard.Usage = 76 ∧
    ∀ x ∈ demoBoard.MakeMoves, State.total x.Child.Usage = State.total demoBoard.Usage :=
  ⟨by decide,
    makeMoves_total_usage demoBoard (by decide) (fun _ => Iff.rfl) (by decide) (by decide)⟩

/-- C20: for a usage map and a capacity map with the same keys (the usages
being `uint16`), the moves of `findAdjacentMoves` are exactly the moves of
`findAllMoves` whose `To` is one of the four neighbours of `From` modulo
`256`; every `To` is a node of the grid. -/
theorem findAdjacentMoves_eq_neighbours (usage capacity : State)
    (hu : (GoMap.keys usage).Nodup) (hc : (GoMap.keys capacity).Nodup)
    (hk : ∀ k, k ∈ GoMap.keys usage ↔ k ∈ GoMap.keys capacity)
    (hv : ∀ k ∈ GoMap.keys usage, GoMap.get usage k < 65536) :
    ∀ m : Move,
      (m ∈ findAdjacentMoves usage capacity ↔
        m ∈ findAllMoves usage capacity ∧ m.To ∈ m.From.neighbours) ∧
      (m ∈ findAdjacentMoves usage capacity →
        m.To ∈ GoMap.keys usage ∧ m.To ∈ GoMap.keys capacity) :=
  findAdjacentMoves_eq_neighbours_of_forall usage capacity hu hc hk
    (GoMap.forall_get_lt _ _ (by norm_num) hv)

/-- Witness for C20: the maps of the demo grid. -/
theorem findAdjacentMoves_eq_neighbours_witness :
    (GoMap.keys demoUsage).Nodup ∧
    ∀ m : Move,
      (m ∈ findAdjacentMoves demoUsage demoCapacity ↔
        m ∈ findAllMoves demoUsage demoCapacity ∧ m.To ∈ m.From.neighbours) ∧
      (m ∈ findAdjacentMoves demoUsage demoCapacity →
        m.To ∈ GoMap.keys demoUsage ∧ m.To ∈ GoMap.keys demoCapacity) :=
  ⟨by decide,
    findAdjacentMoves_eq_neighbours demoUsage demoCapacity (by decide) (by decide)
      (fun _ => Iff.rfl) (by decide)⟩

/-- Witness for C15: the first call on the five-node grid meets the child in
which the spare unit of data has moved. -/
theorem evalLoop_expands_iff_witness :
    (∃ s', Pool.step ⟨0, [⟨spinBoard, 0, [⟨spinNext, 4⟩], 0⟩], 0⟩ ⟨0, Board.MakeMoves⟩ = some s' ∧
      (s'.tasks.length = (1 : Nat) + 1 ↔
        (spinNext.Win = false ∧ ((0 : Nat) = 0 ∨ (0 : Nat) < 0))) ∧
      (s'.tasks.length = (1 : Nat) + 1 →
        s'.tasks.head? = some ⟨spinNext, (0 + 1) % 256, spinNext.MakeMoves, 0 + 1⟩ ∧
        s'.winner = 0)) ∧
    (∀ (s0 : Pool) (sched : List Pick), 1 ≤ s0.winner → s0.winner ≤ 255 →
      s0.winner ≤ 0 →
      s0.run sched = some ⟨0, [⟨spinBoard, 0, [⟨spinNext, 4⟩], 0⟩], 0⟩ →
      ∃ s', Pool.step ⟨0, [⟨spinBoard, 0, [⟨spinNext, 4⟩], 0⟩], 0⟩ ⟨0, Board.MakeMoves⟩ = some s' ∧
        s'.tasks.length = 1 ∧ s'.winner = 0) :=
  evalLoop_expands_iff ⟨0, [⟨spinBoard, 0, [⟨spinNext, 4⟩], 0⟩], 0⟩ ⟨0, Board.MakeMoves⟩
    ⟨spinBoard, 0, [⟨spinNext, 4⟩], 0⟩ ⟨spinNext, 4⟩ [] rfl rfl (Board.isMakeMoves_self _)

/-- Witness for C16: with `winner = 3`, a call at depth `1` records its won
child as `2`. -/
theorem winner_nonzero_nonincreasing_witness :
    (⟨2, [⟨spinNear, 1, [], 1⟩], 1⟩ : Pool).winner ≠ 0 ∧
    (⟨2, [⟨spinNear, 1, [], 1⟩], 1⟩ : Pool).winner ≤
      (⟨3, [⟨spinNear, 1, [⟨spinWon, 0⟩], 1⟩], 1⟩ : Pool).winner :=
  winner_nonzero_nonincreasing [⟨0, Board.MakeMoves⟩]
    ⟨3, [⟨spinNear, 1, [⟨spinWon, 0⟩], 1⟩], 1⟩ ⟨2, [⟨spinNear, 1, [], 1⟩], 1⟩
    (by decide) (by decide) (by decide)

end Day22

/-! ### Day 22: the mutex and the wait group -/

namespace Day22

theorem countP_set_call (p : Call → Bool) (l : List Call) (i : Nat) (a b : Call)
    (h : l.get? i = some a) :
    (l.set i b).countP p + (if p a then 1 else 0) = l.countP p + (if p b then 1 else 0) := by
  induction l generalizing i with
  | nil => simp at h
  | cons x l ih =>
    cases i with
    | zero =>
      simp only [List.get?_cons_zero, Option.some.injEq] at h
      subst h
      simp only [List.set_cons_zero, List.countP_cons]
      omega
    | succ i =>
      simp only [List.get?_cons_succ] at h
      have := ih i h
      simp only [List.set_cons_succ, List.countP_cons]
      omega

theorem countP_eraseIdx_call (p : Call → Bool) (l : List Call) (i : Nat) (a : Call)
    (h : l.get? i = some a) :
    (l.eraseIdx i).countP p + (if p a then 1 else 0) = l.countP p := by
  induction l generalizing i with
  | nil => simp at h
  | cons x l ih =>
    cases i with
    | zero =>
      simp only [List.get?_cons_zero, Option.some.injEq] at h
      subst h
      simp only [List.eraseIdx_cons_zero, List.countP_cons]
    | succ i =>
      simp only [List.get?_cons_succ] at h
      have := ih i h
      simp only [List.eraseIdx_cons_succ, List.countP_cons]
      omega

theorem length_eraseIdx_call (l : List Call) (i : Nat) (a : Call) (h : l.get? i = some a) :
    (l.eraseIdx i).length + 1 = l.length := by
  induction l generalizing i with
  | nil => simp at h
  | cons x l ih =>
    cases i with
    | zero => simp
    | succ i =>
      simp only [List.get?_cons_succ] at h
      have := ih i h
      simp only [List.eraseIdx_cons_succ, List.length_cons]
      omega

/-- Two calls counted by a count that is at most one are the same call. -/
theorem eq_of_countP_le_one (p : Call → Bool) (l : List Call) (h : l.countP p ≤ 1)
    (i j : Nat) (a b : Call) (hi : l.get? i = some a) (hj : l.get? j = some b)
    (ha : p a = true) (hb : p b = true) : i = j := by
  induction l generalizing i j with
  | nil => simp at hi
  | cons x l ih =>
    rw [List.countP_cons] at h
    have hpos : ∀ (k : Nat) (c : Call), l.get? k = some c → p c = true → 0 < l.countP p := by
      intro k c hk hc
      exact List.countP_pos_iff.mpr ⟨c, List.get?_mem hk, hc⟩
    cases i with
    | zero =>
      simp only [List.get?_cons_zero, Option.some.injEq] at hi
      subst hi
      cases j with
      | zero => rfl
      | succ j =>
        simp only [List.get?_cons_succ] at hj
        have := hpos j b hj hb
        simp only [ha, if_true] at h
        omega
    | succ i =>
      simp only [List.get?_cons_succ] at hi
      cases j with
      | zero =>
        simp only [List.get?_cons_zero, Option.some.injEq] at hj
        subst hj
        have := hpos i a hi ha
        simp only [hb, if_true] at h
        omega
      | succ j =>
        simp only [List.get?_cons_succ] at hj
        have h' : l.countP p ≤ 1 := by omega
        rw [ih h' i j hi hj]

theorem crit_set (l : List Call) (i : Nat) (c c' : Call) (h : l.get? i = some c)
    (a b : Bool) (ha : c.pc.critical = a) (hb : c'.pc.critical = b) :
    (l.set i c').countP (fun c => c.pc.critical) + a.toNat =
      l.countP (fun c => c.pc.critical) + b.toNat := by
  have := countP_set_call (fun c => c.pc.critical) l i c c' h
  simp only [ha, hb] at this
  cases a <;> cases b <;> simp at this ⊢ <;> omega

theorem crit_eraseIdx (l : List Call) (i : Nat) (c : Call) (h : l.get? i = some c)
    (hc : c.pc.critical = false) :
    (l.eraseIdx i).countP (fun c => c.pc.critical) = l.countP (fun c => c.pc.critical) := by
  have := countP_eraseIdx_call (fun c => c.pc.critical) l i c h
  simp only [hc] at this
  simpa using this

theorem Sys.exclusive_stepCall (s s' : Sys) (i : Nat) (order : Board → BoardList)
    (hinv : s.Exclusive) (h : s.stepCall i order = some s') : s'.Exclusive := by
  unfold Sys.Exclusive at hinv ⊢
  unfold Sys.stepCall at h
  cases hget : s.calls.get? i with
  | none => rw [hget] at h; simp at h
  | some c =>
    rw [hget] at h
    simp only at h
    have hm : s.mutex.toNat ≤ 1 := by cases s.mutex <;> simp
    split at h
    · rename_i hpc hch
      simp only [Option.some.injEq] at h
      subst h
      simp only
      rw [crit_eraseIdx _ _ _ hget (by rw [hpc]; rfl)]
      exact hinv
    · rename_i hpc hch
      split at h
      · simp at h
      · rename_i hmut
        simp only [Option.some.injEq] at h
        subst h
        have := crit_set s.calls i c { c with pc := .test } hget false true
          (by rw [hpc]; rfl) rfl
        simp only [Bool.not_eq_true] at hmut
        rw [hmut] at hinv
        simp only [Bool.toNat_false, Bool.toNat_true] at this hinv ⊢
        omega
    · rename_i hpc hch
      split at h
      · split at h
        · simp only [Option.some.injEq] at h
          subst h
          have := crit_set s.calls i c { c with pc := .record } hget true true
            (by rw [hpc]; rfl) rfl
          simp only
          omega
        · simp only [Option.some.injEq] at h
          subst h
          have := crit_set s.calls i c { c with pc := .unlockGo } hget true true
            (by rw [hpc]; rfl) rfl
          simp only
          omega
      · simp only [Option.some.injEq] at h
        subst h
        have := crit_set s.calls i c { c with pc := .unlockNext } hget true true
          (by rw [hpc]; rfl) rfl
        simp only
        omega
    · rename_i hpc
      simp only [Option.some.injEq] at h
      subst h
      have := crit_set s.calls i c { c with pc := .unlockNext } hget true true
        (by rw [hpc]; rfl) rfl
      simp only
      omega
    · rename_i hpc
      simp only [Option.some.injEq] at h
      subst h
      have := crit_set s.calls i c { c with pc := .loop, children := c.children.tail } hget
        true false (by rw [hpc]; rfl) rfl
      simp only [Bool.toNat_false, Bool.toNat_true] at this ⊢
      omega
    · rename_i hpc
      simp only [Option.some.injEq] at h
      subst h
      have := crit_set s.calls i c { c with pc := .add } hget true false
        (by rw [hpc]; rfl) rfl
      simp only [Bool.toNat_false, Bool.toNat_true] at this ⊢
      omega
    · rename_i hpc
      simp only [Option.some.injEq] at h
      subst h
      have := crit_set s.calls i c { c with pc := .spawn } hget false false
        (by rw [hpc]; rfl) rfl
      simp only
      omega
    · rename_i hpc hch
      split at h
      · rename_i x rest hord
        simp only [Option.some.injEq] at h
        subst h
        have := crit_set s.calls i c { c with pc := .loop, children := rest } hget false false
          (by rw [hpc]; rfl) rfl
        simp only [List.countP_cons]
        have e : PC.critical PC.loop = false := rfl
        simp only [e, Bool.false_eq_true, if_false]
        omega
      · simp at h
    · simp at h

theorem Sys.exclusive_stepMain (b : Board) (s s' : Sys) (order : Board → BoardList)
    (hinv : s.Exclusive) (h : s.stepMain b order = some s') : s'.Exclusive := by
  unfold Sys.Exclusive at hinv ⊢
  unfold Sys.stepMain at h
  split at h
  · simp only [Option.some.injEq] at h
    subst h
    exact hinv
  · split at h
    · simp only [Option.some.injEq] at h
      subst h
      simp only [List.countP_cons]
      have e : PC.critical PC.loop = false := rfl
      simp only [e, Bool.false_eq_true, if_false]
      exact hinv
    · simp at h
  · split at h
    · simp only [Option.some.injEq] at h
      subst h
      exact hinv
    · simp at h
  · simp at h

theorem Sys.exclusive_run (b : Board) (acts : List Act) (s s' : Sys) (hinv : s.Exclusive)
    (h : Sys.run b s acts = some s') : s'.Exclusive := by
  induction acts generalizing s with
  | nil =>
    simp only [Sys.run, Option.some.injEq] at h
    subst h
    exact hinv
  | cons a acts ih =>
    unfold Sys.run at h
    cases hs : s.step b a with
    | none => rw [hs] at h; simp at h
    | some s1 =>
      rw [hs] at h
      apply ih s1 _ h
      unfold Sys.step at hs
      split at hs
      · exact Sys.exclusive_stepMain b s s1 _ hinv hs
      · exact Sys.exclusive_stepCall s s1 _ _ hinv hs

/-- C12: in every state a run of `ProcessBoard` reaches, a call of `EvalLoop`
that is about to read or write `winner` stands between `wMtx.Lock()` and
`wMtx.Unlock()`: the mutex is locked, and no other call stands between a
`Lock` and an `Unlock`, so no two calls access `winner` at once. -/
theorem winner_accessed_under_mutex (b : Board) (acts : List Act) (s : Sys)
    (h : Sys.run b Sys.init acts = some s) :
    ∀ i c, s.calls.get? i = some c → c.pc.touchesWinner = true →
      c.pc.critical = true ∧ s.mutex = true ∧
      ∀ j c', s.calls.get? j = some c' → c'.pc.critical = true → j = i := by
  have hinv : s.Exclusive := Sys.exclusive_run b acts Sys.init s rfl h
  unfold Sys.Exclusive at hinv
  intro i c hi ht
  have hcrit : c.pc.critical = true := by
    cases hpc : c.pc <;> rw [hpc] at ht <;> first | rfl | exact absurd ht (by decide)
  have hpos : 0 < s.calls.countP (fun c => c.pc.critical) :=
    List.countP_pos_iff.mpr ⟨c, List.get?_mem hi, hcrit⟩
  have hm : s.mutex = true := by
    cases hmx : s.mutex with
    | true => rfl
    | false =>
      rw [hmx] at hinv
      simp only [Bool.toNat_false] at hinv
      omega
  refine ⟨hcrit, hm, ?_⟩
  intro j c' hj hc'
  have hle : s.calls.countP (fun c => c.pc.critical) ≤ 1 := by
    rw [hinv]
    cases s.mutex <;> simp
  exact eq_of_countP_le_one (fun c => c.pc.critical) s.calls hle j i c' c hj hi hc' hcrit

/-- A statement of a call that does not touch `winner` neither reads nor
writes it: it does the same whatever `winner` holds, and leaves it as it is. -/
theorem Sys.stepCall_frame (s : Sys) (i : Nat) (order : Board → BoardList) (c : Call)
    (hget : s.calls.get? i = some c) (hc : c.pc.touchesWinner = false) (w : Nat) :
    ({ s with winner := w }).stepCall i order =
      (s.stepCall i order).map fun s' => { s' with winner := w } := by
  unfold Sys.stepCall
  simp only [hget]
  cases hpc : c.pc <;> rw [hpc] at hc <;> cases hch : c.children <;>
    first
    | exact absurd hc (by decide)
    | (simp only []; split <;> rfl)
    | rfl

theorem spawn_set (l : List Call) (i : Nat) (c c' : Call) (h : l.get? i = some c)
    (a b : Bool) (ha : decide (c.pc = .spawn) = a) (hb : decide (c'.pc = .spawn) = b) :
    (l.set i c').countP (fun c => c.pc = .spawn) + a.toNat =
      l.countP (fun c => c.pc = .spawn) + b.toNat := by
  have := countP_set_call (fun c => decide (c.pc = .spawn)) l i c c' h
  simp only [ha, hb] at this
  cases a <;> cases b <;> simp at this ⊢ <;> omega

theorem Sys.counted_stepCall (s s' : Sys) (i : Nat) (order : Board → BoardList)
    (hinv : s.Counted) (h : s.stepCall i order = some s') : s'.Counted := by
  obtain ⟨hwg, ha, hc, hr⟩ := hinv
  unfold Sys.stepCall at h
  cases hget : s.calls.get? i with
  | none => rw [hget] at h; simp at h
  | some c =>
    rw [hget] at h
    simp only at h
    have hne : s.calls ≠ [] := by
      intro e
      rw [e] at hget
      simp at hget
    have hmain1 : s.main ≠ .announce := fun e => hne (ha e)
    have hmain2 : s.main ≠ .call := fun e => hne (hc e)
    have hmain3 : s.main ≠ .returned := fun e => hne (hr e).1
    have hlen : ∀ x, (s.calls.set i x).length = s.calls.length := fun x => List.length_set _ _ _
    have hset_ne : ∀ x, s.calls.set i x ≠ [] := by
      intro x e
      have := hlen x
      rw [e] at this
      exact hne (List.length_eq_zero.mp this.symm)
    unfold Sys.announced at hwg
    simp only [if_neg hmain2, Nat.add_zero] at hwg
    have key : ∀ (calls : List Call) (wg : Int) (w : Nat) (m : Bool), calls ≠ [] →
        wg = (calls.length : Int) + (calls.countP (fun c => c.pc = .spawn) : Int) →
        Sys.Counted ⟨w, m, wg, calls, s.main⟩ := by
      intro calls wg w m hcne hcount
      refine ⟨?_, fun e => absurd e hmain1, fun e => absurd e hmain2, fun e => absurd e hmain3⟩
      unfold Sys.announced
      simp only [if_neg hmain2, Nat.add_zero]
      exact hcount
    split at h
    · rename_i hpc hch
      simp only [Option.some.injEq] at h
      subst h
      have h1 := length_eraseIdx_call s.calls i c hget
      have h2 := countP_eraseIdx_call (fun c => decide (c.pc = .spawn)) s.calls i c hget
      simp only [hpc] at h2
      refine ⟨?_, fun e => absurd e hmain1, fun e => absurd e hmain2, fun e => absurd e hmain3⟩
      unfold Sys.announced
      simp only [if_neg hmain2, Nat.add_zero]
      simp at h2
      omega
    · rename_i hpc hch
      split at h
      · simp at h
      · simp only [Option.some.injEq] at h
        subst h
        have := spawn_set s.calls i c { c with pc := .test } hget false false
          (by rw [hpc]; rfl) rfl
        exact key _ _ _ _ (hset_ne _) (by rw [hlen]; simp at this; omega)
    · rename_i hpc hch
      split at h
      · split at h
        · simp only [Option.some.injEq] at h
          subst h
          have := spawn_set s.calls i c { c with pc := .record } hget false false
            (by rw [hpc]; rfl) rfl
          exact key _ _ _ _ (hset_ne _) (by rw [hlen]; simp at this; omega)
        · simp only [Option.some.injEq] at h
          subst h
          have := spawn_set s.calls i c { c with pc := .unlockGo } hget false false
            (by rw [hpc]; rfl) rfl
          exact key _ _ _ _ (hset_ne _) (by rw [hlen]; simp at this; omega)
      · simp only [Option.some.injEq] at h
        subst h
        have := spawn_set s.calls i c { c with pc := .unlockNext } hget false false
          (by rw [hpc]; rfl) rfl
        exact key _ _ _ _ (hset_ne _) (by rw [hlen]; simp at this; omega)
    · rename_i hpc
      simp only [Option.some.injEq] at h
      subst h
      have := spawn_set s.calls i c { c with pc := .unlockNext } hget false false
        (by rw [hpc]; rfl) rfl
      exact key _ _ _ _ (hset_ne _) (by rw [hlen]; simp at this; omega)
    · rename_i hpc
      simp only [Option.some.injEq] at h
      subst h
      have := spawn_set s.calls i c { c with pc := .loop, children := c.children.tail } hget
        false false (by rw [hpc]; rfl) rfl
      exact key _ _ _ _ (hset_ne _) (by rw [hlen]; simp at this; omega)
    · rename_i hpc
      simp only [Option.some.injEq] at h
      subst h
      have := spawn_set s.calls i c { c with pc := .add } hget false false
        (by rw [hpc]; rfl) rfl
      exact key _ _ _ _ (hset_ne _) (by rw [hlen]; simp at this; omega)
    · rename_i hpc
      simp only [Option.some.injEq] at h
      subst h
      have := spawn_set s.calls i c { c with pc := .spawn } hget false true
        (by rw [hpc]; rfl) rfl
      exact key _ _ _ _ (hset_ne _) (by rw [hlen]; simp at this; omega)
    · rename_i hpc hch
      split at h
      · rename_i x rest hord
        simp only [Option.some.injEq] at h
        subst h
        have := spawn_set s.calls i c { c with pc := .loop, children := rest } hget true false
          (by rw [hpc]; rfl) rfl
        refine key _ _ _ _ (by simp) ?_
        simp only [List.length_cons, hlen, List.countP_cons]
        simp at this ⊢
        omega
      · simp at h
    · simp at h

theorem Sys.counted_stepMain (b : Board) (s s' : Sys) (order : Board → BoardList)
    (hinv : s.Counted) (h : s.stepMain b order = some s') : s'.Counted := by
  obtain ⟨hwg, ha, hc, hr⟩ := hinv
  unfold Sys.stepMain at h
  split at h
  · rename_i hm
    simp only [Option.some.injEq] at h
    subst h
    have hnil := ha hm
    unfold Sys.announced at hwg
    rw [hnil, hm] at hwg
    simp at hwg
    refine ⟨?_, by simp, fun _ => hnil, by simp⟩
    simp [Sys.announced, hnil, hwg]
  · rename_i hm
    split at h
    · simp only [Option.some.injEq] at h
      subst h
      have hnil := hc hm
      unfold Sys.announced at hwg
      rw [hnil, hm] at hwg
      simp at hwg
      refine ⟨?_, by simp, by simp, by simp⟩
      simp [Sys.announced, hnil, hwg]
    · simp at h
  · rename_i hm
    split at h
    · rename_i hw
      simp only [Option.some.injEq] at h
      subst h
      unfold Sys.announced at hwg
      rw [hm] at hwg
      simp at hwg
      have hlen : s.calls.length = 0 := by
        have := hw.1
        omega
      have hnil : s.calls = [] := List.length_eq_zero.mp hlen
      refine ⟨?_, by simp, by simp, fun _ => ⟨hnil, hw.1⟩⟩
      simp [Sys.announced, hnil, hw.1]
    · simp at h
  · simp at h

theorem Sys.counted_run (b : Board) (acts : List Act) (s s' : Sys) (hinv : s.Counted)
    (h : Sys.run b s acts = some s') : s'.Counted := by
  induction acts generalizing s with
  | nil =>
    simp only [Sys.run, Option.some.injEq] at h
    subst h
    exact hinv
  | cons a acts ih =>
    unfold Sys.run at h
    cases hs : s.step b a with
    | none => rw [hs] at h; simp at h
    | some s1 =>
      rw [hs] at h
      apply ih s1 _ h
      unfold Sys.step at hs
      split at hs
      · exact Sys.counted_stepMain b s s1 _ hinv hs
      · exact Sys.counted_stepCall s s1 _ _ hinv hs

theorem Sys.counted_init : Sys.init.Counted := by
  refine ⟨?_, fun _ => rfl, fun _ => rfl, fun h => absurd h (by decide)⟩
  decide

/-- C13 fails as stated: when `ProcessBoard` has executed `wg.Add(1)` of line
174 the counter is `1` and no call of `EvalLoop` has started; and when the
first call has executed `wg.Add(1)` of line 158 the counter is `2` while it is
the only call. -/
theorem waitGroup_counter_ahead :
    Sys.run demoBoard Sys.init [⟨none, Board.MakeMoves⟩] = some ⟨0, false, 1, [], .call⟩ ∧
    Sys.run demoBoard Sys.init
      [⟨none, Board.MakeMoves⟩, ⟨none, Board.MakeMoves⟩, ⟨some 0, Board.MakeMoves⟩,
        ⟨some 0, Board.MakeMoves⟩, ⟨some 0, Board.MakeMoves⟩, ⟨some 0, Board.MakeMoves⟩] =
      some ⟨0, false, 2, [⟨demoBoard, 0, demoBoard.MakeMoves, .spawn, true⟩], .wait⟩ := by
  constructor <;> decide

/-- C13 (as amended): in every state a run of `ProcessBoard` reaches, the
counter of the wait group is the number of calls of `EvalLoop` that have
started and not returned plus the number of calls announced by a `wg.Add(1)`
and not yet started; so it is never below the number of unfinished calls, and
`wg.Wait()` returns, and `ProcessBoard` has returned, only when no call is
left. -/
theorem waitGroup_counts (b : Board) (acts : List Act) (s : Sys)
    (h : Sys.run b Sys.init acts = some s) :
    s.wg = (s.calls.length : Int) + (s.announced : Int) ∧
    (s.calls.length : Int) ≤ s.wg ∧
    (s.main = .returned → s.calls = []) ∧
    (∀ order s', s.main = .wait → s.stepMain b order = some s' → s.calls = []) := by
  obtain ⟨hwg, _, _, hr⟩ := Sys.counted_run b acts Sys.init s Sys.counted_init h
  refine ⟨hwg, by omega, fun e => (hr e).1, ?_⟩
  intro order s' hm hs
  unfold Sys.stepMain at hs
  rw [hm] at hs
  simp only at hs
  split at hs
  · rename_i hw
    have : s.calls.length = 0 := by
      have := hw.1
      omega
    exact List.length_eq_zero.mp this
  · simp at hs

/-- Witness for C13: the state in which the first call stands at its `go`
statement. -/
theorem waitGroup_counts_witness :
    (2 : Int) = (([⟨demoBoard, 0, demoBoard.MakeMoves, .spawn, true⟩] : List Call).length : Int) +
      ((⟨0, false, 2, [⟨demoBoard, 0, demoBoard.MakeMoves, .spawn, true⟩], .wait⟩ : Sys).announced
        : Int) ∧
    (([⟨demoBoard, 0, demoBoard.MakeMoves, .spawn, true⟩] : List Call).length : Int) ≤ 2 ∧
    (MainPC.wait = .returned →
      ([⟨demoBoard, 0, demoBoard.MakeMoves, .spawn, true⟩] : List Call) = []) ∧
    (∀ order s', MainPC.wait = .wait →
      (⟨0, false, 2, [⟨demoBoard, 0, demoBoard.MakeMoves, .spawn, true⟩], .wait⟩ : Sys).stepMain
        demoBoard order = some s' →
      ([⟨demoBoard, 0, demoBoard.MakeMoves, .spawn, true⟩] : List Call) = []) :=
  waitGroup_counts demoBoard
    [⟨none, Board.MakeMoves⟩, ⟨none, Board.MakeMoves⟩, ⟨some 0, Board.MakeMoves⟩,
      ⟨some 0, Board.MakeMoves⟩, ⟨some 0, Board.MakeMoves⟩, ⟨some 0, Board.MakeMoves⟩]
    ⟨0, false, 2, [⟨demoBoard, 0, demoBoard.MakeMoves, .spawn, true⟩], .wait⟩ (by decide)

/-- C12: in every state a run of `ProcessBoard` reaches, a call of `EvalLoop`
that is about to read or write `winner` stands between `wMtx.Lock()` and
`wMtx.Unlock()`, the mutex is locked, and no other call stands between a
`Lock` and an `Unlock`; a call at any other statement neither reads nor
writes `winner`.  So no two calls access `winner` at once. -/
theorem winner_under_mutex (b : Board) (acts : List Act) (s : Sys)
    (h : Sys.run b Sys.init acts = some s) :
    ∀ i c, s.calls.get? i = some c →
      (c.pc.touchesWinner = true →
        c.pc.critical = true ∧ s.mutex = true ∧
        ∀ j c', s.calls.get? j = some c' → c'.pc.critical = true → j = i) ∧
      (c.pc.touchesWinner = false → ∀ order w,
        ({ s with winner := w }).stepCall i order =
          (s.stepCall i order).map fun s' => { s' with winner := w }) := by
  intro i c hi
  exact ⟨winner_accessed_under_mutex b acts s h i c hi,
    fun hc order w => Sys.stepCall_frame s i order c hi hc w⟩

/-- Witness for C12: the state in which the first call holds the mutex and is
about to read `winner`. -/
theorem winner_under_mutex_witness :
    Sys.run demoBoard Sys.init
      [⟨none, Board.MakeMoves⟩, ⟨none, Board.MakeMoves⟩, ⟨some 0, Board.MakeMoves⟩] =
      some ⟨0, true, 1, [⟨demoBoard, 0, demoBoard.MakeMoves, .test, true⟩], .wait⟩ ∧
    ∀ i c, ([⟨demoBoard, 0, demoBoard.MakeMoves, .test, true⟩] : List Call).get? i = some c →
      (c.pc.touchesWinner = true →
        c.pc.critical = true ∧ true = true ∧
        ∀ j c', ([⟨demoBoard, 0, demoBoard.MakeMoves, .test, true⟩] : List Call).get? j = some c' →
          c'.pc.critical = true → j = i) ∧
      (c.pc.touchesWinner = false → ∀ order w,
        ({ (⟨0, true, 1, [⟨demoBoard, 0, demoBoard.MakeMoves, .test, true⟩], .wait⟩ : Sys) with
            winner := w }).stepCall i order =
          ((⟨0, true, 1, [⟨demoBoard, 0, demoBoard.MakeMoves, .test, true⟩], .wait⟩ :
            Sys).stepCall i order).map fun s' => { s' with winner := w }) :=
  ⟨by decide,
    winner_under_mutex demoBoard
      [⟨none, Board.MakeMoves⟩, ⟨none, Board.MakeMoves⟩, ⟨some 0, Board.MakeMoves⟩]
      ⟨0, true, 1, [⟨demoBoard, 0, demoBoard.MakeMoves, .test, true⟩], .wait⟩ (by decide)⟩

end Day22

/-! ### Day 23: the search for the best point -/

namespace Day23

/-- The divisor of `WalkPartway` is the distance of its two points. -/
theorem WalkPartway_eq (c t : Coord) (d : Int) :
    c.WalkPartway t d =
      if t.Distance c = 0 then none
      else
        some ⟨wrap (c.X + quo (wrap (d * wrap (t.X - c.X))) (t.Distance c)),
              wrap (c.Y + quo (wrap (d * wrap (t.Y - c.Y))) (t.Distance c)),
              wrap (c.Z + quo (wrap (d * wrap (t.Z - c.Z))) (t.Distance c))⟩ := by
  have key : (let xDelta := wrap (t.X - c.X)
      let yDelta := wrap (t.Y - c.Y)
      let zDelta := wrap (t.Z - c.Z)
      let sum := 0
      let sum := if xDelta < 0 then wrap (sum - xDelta) else wrap (sum + xDelta)
      let sum := if yDelta < 0 then wrap (sum - yDelta) else wrap (sum + yDelta)
      let sum := if zDelta < 0 then wrap (sum - zDelta) else wrap (sum + zDelta)
      sum) = t.Distance c := by
    unfold Coord.Distance
    simp only []
    generalize wrap (t.X - c.X) = x
    generalize wrap (t.Y - c.Y) = y
    generalize wrap (t.Z - c.Z) = z
    split <;> split <;> split <;> (unfold wrap; omega)
  unfold Coord.WalkPartway
  simp only [] at key ⊢
  rw [key]

theorem WalkPartway_eq_none_iff (c t : Coord) (d : Int) :
    c.WalkPartway t d = none ↔ t.Distance c = 0 := by
  rw [WalkPartway_eq]
  split <;> simp_all

theorem inRange_foldl_add (t : Coord) (drones : DroneList) (a b : Int) :
    drones.foldl (fun inRange d => if d.InRange t then inRange + 1 else inRange) (a + b) =
      a + drones.foldl (fun inRange d => if d.InRange t then inRange + 1 else inRange) b := by
  induction drones generalizing b with
  | nil => simp
  | cons d ds ih =>
    simp only [List.foldl_cons]
    by_cases h : d.InRange t = true
    · simp only [h, if_true]
      rw [add_assoc, ih]
    · simp only [Bool.not_eq_true] at h
      simp only [h, Bool.false_eq_true, if_false]
      rw [ih]

theorem inRange_cons (t : Coord) (d : Drone) (drones : DroneList) :
    DroneList.InRange (d :: drones) t =
      (if d.InRange t then 1 else 0) + DroneList.InRange drones t := by
  unfold DroneList.InRange
  simp only [List.foldl_cons]
  by_cases h : d.InRange t = true
  · simp only [h, if_true]
    rw [add_comm, inRange_foldl_add]
  · simp only [Bool.not_eq_true] at h
    simp [h]

theorem inRange_nonneg (t : Coord) (drones : DroneList) : 0 ≤ DroneList.InRange drones t := by
  induction drones with
  | nil => simp [DroneList.InRange]
  | cons d ds ih => rw [inRange_cons]; split <;> omega

theorem inRange_le_length (t : Coord) (drones : DroneList) :
    DroneList.InRange drones t ≤ drones.length := by
  induction drones with
  | nil => simp [DroneList.InRange]
  | cons d ds ih => rw [inRange_cons]; simp only [List.length_cons]; split <;> omega

theorem inRange_pos_of_mem (t : Coord) (drones : DroneList) (d : Drone) (hd : d ∈ drones)
    (h : d.InRange t = true) : 0 < DroneList.InRange drones t := by
  induction drones with
  | nil => simp at hd
  | cons e ds ih =>
    rw [inRange_cons]
    have := inRange_nonneg t ds
    rcases List.mem_cons.mp hd with rfl | hd
    · simp [h]; omega
    · have := ih hd
      split <;> omega

/-- A drone of non-negative power reaches its own location. -/
theorem inRange_self (d : Drone) (h : 0 ≤ d.Power) : d.InRange d.Loc = true := by
  unfold Drone.InRange Coord.Distance
  simp only [sub_self]
  have : wrap 0 = 0 := by decide
  simp [this, h]

/-- The step of the loop of lines 169-179 panics only at the location of a
drone that is out of its own range. -/
theorem probeStep_isSome (loc : Coord) (p : Probe) (d : Drone) (h : 0 ≤ d.Power) :
    ∃ p', probeStep loc p d = some p' := by
  unfold probeStep
  split
  · exact ⟨_, rfl⟩
  · rename_i hin
    have hne : loc.WalkPartway d.Loc (wrap (d.DistanceToRange loc + 1)) ≠ none := by
      rw [Ne, WalkPartway_eq_none_iff]
      intro h0
      apply hin
      unfold Drone.InRange
      simp [h0, h]
    simp only []
    cases hw : loc.WalkPartway d.Loc (wrap (d.DistanceToRange loc + 1)) with
    | none => exact absurd hw hne
    | some mid => exact ⟨_, rfl⟩

theorem probe_fold_isSome (loc : Coord) (drones : DroneList) (h : ∀ d ∈ drones, 0 ≤ d.Power)
    (p : Probe) : ∃ p', drones.foldlM (probeStep loc) p = some p' := by
  induction drones generalizing p with
  | nil => exact ⟨p, rfl⟩
  | cons d ds ih =>
    obtain ⟨p1, h1⟩ := probeStep_isSome loc p d (h d (List.mem_cons_self _ _))
    obtain ⟨p2, h2⟩ := ih (fun e he => h e (List.mem_cons_of_mem _ he)) p1
    refine ⟨p2, ?_⟩
    simp [List.foldlM_cons, h1, h2]

/-- What the loop of lines 169-179 leaves in `ranges` and `candidates`. -/
theorem probe_fold_spec (loc : Coord) (drones : DroneList) (p p' : Probe)
    (h : drones.foldlM (probeStep loc) p = some p') :
    GoMap.get p'.ranges loc = GoMap.get p.ranges loc + DroneList.InRange drones loc ∧
    (∀ k, k ≠ loc → GoMap.get p'.ranges k = GoMap.get p.ranges k) ∧
    ((GoMap.keys p.ranges).Nodup → (GoMap.keys p'.ranges).Nodup) ∧
    (∀ c, c ∈ p'.candidates ↔ c ∈ p.candidates ∨
      ∃ d ∈ drones, Walked loc d c.Loc ∧ c.Quality = d.DistanceToRange loc) := by
  induction drones generalizing p with
  | nil =>
    simp only [List.foldlM_nil, Option.pure_def, Option.some.injEq] at h
    subst h
    simp [DroneList.InRange]
  | cons d ds ih =>
    simp only [List.foldlM_cons, Option.bind_eq_bind, Option.bind_eq_some] at h
    obtain ⟨p1, h1, h2⟩ := h
    obtain ⟨i1, i2, i3, i4⟩ := ih p1 h2
    unfold probeStep at h1
    by_cases hin : d.InRange loc = true
    · simp only [hin, if_true, Option.some.injEq] at h1
      subst h1
      simp only [GoMap.get_set, if_true] at i1
      refine ⟨?_, ?_, ?_, ?_⟩
      · rw [i1, inRange_cons]; simp [hin]; omega
      · intro k hk
        rw [i2 k hk, GoMap.get_set]
        simp [Ne.symm hk]
      · intro hn
        exact i3 (GoMap.nodup_keys_set _ _ _ hn)
      · intro c
        rw [i4 c]
        constructor
        · rintro (hc | ⟨e, he, hw⟩)
          · exact Or.inl hc
          · exact Or.inr ⟨e, List.mem_cons_of_mem _ he, hw⟩
        · rintro (hc | ⟨e, he, hw⟩)
          · exact Or.inl hc
          · rcases List.mem_cons.mp he with rfl | he
            · exfalso; simp [Walked, hin] at hw
            · exact Or.inr ⟨e, he, hw⟩
    · simp only [hin] at h1
      cases hw : loc.WalkPartway d.Loc (wrap (d.DistanceToRange loc + 1)) with
      | none => simp [hw] at h1
      | some mid =>
        simp only [hw, Bool.false_eq_true, if_false, Option.some.injEq] at h1
        subst h1
        simp only [Bool.not_eq_true] at hin
        refine ⟨?_, ?_, ?_, ?_⟩
        · rw [i1, inRange_cons]; simp [hin]
        · exact i2
        · exact i3
        · intro c
          rw [i4 c]
          simp only [List.mem_append, List.mem_singleton, List.mem_cons, exists_eq_or_imp,
            List.not_mem_nil, or_false]
          constructor
          · rintro ((hc | rfl) | ⟨e, he, hw'⟩)
            · exact Or.inl hc
            · exact Or.inr (Or.inl ⟨⟨hin, hw⟩, rfl⟩)
            · exact Or.inr (Or.inr ⟨e, he, hw'⟩)
          · rintro (hc | ⟨⟨_, hw'⟩, hq⟩ | ⟨e, he, hw'⟩)
            · exact Or.inl (Or.inl hc)
            · refine Or.inl (Or.inr ?_)
              rw [hw] at hw'
              cases c
              simp only [Option.some.injEq] at hw'
              simp_all
            · exact Or.inr ⟨e, he, hw'⟩

theorem probe_isSome (drones : DroneList) (h : ∀ d ∈ drones, 0 ≤ d.Power) (loc : Coord)
    (ranges : List (Coord × Int)) : ∃ p, probe drones loc ranges = some p :=
  probe_fold_isSome loc drones h _

theorem probe_spec (drones : DroneList) (loc : Coord) (ranges : List (Coord × Int)) (p : Probe)
    (h : probe drones loc ranges = some p) :
    GoMap.get p.ranges loc = GoMap.get ranges loc + DroneList.InRange drones loc ∧
    (∀ k, k ≠ loc → GoMap.get p.ranges k = GoMap.get ranges k) ∧
    ((GoMap.keys ranges).Nodup → (GoMap.keys p.ranges).Nodup) ∧
    (∀ c, c ∈ p.candidates ↔
      ∃ d ∈ drones, Walked loc d c.Loc ∧ c.Quality = d.DistanceToRange loc) := by
  have := probe_fold_spec loc drones _ p h
  simpa using this

theorem Search.pass_of_step (drones : DroneList) (o : Order) (s s' : Search)
    (h : s.step drones o = some s') : Search.Pass drones o s s' := by
  unfold Search.step at h
  cases hw : o.work s.worklist with
  | nil => simp [hw] at h
  | cons c rest =>
    simp only [hw] at h
    by_cases hr : GoMap.get s.ranges c.Loc = 0
    · simp only [hr, ne_eq, not_true_eq_false, if_false] at h
      cases hp : probe drones c.Loc s.ranges with
      | none => simp [hp] at h
      | some p =>
        simp only [hp] at h
        by_cases hlow : GoMap.get p.ranges c.Loc < wrap (s.highScore - 2)
        · simp only [hlow, if_true, Option.some.injEq] at h
          subst h
          exact Search.Pass.prune c rest p hw hr hp hlow
        · simp only [hlow, if_false, Option.some.injEq] at h
          subst h
          exact Search.Pass.expand c rest p hw hr hp hlow
    · simp only [ne_eq, hr, not_false_eq_true, if_true, Option.some.injEq] at h
      subst h
      exact Search.Pass.skip c rest hw hr

/-- With drones of non-negative power a pass of the loop does not panic. -/
theorem Search.step_isSome (drones : DroneList) (hpow : ∀ d ∈ drones, 0 ≤ d.Power)
    (o : Order) (s : Search) (hperm : (o.work s.worklist).Perm s.worklist)
    (hne : s.worklist ≠ []) : ∃ s', s.step drones o = some s' := by
  unfold Search.step
  cases hw : o.work s.worklist with
  | nil =>
    rw [hw] at hperm
    exact absurd hperm.symm.eq_nil hne
  | cons c rest =>
    simp only []
    split
    · exact ⟨_, rfl⟩
    · obtain ⟨p, hp⟩ := probe_isSome drones hpow c.Loc s.ranges
      simp only [hp]
      split <;> exact ⟨_, rfl⟩

theorem Order.Valid.perm_work {o : Order} (h : o.Valid) (xs : List Candidate) :
    (o.work xs).Perm xs := (h.1 xs).1

theorem Order.Valid.perm_cands {o : Order} (h : o.Valid) (xs : List Candidate) :
    (o.cands xs).Perm xs := (h.2 xs).1

theorem farGaps_inRange : ∀ z ∈ farGaps, DroneList.InRange farDrones z = 0 := by decide

theorem far_walk (loc : Coord)
    (h : loc ∈ farGaps ∨ loc = ⟨0, 0, 0⟩ ∨ loc = ⟨3, 3, 3⟩) :
    ∃ d ∈ farDrones, ∃ mid ∈ farGaps, Walked loc d mid := by
  unfold Walked
  rcases h with h | rfl | rfl
  · simp only [farGaps, List.mem_cons, List.mem_singleton, List.not_mem_nil, or_false] at h
    rcases h with rfl | rfl
    · exact ⟨⟨⟨0, 0, 0⟩, 2⟩, by decide, ⟨1, 1, 1⟩, by decide, by decide, by decide⟩
    · exact ⟨⟨⟨3, 3, 3⟩, 2⟩, by decide, ⟨2, 2, 2⟩, by decide, by decide, by decide⟩
  · exact ⟨⟨⟨3, 3, 3⟩, 2⟩, by decide, ⟨2, 2, 2⟩, by decide, by decide, by decide⟩
  · exact ⟨⟨⟨0, 0, 0⟩, 2⟩, by decide, ⟨1, 1, 1⟩, by decide, by decide, by decide⟩

theorem FarPending.pass (o : Order) (ho : o.Valid) (s s' : Search) (hinv : FarPending s)
    (h : Search.Pass farDrones o s s') : FarPending s' := by
  obtain ⟨h0, h2, hz, c, hc, hG, hc0⟩ := hinv
  have hmem : ∀ {c0 rest}, o.work s.worklist = c0 :: rest → c = c0 ∨ c ∈ rest := by
    intro c0 rest hw
    have := (ho.perm_work s.worklist).mem_iff.mpr hc
    rw [hw] at this
    exact List.mem_cons.mp this
  cases h with
  | skip c0 rest hw hr =>
    refine ⟨h0, h2, hz, c, ?_, hG, hc0⟩
    rcases hmem hw with rfl | hin
    · exact absurd hc0 hr
    · exact hin
  | prune c0 rest p hw hr hp hlow =>
    exfalso
    obtain ⟨e1, -, -, -⟩ := probe_spec _ _ _ _ hp
    have := inRange_nonneg c0.Loc farDrones
    rw [e1, hr] at hlow
    unfold wrap at hlow
    omega
  | expand c0 rest p hw hr hp hlow =>
    obtain ⟨e1, e2, -, e4⟩ := probe_spec _ _ _ _ hp
    have hn := inRange_nonneg c0.Loc farDrones
    have hl := inRange_le_length c0.Loc farDrones
    have hlen : (farDrones.length : Int) = 2 := by decide
    rw [hr] at e1
    have hz' : ∀ z ∈ farGaps, GoMap.get p.ranges z = 0 := by
      intro z hzm
      by_cases hzc : z = c0.Loc
      · subst hzc
        rw [e1, farGaps_inRange _ hzm]; rfl
      · rw [e2 z hzc]; exact hz z hzm
    refine ⟨?_, ?_, hz', ?_⟩
    · simp only []; split <;> omega
    · simp only []; split <;> omega
    · by_cases hG0 : c0.Loc ∈ farGaps ∨ c0.Loc = ⟨0, 0, 0⟩ ∨ c0.Loc = ⟨3, 3, 3⟩
      · obtain ⟨d, hd, mid, hmid, hwalk⟩ := far_walk c0.Loc hG0
        have hcand : (⟨mid, d.DistanceToRange c0.Loc⟩ : Candidate) ∈ p.candidates :=
          (e4 _).mpr ⟨d, hd, hwalk, rfl⟩
        have hcand' := (ho.perm_cands p.candidates).mem_iff.mpr hcand
        refine ⟨⟨mid, wrap (GoMap.get p.ranges c0.Loc + 1)⟩, ?_, Or.inl hmid, hz' mid hmid⟩
        simp only [List.mem_append, List.mem_map]
        exact Or.inr ⟨_, hcand', rfl⟩
      · have hne : c ≠ c0 := fun e => hG0 (e ▸ hG)
        have hloc : c.Loc ≠ c0.Loc := fun e => hG0 (e ▸ hG)
        refine ⟨c, ?_, hG, ?_⟩
        · simp only [List.mem_append]
          rcases hmem hw with e | hin
          · exact absurd e hne
          · exact Or.inl hin
        · rw [e2 _ hloc]; exact hc0

theorem FarPending.run (orders : List Order) (ho : ∀ o ∈ orders, o.Valid) (s : Search)
    (hinv : FarPending s) :
    ∃ s', Search.run farDrones s orders = some s' ∧ s'.worklist ≠ [] := by
  have hne : ∀ s, FarPending s → s.worklist ≠ [] := by
    rintro s ⟨-, -, -, c, hc, -⟩ e
    rw [e] at hc
    simp at hc
  induction orders generalizing s with
  | nil => exact ⟨s, rfl, hne s hinv⟩
  | cons o orders ih =>
    have hov := ho o (List.mem_cons_self _ _)
    obtain ⟨s1, h1⟩ := Search.step_isSome farDrones (by decide) o s
      (hov.perm_work _) (hne s hinv)
    have hinv1 := hinv.pass o hov s s1 (Search.pass_of_step _ _ _ _ h1)
    obtain ⟨s2, h2, hw2⟩ := ih (fun o ho' => ho o (List.mem_cons_of_mem _ ho')) s1 hinv1
    refine ⟨s2, ?_, hw2⟩
    simp [Search.run, hne s hinv, h1, h2]

theorem farPending_init (seeds : List (Coord × Int))
    (h : seeds.Perm (scan farDrones).seeds) : FarPending (Search.init seeds) := by
  refine ⟨by simp [Search.init], by simp [Search.init], fun z _ => rfl, ?_⟩
  have hm : ((⟨0, 0, 0⟩ : Coord), (1 : Int)) ∈ seeds := h.mem_iff.mpr (by decide)
  refine ⟨⟨⟨0, 0, 0⟩, 1⟩, ?_, Or.inr (Or.inl rfl), rfl⟩
  simp only [Search.init, List.mem_map]
  exact ⟨_, hm, rfl⟩

theorem Order.insertion_valid : Order.insertion.Valid := by
  constructor
  · intro xs
    refine ⟨List.perm_insertionSort _ xs, ?_⟩
    haveI : IsTotal Candidate (fun a b => b.Quality ≤ a.Quality) :=
      ⟨fun a b => le_total b.Quality a.Quality⟩
    haveI : IsTrans Candidate (fun a b => b.Quality ≤ a.Quality) :=
      ⟨fun _ _ _ h1 h2 => le_trans h2 h1⟩
    have hs := List.sorted_insertionSort (fun a b : Candidate => b.Quality ≤ a.Quality) xs
    refine List.Pairwise.imp ?_ hs
    intro a b hab
    simp only [gt_iff_lt, decide_eq_false_iff_not, not_lt]
    exact hab
  · intro xs
    refine ⟨List.perm_insertionSort _ xs, ?_⟩
    haveI : IsTotal Candidate (fun a b => a.Quality ≤ b.Quality) :=
      ⟨fun a b => le_total a.Quality b.Quality⟩
    haveI : IsTrans Candidate (fun a b => a.Quality ≤ b.Quality) :=
      ⟨fun _ _ _ h1 h2 => le_trans h1 h2⟩
    have hs := List.sorted_insertionSort (fun a b : Candidate => a.Quality ≤ b.Quality) xs
    refine List.Pairwise.imp ?_ hs
    intro a b hab
    simp only [decide_eq_false_iff_not, not_lt]
    exact hab

theorem Choices.plain_valid (n : Nat) : (Choices.plain n).Valid :=
  ⟨fun _ => List.Perm.refl _,
   fun o ho => by rw [List.eq_of_mem_replicate ho]; exact Order.insertion_valid,
   fun _ => List.Perm.refl _⟩

/-- C11: the input `pos=<0,0,0>, r=2`, `pos=<3,3,3>, r=2` is read as two drones
of non-negative power, and on them the worklist search of lines 152-196 does
not end: whatever the order in which line 147 visits `seeds` and whatever
`sort.Slice` returns, after any number of passes of the loop no pass has
panicked and the worklist is not empty, so that no solution point is
printed. -/
theorem worklist_search_runs_on (ch : Choices) (hch : ch.Valid) (fuel : Nat) :
    readDrones "pos=<0,0,0>, r=2\npos=<3,3,3>, r=2\n".toList = some farDrones ∧
    (∀ d ∈ farDrones, 0 ≤ d.Power) ∧
    (∃ s, Search.run farDrones (Search.init (ch.seeds (scan farDrones).seeds)) ch.orders =
        some s ∧ s.worklist ≠ []) ∧
    solution farDrones ch fuel = none := by
  obtain ⟨s, hs, hw⟩ := FarPending.run ch.orders hch.2.1 _ (farPending_init _ (hch.1 _))
  refine ⟨by decide, by decide, ⟨s, hs, hw⟩, ?_⟩
  unfold solution
  rw [hs]
  obtain ⟨r, w, h⟩ := s
  cases w with
  | nil => exact absurd rfl hw
  | cons c w => rfl

theorem worklist_search_runs_on_witness :
    (Choices.plain 6).Valid ∧
    (∃ s, Search.run farDrones (Search.init (scan farDrones).seeds)
        (List.replicate 6 Order.insertion) = some s ∧ s.worklist ≠ []) ∧
    solution farDrones (Choices.plain 6) 6 = none :=
  ⟨Choices.plain_valid 6,
   (worklist_search_runs_on (Choices.plain 6) (Choices.plain_valid 6) 6).2.2⟩

theorem tdiv_walk (w dx S : Int) (hw1 : 0 ≤ w) (hw2 : w ≤ S + 1) (hS : 0 < S)
    (hdx : |dx| ≤ S) :
    (0 ≤ dx → 0 ≤ (w * dx).tdiv S ∧ (w * dx).tdiv S ≤ dx + 1) ∧
    (dx ≤ 0 → dx - 1 ≤ (w * dx).tdiv S ∧ (w * dx).tdiv S ≤ 0) := by
  have pos : ∀ e : Int, 0 ≤ e → e ≤ S → 0 ≤ (w * e).tdiv S ∧ (w * e).tdiv S ≤ e + 1 := by
    intro e he1 he2
    have hwe : 0 ≤ w * e := mul_nonneg hw1 he1
    rw [Int.tdiv_eq_ediv hwe (le_of_lt hS)]
    refine ⟨Int.ediv_nonneg hwe (le_of_lt hS), Int.ediv_le_of_le_mul hS ?_⟩
    nlinarith
  have habs := abs_le.mp hdx
  constructor
  · intro h
    exact pos dx h habs.2
  · intro h
    have := pos (-dx) (by omega) (by omega)
    rw [mul_neg, Int.neg_tdiv] at this
    omega

theorem mul_bound (w x W X : Int) (hw1 : 0 ≤ w) (hw2 : w ≤ W) (hx1 : -X ≤ x) (hx2 : x ≤ X) :
    -(W * X) ≤ w * x ∧ w * x ≤ W * X := by
  have hX : 0 ≤ X := by omega
  constructor <;> nlinarith [mul_nonneg hw1 (by omega : 0 ≤ X - x),
    mul_nonneg hw1 (by omega : 0 ≤ X + x), mul_nonneg (by omega : 0 ≤ W - w) hX]

/-- One coordinate of `WalkPartway`: the walk ends between its start and one
step past its target. -/
theorem axis_near (l t w S : Int) (hl1 : -500000001 ≤ l) (hl2 : l ≤ 500000001)
    (ht1 : -500000000 ≤ t) (ht2 : t ≤ 500000000) (hw1 : 0 ≤ w) (hw2 : w ≤ S + 1)
    (hS1 : 0 < S) (hS2 : S ≤ 3000000003) (hdx : |t - l| ≤ S) :
    -500000001 ≤ wrap (l + quo (wrap (w * wrap (t - l))) S) ∧
      wrap (l + quo (wrap (w * wrap (t - l))) S) ≤ 500000001 := by
  have e1 : wrap (t - l) = t - l := wrap_of_isInt (by unfold IsInt; omega)
  have hm := mul_bound w (t - l) 3000000004 1000000001 hw1 (by omega) (by omega) (by omega)
  have e2 : wrap (w * (t - l)) = w * (t - l) := wrap_of_isInt (by unfold IsInt; omega)
  have hq := tdiv_walk w (t - l) S hw1 hw2 hS1 hdx
  have e3 : quo (w * (t - l)) S = (w * (t - l)).tdiv S := by
    unfold quo
    apply wrap_of_isInt
    unfold IsInt
    rcases le_total 0 (t - l) with h | h
    · have := hq.1 h; omega
    · have := hq.2 h; omega
  rw [e1, e2, e3]
  rcases le_total 0 (t - l) with h | h
  · have := hq.1 h
    rw [wrap_of_isInt (by unfold IsInt; omega)]
    omega
  · have := hq.2 h
    rw [wrap_of_isInt (by unfold IsInt; omega)]
    omega

theorem Walked.stays_near (loc : Coord) (d : Drone) (mid : Coord) (hloc : loc.Near)
    (hd : d.Bounded) (h : Walked loc d mid) : mid.Near := by
  obtain ⟨hin, hwalk⟩ := h
  obtain ⟨⟨lx1, lx2⟩, ⟨ly1, ly2⟩, ⟨lz1, lz2⟩⟩ := hloc
  obtain ⟨⟨dx1, dx2⟩, ⟨dy1, dy2⟩, ⟨dz1, dz2⟩, hp⟩ := hd
  have ax := abs_le.mpr (⟨by omega, by omega⟩ :
      -1000000001 ≤ d.Loc.X - loc.X ∧ d.Loc.X - loc.X ≤ 1000000001)
  have ay := abs_le.mpr (⟨by omega, by omega⟩ :
      -1000000001 ≤ d.Loc.Y - loc.Y ∧ d.Loc.Y - loc.Y ≤ 1000000001)
  have az := abs_le.mpr (⟨by omega, by omega⟩ :
      -1000000001 ≤ d.Loc.Z - loc.Z ∧ d.Loc.Z - loc.Z ≤ 1000000001)
  have nx := abs_nonneg (d.Loc.X - loc.X)
  have ny := abs_nonneg (d.Loc.Y - loc.Y)
  have nz := abs_nonneg (d.Loc.Z - loc.Z)
  have hman : d.Loc.Distance loc = manhattan d.Loc loc := by
    apply Distance_eq_manhattan
    unfold manhattan
    omega
  have hS : manhattan d.Loc loc =
      |d.Loc.X - loc.X| + |d.Loc.Y - loc.Y| + |d.Loc.Z - loc.Z| := rfl
  have hlt : d.Power < manhattan d.Loc loc := by
    unfold Drone.InRange at hin
    rw [hman] at hin
    simpa using hin
  have hdist : d.DistanceToRange loc = manhattan d.Loc loc - d.Power := by
    unfold Drone.DistanceToRange
    rw [hman]
    exact wrap_of_isInt (by unfold IsInt; omega)
  have hw : wrap (d.DistanceToRange loc + 1) = manhattan d.Loc loc - d.Power + 1 := by
    rw [hdist]
    exact wrap_of_isInt (by unfold IsInt; omega)
  rw [WalkPartway_eq, hman, hw] at hwalk
  have hne : manhattan d.Loc loc ≠ 0 := by omega
  simp only [hne, if_false, Option.some.injEq] at hwalk
  subst hwalk
  refine ⟨?_, ?_, ?_⟩
  · exact axis_near _ _ _ _ lx1 lx2 dx1 dx2 (by omega) (by omega) (by omega) (by omega)
      (by omega)
  · exact axis_near _ _ _ _ ly1 ly2 dy1 dy2 (by omega) (by omega) (by omega) (by omega)
      (by omega)
  · exact axis_near _ _ _ _ lz1 lz2 dz1 dz2 (by omega) (by omega) (by omega) (by omega)
      (by omega)

theorem scanStep_keys (drones : DroneList) (st : Scan) (d : Drone) (k : Coord) :
    k ∈ GoMap.keys (scanStep drones st d).seeds ↔ k = d.Loc ∨ k ∈ GoMap.keys st.seeds := by
  unfold scanStep
  simp only []
  split <;> exact GoMap.mem_keys_set _ _ _ _

theorem scan_foldl_keys (drones l : DroneList) (st : Scan) (k : Coord) :
    k ∈ GoMap.keys (l.foldl (scanStep drones) st).seeds ↔
      (∃ d ∈ l, k = d.Loc) ∨ k ∈ GoMap.keys st.seeds := by
  induction l generalizing st with
  | nil => simp
  | cons d l ih =>
    simp only [List.foldl_cons, ih, scanStep_keys, List.mem_cons, exists_eq_or_imp]
    constructor
    · rintro (h | h | h)
      · exact Or.inl (Or.inr h)
      · exact Or.inl (Or.inl h)
      · exact Or.inr h
    · rintro ((h | h) | h)
      · exact Or.inr (Or.inl h)
      · exact Or.inl h
      · exact Or.inr (Or.inr h)

/-- The keys of `seeds` are the locations of the drones. -/
theorem scan_keys (drones : DroneList) (k : Coord) :
    k ∈ GoMap.keys (scan drones).seeds ↔ ∃ d ∈ drones, k = d.Loc := by
  unfold scan
  rw [scan_foldl_keys]
  simp [GoMap.keys]

theorem Drone.Bounded.loc_near {d : Drone} (h : d.Bounded) : d.Loc.Near := by
  obtain ⟨⟨a1, a2⟩, ⟨b1, b2⟩, ⟨c1, c2⟩, -⟩ := h
  exact ⟨⟨by omega, by omega⟩, ⟨by omega, by omega⟩, ⟨by omega, by omega⟩⟩

theorem Search.inv_at_init (drones : DroneList) (hb : ∀ d ∈ drones, d.Bounded)
    (seeds : List (Coord × Int)) (h : seeds.Perm (scan drones).seeds) :
    Search.Inv drones (Search.init seeds) := by
  have hk : ∀ k, k ∈ GoMap.keys seeds ↔ ∃ d ∈ drones, k = d.Loc := by
    intro k
    rw [← scan_keys]
    exact (h.map Prod.fst).mem_iff
  refine ⟨by simp [Search.init, GoMap.keys], fun k => Or.inl rfl, le_refl _,
    fun k => le_refl _, Or.inl rfl, ?_, ?_⟩
  · intro d hd
    right
    have : d.Loc ∈ GoMap.keys seeds := (hk _).mpr ⟨d, hd, rfl⟩
    simp only [GoMap.keys, List.mem_map] at this
    obtain ⟨e, he, hloc⟩ := this
    exact ⟨⟨e.1, e.2⟩, by simp only [Search.init, List.mem_map]; exact ⟨e, he, rfl⟩, hloc⟩
  · intro c hc
    simp only [Search.init, List.mem_map] at hc
    obtain ⟨e, he, rfl⟩ := hc
    have : e.1 ∈ GoMap.keys seeds := by
      simp only [GoMap.keys, List.mem_map]
      exact ⟨e, he, rfl⟩
    obtain ⟨d, hd, hloc⟩ := (hk _).mp this
    simp only []
    rw [hloc]
    exact (hb d hd).loc_near

theorem Search.inv_pass (drones : DroneList) (hb : ∀ d ∈ drones, d.Bounded)
    (o : Order) (ho : o.Valid) (s s' : Search) (hinv : Search.Inv drones s)
    (h : Search.Pass drones o s s') : Search.Inv drones s' := by
  obtain ⟨i1, i2, i3, i4, i5, i6, i7⟩ := hinv
  have hmem : ∀ {c0 rest} (c : Candidate), o.work s.worklist = c0 :: rest →
      c ∈ s.worklist → c = c0 ∨ c ∈ rest := by
    intro c0 rest c hw hc
    have := (ho.perm_work s.worklist).mem_iff.mpr hc
    rw [hw] at this
    exact List.mem_cons.mp this
  have hsub : ∀ {c0 rest} (c : Candidate), o.work s.worklist = c0 :: rest →
      c = c0 ∨ c ∈ rest → c ∈ s.worklist := by
    intro c0 rest c hw hc
    apply (ho.perm_work s.worklist).mem_iff.mp
    rw [hw]
    exact List.mem_cons.mpr hc
  -- the variables after the location `c0.Loc` has been scored
  have scoredAt : ∀ (c0 : Candidate) (rest : List Candidate) (p : Probe),
      o.work s.worklist = c0 :: rest → GoMap.get s.ranges c0.Loc = 0 →
      probe drones c0.Loc s.ranges = some p →
      (GoMap.keys p.ranges).Nodup ∧
      (∀ k, GoMap.get p.ranges k = 0 ∨ GoMap.get p.ranges k = DroneList.InRange drones k) ∧
      GoMap.get p.ranges c0.Loc = DroneList.InRange drones c0.Loc ∧
      (∀ k, k ≠ c0.Loc → GoMap.get p.ranges k = GoMap.get s.ranges k) ∧
      (∀ d ∈ drones, GoMap.get p.ranges d.Loc ≠ 0 ∨ ∃ c ∈ rest, c.Loc = d.Loc) ∧
      (∀ c ∈ p.candidates, c.Loc.Near) := by
    intro c0 rest p hw hr hp
    obtain ⟨e1, e2, e3, e4⟩ := probe_spec _ _ _ _ hp
    rw [hr, zero_add] at e1
    refine ⟨e3 i1, ?_, e1, e2, ?_, ?_⟩
    · intro k
      by_cases hk : k = c0.Loc
      · subst hk; exact Or.inr e1
      · rw [e2 k hk]; exact i2 k
    · intro d hd
      by_cases hk : d.Loc = c0.Loc
      · left
        rw [hk, e1, ← hk]
        exact ne_of_gt (inRange_pos_of_mem _ _ d hd (inRange_self d (hb d hd).2.2.2))
      · rw [e2 _ hk]
        rcases i6 d hd with h0 | ⟨c, hc, hloc⟩
        · exact Or.inl h0
        · right
          rcases hmem c hw hc with rfl | hin
          · exact absurd hloc.symm hk
          · exact ⟨c, hin, hloc⟩
    · intro c hc
      obtain ⟨d, hd, hwalk, -⟩ := (e4 c).mp hc
      exact hwalk.stays_near _ _ _ (i7 c0 (hsub c0 hw (Or.inl rfl))) (hb d hd)
  cases h with
  | skip c0 rest hw hr =>
    refine ⟨i1, i2, i3, i4, i5, ?_, ?_⟩
    · intro d hd
      rcases i6 d hd with h0 | ⟨c, hc, hloc⟩
      · exact Or.inl h0
      · rcases hmem c hw hc with rfl | hin
        · left; rw [← hloc]; exact hr
        · exact Or.inr ⟨c, hin, hloc⟩
    · intro c hc
      exact i7 c (hsub c hw (Or.inr hc))
  | prune c0 rest p hw hr hp hlow =>
    obtain ⟨f1, f2, f3, f4, f5, -⟩ := scoredAt c0 rest p hw hr hp
    have hle : GoMap.get p.ranges c0.Loc ≤ s.highScore := by
      unfold wrap at hlow; omega
    refine ⟨f1, f2, i3, ?_, ?_, f5, ?_⟩
    · intro k
      by_cases hk : k = c0.Loc
      · subst hk; exact hle
      · rw [f4 k hk]; exact i4 k
    · rcases i5 with h0 | ⟨k, hk, hnear⟩
      · exact Or.inl h0
      · by_cases hs0 : s.highScore = 0
        · exact Or.inl hs0
        · right
          refine ⟨k, ?_, hnear⟩
          have hne : k ≠ c0.Loc := by
            rintro rfl
            rw [hr] at hk
            exact hs0 hk.symm
          simp only []
          rw [f4 k hne]; exact hk
    · intro c hc
      exact i7 c (hsub c hw (Or.inr hc))
  | expand c0 rest p hw hr hp hlow =>
    obtain ⟨f1, f2, f3, f4, f5, f6⟩ := scoredAt c0 rest p hw hr hp
    have hnn := inRange_nonneg c0.Loc drones
    refine ⟨f1, f2, ?_, ?_, ?_, ?_, ?_⟩
    · simp only []; split <;> omega
    · intro k
      simp only []
      by_cases hk : k = c0.Loc
      · subst hk; split <;> omega
      · rw [f4 k hk]
        have := i4 k
        split <;> omega
    · simp only []
      split
      · exact Or.inr ⟨c0.Loc, rfl, i7 c0 (hsub c0 hw (Or.inl rfl))⟩
      · rcases i5 with h0 | ⟨k, hk, hnear⟩
        · exact Or.inl h0
        · by_cases hs0 : s.highScore = 0
          · exact Or.inl hs0
          · right
            refine ⟨k, ?_, hnear⟩
            have hne : k ≠ c0.Loc := by
              rintro rfl
              rw [hr] at hk
              exact hs0 hk.symm
            rw [f4 k hne]; exact hk
    · intro d hd
      rcases f5 d hd with h0 | ⟨c, hc, hloc⟩
      · exact Or.inl h0
      · exact Or.inr ⟨c, List.mem_append_left _ hc, hloc⟩
    · intro c hc
      simp only [List.mem_append, List.mem_map] at hc
      rcases hc with hc | ⟨x, hx, rfl⟩
      · exact i7 c (hsub c hw (Or.inr hc))
      · exact f6 x ((ho.perm_cands _).mem_iff.mp hx)

theorem Search.inv_after_run (drones : DroneList) (hb : ∀ d ∈ drones, d.Bounded)
    (orders : List Order) (ho : ∀ o ∈ orders, o.Valid) (s s' : Search)
    (hinv : Search.Inv drones s) (h : Search.run drones s orders = some s') :
    Search.Inv drones s' := by
  induction orders generalizing s with
  | nil =>
    simp only [Search.run, Option.some.injEq] at h
    subst h; exact hinv
  | cons o orders ih =>
    unfold Search.run at h
    split at h
    · simp only [Option.some.injEq] at h
      subst h; exact hinv
    · cases h1 : s.step drones o with
      | none => simp [h1] at h
      | some s1 =>
        simp only [h1] at h
        exact ih (fun o' ho' => ho o' (List.mem_cons_of_mem _ ho')) s1
          (Search.inv_pass drones hb o (ho o (List.mem_cons_self _ _)) s s1 hinv
            (Search.pass_of_step _ _ _ _ h1)) h

theorem lowest_foldl (hs : Int) (M m : List (Coord × Int)) (acc : Int × Coord)
    (hsub : ∀ e ∈ m, e ∈ M) (h1 : acc.1 ≤ 9999999999999)
    (h2 : acc.1 < 9999999999999 → (acc.2, hs) ∈ M) :
    let res := m.foldl
      (fun acc e =>
        if e.2 ≠ hs then acc
        else
          let mySum := wrap (wrap (e.1.X + e.1.Y) + e.1.Z)
          if mySum < acc.1 then (mySum, e.1) else acc) acc
    (res.1 < 9999999999999 → (res.2, hs) ∈ M) ∧
    ((acc.1 < 9999999999999 ∨
      ∃ e ∈ m, e.2 = hs ∧ wrap (wrap (e.1.X + e.1.Y) + e.1.Z) < 9999999999999) →
      res.1 < 9999999999999) := by
  induction m generalizing acc with
  | nil =>
    simp only [List.foldl_nil, List.not_mem_nil, false_and, exists_false, or_false]
    exact ⟨h2, id⟩
  | cons e m ih =>
    simp only [List.foldl_cons]
    have hsub' : ∀ x ∈ m, x ∈ M := fun x hx => hsub x (List.mem_cons_of_mem _ hx)
    have heM : e ∈ M := hsub e (List.mem_cons_self _ _)
    by_cases he : e.2 = hs
    · simp only [he, ne_eq, not_true_eq_false, if_false]
      by_cases hlt : wrap (wrap (e.1.X + e.1.Y) + e.1.Z) < acc.1
      · simp only [hlt, if_true]
        have := ih (wrap (wrap (e.1.X + e.1.Y) + e.1.Z), e.1) hsub' (by simp only []; omega)
          (fun _ => by
            simp only []
            rw [← he]
            exact heM)
        simp only [] at this
        refine ⟨this.1, fun _ => this.2 (Or.inl (by omega))⟩
      · simp only [hlt, if_false]
        have := ih acc hsub' h1 h2
        simp only [] at this
        refine ⟨this.1, ?_⟩
        rintro (h | ⟨x, hx, hxs, hxl⟩)
        · exact this.2 (Or.inl h)
        · rcases List.mem_cons.mp hx with rfl | hx
          · exact this.2 (Or.inl (by omega))
          · exact this.2 (Or.inr ⟨x, hx, hxs, hxl⟩)
    · simp only [ne_eq, he, not_false_eq_true, if_true]
      have := ih acc hsub' h1 h2
      simp only [] at this
      refine ⟨this.1, ?_⟩
      rintro (h | ⟨x, hx, hxs, hxl⟩)
      · exact this.2 (Or.inl h)
      · rcases List.mem_cons.mp hx with rfl | hx
        · exact absurd hxs he
        · exact this.2 (Or.inr ⟨x, hx, hxs, hxl⟩)

/-- Lines 198-209 choose a key of `ranges` whose value is `highScore` when one
of them has a sum of coordinates below `9999999999999`. -/
theorem lowest_mem (hs : Int) (m : List (Coord × Int))
    (h : ∃ e ∈ m, e.2 = hs ∧ wrap (wrap (e.1.X + e.1.Y) + e.1.Z) < 9999999999999) :
    ((lowest hs m).2, hs) ∈ m := by
  have := lowest_foldl hs m m (9999999999999, ⟨0, 0, 0⟩) (fun _ h => h) (le_refl _)
    (fun h => absurd h (lt_irrefl _))
  simp only [] at this
  exact this.1 (this.2 (Or.inr h))

theorem Coord.Near.sum_lt {k : Coord} (h : k.Near) :
    wrap (wrap (k.X + k.Y) + k.Z) < 9999999999999 := by
  obtain ⟨⟨a1, a2⟩, ⟨b1, b2⟩, ⟨c1, c2⟩⟩ := h
  unfold wrap
  omega

theorem Coord.setCoord_setCoord (s : Coord) (v : Nat) (a b : Int) :
    (s.setCoord v a).setCoord v b = s.setCoord v b := by
  rcases v with _ | _ | v <;> rfl

theorem Coord.setCoord_coord (s : Coord) (v : Nat) : s.setCoord v (s.coord v) = s := by
  rcases v with _ | _ | v <;> rfl

theorem Coord.setCoord_pair (s : Coord) (f g : Nat) (a b c d : Int) :
    (((s.setCoord f a).setCoord g b).setCoord f c).setCoord g d =
      (s.setCoord f c).setCoord g d := by
  rcases f with _ | _ | f <;> rcases g with _ | _ | g <;> rfl

/-- The loop of lines 223-235 ends at a point in range of `highScore` drones,
and never lowers `highScore`. -/
theorem walkAxis_spec (drones : DroneList) (v : Nat) (direction : Int) (fuel : Nat)
    (original : Int) (r r' : Refine)
    (h : walkAxis drones v direction fuel original r = some r')
    (hinv : DroneList.InRange drones (r.s.setCoord v original) = r.highScore) :
    DroneList.InRange drones r'.s = r'.highScore ∧ r.highScore ≤ r'.highScore := by
  induction fuel generalizing original r with
  | zero => simp [walkAxis] at h
  | succ fuel ih =>
    unfold walkAxis at h
    simp only [] at h
    split at h
    · simp only [Option.some.injEq] at h
      subst h
      simp only [Coord.setCoord_setCoord]
      exact ⟨hinv, le_refl _⟩
    · split at h
      · rename_i hgt
        have := ih _ _ h (by simp only [Coord.setCoord_coord])
        simp only [] at this
        exact ⟨this.1, by omega⟩
      · have := ih _ _ h (by simp only [Coord.setCoord_setCoord]; exact hinv)
        exact this

theorem walkPair_spec (drones : DroneList) (first second : Nat) (direction : Int) (fuel : Nat)
    (oFirst oSecond : Int) (r r' : Refine)
    (h : walkPair drones first second direction fuel oFirst oSecond r = some r')
    (hinv : DroneList.InRange drones ((r.s.setCoord first oFirst).setCoord second oSecond) =
      r.highScore) :
    DroneList.InRange drones r'.s = r'.highScore ∧ r.highScore ≤ r'.highScore := by
  induction fuel generalizing oFirst oSecond r with
  | zero => simp [walkPair] at h
  | succ fuel ih =>
    unfold walkPair at h
    simp only [] at h
    split at h
    · simp only [Option.some.injEq] at h
      subst h
      simp only [Coord.setCoord_pair]
      exact ⟨hinv, le_refl _⟩
    · split at h
      · rename_i hgt
        have := ih _ _ _ h (by
          simp only []
          generalize ((r.s.setCoord first (wrap (r.s.coord first + direction))).setCoord second
            (wrap ((r.s.setCoord first (wrap (r.s.coord first + direction))).coord second -
              direction))) = t
          rw [Coord.setCoord_coord, Coord.setCoord_coord])
        simp only [] at this
        exact ⟨this.1, by omega⟩
      · have := ih _ _ _ h (by simp only [Coord.setCoord_pair]; exact hinv)
        exact this

theorem walkAxis_exact (drones : DroneList) (v : Nat) (direction : Int) (fuel : Nat)
    (r r' : Refine) (h : walkAxis drones v direction fuel (r.s.coord v) r = some r')
    (hinv : r.Exact drones) : r'.Exact drones ∧ r.highScore ≤ r'.highScore :=
  walkAxis_spec drones v direction fuel _ r r' h (by rw [Coord.setCoord_coord]; exact hinv)

theorem walkPair_exact (drones : DroneList) (first second : Nat) (direction : Int) (fuel : Nat)
    (r r' : Refine)
    (h : walkPair drones first second direction fuel (r.s.coord first) (r.s.coord second) r =
      some r')
    (hinv : r.Exact drones) : r'.Exact drones ∧ r.highScore ≤ r'.highScore :=
  walkPair_spec drones first second direction fuel _ _ r r' h (by
    have e : (r.s.setCoord first (r.s.coord first)).setCoord second (r.s.coord second) = r.s := by
      rw [Coord.setCoord_coord, Coord.setCoord_coord]
    rw [e]; exact hinv)

theorem walkAxes_exact (drones : DroneList) (fuel : Nat) (r r' : Refine)
    (h : walkAxes drones fuel r = some r') (hinv : r.Exact drones) :
    r'.Exact drones ∧ r.highScore ≤ r'.highScore := by
  unfold walkAxes at h
  simp only [List.foldlM_cons, List.foldlM_nil, Option.bind_eq_bind, Option.pure_def,
    Option.bind_some, Option.bind_eq_some] at h
  obtain ⟨r2, ⟨r1, h1, h2⟩, r4, ⟨r3, h3, h4⟩, r5, h5, h6⟩ := h
  have g1 := walkAxis_exact _ _ _ _ _ _ h1 hinv
  have g2 := walkAxis_exact _ _ _ _ _ _ h2 g1.1
  have g3 := walkAxis_exact _ _ _ _ _ _ h3 g2.1
  have g4 := walkAxis_exact _ _ _ _ _ _ h4 g3.1
  have g5 := walkAxis_exact _ _ _ _ _ _ h5 g4.1
  have g6 := walkAxis_exact _ _ _ _ _ _ h6 g5.1
  exact ⟨g6.1, by omega⟩

theorem walkPairs_exact (drones : DroneList) (fuel : Nat) (r r' : Refine)
    (h : walkPairs drones fuel r = some r') (hinv : r.Exact drones) :
    r'.Exact drones ∧ r.highScore ≤ r'.highScore := by
  unfold walkPairs at h
  simp only [List.foldlM_cons, List.foldlM_nil, Option.bind_eq_bind, Option.pure_def,
    Option.bind_some, Option.bind_eq_some] at h
  obtain ⟨r2, ⟨r1, h1, h2⟩, r4, ⟨r3, h3, h4⟩, r5, h5, h6⟩ := h
  have g1 := walkPair_exact _ _ _ _ _ _ _ h1 hinv
  have g2 := walkPair_exact _ _ _ _ _ _ _ h2 g1.1
  have g3 := walkPair_exact _ _ _ _ _ _ _ h3 g2.1
  have g4 := walkPair_exact _ _ _ _ _ _ _ h4 g3.1
  have g5 := walkPair_exact _ _ _ _ _ _ _ h5 g4.1
  have g6 := walkPair_exact _ _ _ _ _ _ _ h6 g5.1
  exact ⟨g6.1, by omega⟩

theorem refine_exact (drones : DroneList) (fuel n : Nat) (r r' : Refine)
    (h : refine drones fuel n r = some r') (hinv : r.Exact drones) :
    r'.Exact drones ∧ r.highScore ≤ r'.highScore := by
  induction n generalizing r with
  | zero => simp [refine] at h
  | succ n ih =>
    unfold refine at h
    split at h
    · cases h1 : walkAxes drones fuel { r with improved := false } with
      | none => simp [h1] at h
      | some r1 =>
        simp only [h1] at h
        cases h2 : walkPairs drones fuel r1 with
        | none => simp [h2] at h
        | some r2 =>
          simp only [h2] at h
          have g1 := walkAxes_exact _ _ _ _ h1 hinv
          have g2 := walkPairs_exact _ _ _ _ h2 g1.1
          have g3 := ih _ h g2.1
          simp only [] at g1
          exact ⟨g3.1, by omega⟩
    · simp only [Option.some.injEq] at h
      subst h
      exact ⟨hinv, le_refl _⟩

theorem walkAxis_improved (drones : DroneList) (v : Nat) (direction : Int) (fuel : Nat)
    (original : Int) (r r' : Refine)
    (h : walkAxis drones v direction fuel original r = some r') (hi : r.improved = true) :
    r'.improved = true := by
  induction fuel generalizing original r with
  | zero => simp [walkAxis] at h
  | succ fuel ih =>
    unfold walkAxis at h
    simp only [] at h
    split at h
    · simp only [Option.some.injEq] at h
      subst h; exact hi
    · split at h
      · exact ih _ _ h rfl
      · exact ih _ _ h hi

theorem walkPair_improved (drones : DroneList) (first second : Nat) (direction : Int)
    (fuel : Nat) (oFirst oSecond : Int) (r r' : Refine)
    (h : walkPair drones first second direction fuel oFirst oSecond r = some r')
    (hi : r.improved = true) : r'.improved = true := by
  induction fuel generalizing oFirst oSecond r with
  | zero => simp [walkPair] at h
  | succ fuel ih =>
    unfold walkPair at h
    simp only [] at h
    split at h
    · simp only [Option.some.injEq] at h
      subst h; exact hi
    · split at h
      · exact ih _ _ _ h rfl
      · exact ih _ _ _ h hi

/-- A walk along one coordinate that leaves `improved` false comes back to
where it started and has found no point in range of more drones. -/
theorem walkAxis_still (drones : DroneList) (v : Nat) (direction : Int) (fuel : Nat)
    (original : Int) (r r' : Refine)
    (h : walkAxis drones v direction fuel original r = some r') (hi : r'.improved = false) :
    r' = { r with s := r.s.setCoord v original } ∧
      DroneList.InRange drones (r.s.stepAxis v direction) ≤ r.highScore := by
  induction fuel generalizing r with
  | zero => simp [walkAxis] at h
  | succ fuel ih =>
    unfold walkAxis at h
    simp only [] at h
    split at h
    · rename_i hlt
      simp only [Option.some.injEq] at h
      subst h
      simp only [Coord.setCoord_setCoord, true_and]
      exact le_of_lt hlt
    · split at h
      · have := walkAxis_improved _ _ _ _ _ _ _ h rfl
        rw [hi] at this
        exact absurd this (by decide)
      · rename_i h1 h2
        have := (ih _ h).1
        simp only [Coord.setCoord_setCoord] at this
        refine ⟨this, ?_⟩
        unfold Coord.stepAxis
        omega

theorem walkPair_still (drones : DroneList) (first second : Nat) (direction : Int)
    (fuel : Nat) (oFirst oSecond : Int) (r r' : Refine)
    (h : walkPair drones first second direction fuel oFirst oSecond r = some r')
    (hi : r'.improved = false) :
    r' = { r with s := (r.s.setCoord first oFirst).setCoord second oSecond } ∧
      DroneList.InRange drones (r.s.stepPair first second direction) ≤ r.highScore := by
  induction fuel generalizing r with
  | zero => simp [walkPair] at h
  | succ fuel ih =>
    unfold walkPair at h
    simp only [] at h
    split at h
    · rename_i hlt
      simp only [Option.some.injEq] at h
      subst h
      simp only [Coord.setCoord_pair, true_and]
      exact le_of_lt hlt
    · split at h
      · have := walkPair_improved _ _ _ _ _ _ _ _ _ h rfl
        rw [hi] at this
        exact absurd this (by decide)
      · rename_i h1 h2
        have := (ih _ h).1
        simp only [Coord.setCoord_pair] at this
        refine ⟨this, ?_⟩
        unfold Coord.stepPair
        simp only []
        omega

theorem walkAxis_still_top (drones : DroneList) (v : Nat) (direction : Int) (fuel : Nat)
    (r r' : Refine)
    (h : walkAxis drones v direction fuel (r.s.coord v) r = some r')
    (hi : r'.improved = false) :
    r' = r ∧ DroneList.InRange drones (r.s.stepAxis v direction) ≤ r.highScore := by
  have := walkAxis_still _ _ _ _ _ _ _ h hi
  rw [Coord.setCoord_coord] at this
  exact this

theorem walkPair_still_top (drones : DroneList) (first second : Nat) (direction : Int)
    (fuel : Nat) (r r' : Refine)
    (h : walkPair drones first second direction fuel (r.s.coord first) (r.s.coord second) r =
      some r')
    (hi : r'.improved = false) :
    r' = r ∧ DroneList.InRange drones (r.s.stepPair first second direction) ≤ r.highScore := by
  have := walkPair_still _ _ _ _ _ _ _ _ _ h hi
  have e : (r.s.setCoord first (r.s.coord first)).setCoord second (r.s.coord second) = r.s := by
    rw [Coord.setCoord_coord, Coord.setCoord_coord]
  rw [e] at this
  exact this

theorem walkAxes_still (drones : DroneList) (fuel : Nat) (r r' : Refine)
    (h : walkAxes drones fuel r = some r') (hi : r'.improved = false) :
    r' = r ∧ ∀ v ∈ [0, 1, 2], ∀ direction ∈ [(1 : Int), -1],
      DroneList.InRange drones (r.s.stepAxis v direction) ≤ r.highScore := by
  unfold walkAxes at h
  simp only [List.foldlM_cons, List.foldlM_nil, Option.bind_eq_bind, Option.pure_def,
    Option.bind_some, Option.bind_eq_some] at h
  obtain ⟨r2, ⟨r1, h1, h2⟩, r4, ⟨r3, h3, h4⟩, r5, h5, h6⟩ := h
  obtain ⟨e6, g6⟩ := walkAxis_still_top _ _ _ _ _ _ h6 hi
  subst e6
  obtain ⟨e5, g5⟩ := walkAxis_still_top _ _ _ _ _ _ h5 hi
  subst e5
  obtain ⟨e4, g4⟩ := walkAxis_still_top _ _ _ _ _ _ h4 hi
  subst e4
  obtain ⟨e3, g3⟩ := walkAxis_still_top _ _ _ _ _ _ h3 hi
  subst e3
  obtain ⟨e2, g2⟩ := walkAxis_still_top _ _ _ _ _ _ h2 hi
  subst e2
  obtain ⟨e1, g1⟩ := walkAxis_still_top _ _ _ _ _ _ h1 hi
  subst e1
  refine ⟨rfl, ?_⟩
  simp only [List.mem_cons, List.mem_singleton, List.not_mem_nil, or_false, forall_eq_or_imp,
    forall_eq]
  exact ⟨⟨g1, g2⟩, ⟨g3, g4⟩, ⟨g5, g6⟩⟩

theorem walkPairs_still (drones : DroneList) (fuel : Nat) (r r' : Refine)
    (h : walkPairs drones fuel r = some r') (hi : r'.improved = false) :
    r' = r ∧ ∀ i ∈ [0, 1, 2], ∀ direction ∈ [(1 : Int), -1],
      DroneList.InRange drones (r.s.stepPair ((i + 1) % 3) ((i + 2) % 3) direction) ≤
        r.highScore := by
  unfold walkPairs at h
  simp only [List.foldlM_cons, List.foldlM_nil, Option.bind_eq_bind, Option.pure_def,
    Option.bind_some, Option.bind_eq_some] at h
  obtain ⟨r2, ⟨r1, h1, h2⟩, r4, ⟨r3, h3, h4⟩, r5, h5, h6⟩ := h
  obtain ⟨e6, g6⟩ := walkPair_still_top _ _ _ _ _ _ _ h6 hi
  subst e6
  obtain ⟨e5, g5⟩ := walkPair_still_top _ _ _ _ _ _ _ h5 hi
  subst e5
  obtain ⟨e4, g4⟩ := walkPair_still_top _ _ _ _ _ _ _ h4 hi
  subst e4
  obtain ⟨e3, g3⟩ := walkPair_still_top _ _ _ _ _ _ _ h3 hi
  subst e3
  obtain ⟨e2, g2⟩ := walkPair_still_top _ _ _ _ _ _ _ h2 hi
  subst e2
  obtain ⟨e1, g1⟩ := walkPair_still_top _ _ _ _ _ _ _ h1 hi
  subst e1
  refine ⟨rfl, ?_⟩
  simp only [List.mem_cons, List.mem_singleton, List.not_mem_nil, or_false, forall_eq_or_imp,
    forall_eq]
  exact ⟨⟨g1, g2⟩, ⟨g3, g4⟩, ⟨g5, g6⟩⟩

theorem refine_settled (drones : DroneList) (fuel n : Nat) (r r' : Refine)
    (h : refine drones fuel n r = some r')
    (hinv : r.improved = true ∨ r.Settled drones) : r'.Settled drones := by
  induction n generalizing r with
  | zero => simp [refine] at h
  | succ n ih =>
    unfold refine at h
    split at h
    · cases h1 : walkAxes drones fuel { r with improved := false } with
      | none => simp [h1] at h
      | some r1 =>
        simp only [h1] at h
        cases h2 : walkPairs drones fuel r1 with
        | none => simp [h2] at h
        | some r2 =>
          simp only [h2] at h
          apply ih _ h
          cases hi : r2.improved with
          | true => exact Or.inl rfl
          | false =>
            right
            obtain ⟨e2, g2⟩ := walkPairs_still _ _ _ _ h2 hi
            subst e2
            obtain ⟨e1, g1⟩ := walkAxes_still _ _ _ _ h1 hi
            subst e1
            simp only [List.mem_cons, List.mem_singleton, List.not_mem_nil, or_false,
              forall_eq_or_imp, forall_eq] at g1 g2
            intro p hp
            simp only [Coord.nextTo, List.mem_cons, List.mem_singleton, List.not_mem_nil,
              or_false] at hp
            obtain ⟨⟨a1, a2⟩, ⟨a3, a4⟩, ⟨a5, a6⟩⟩ := g1
            obtain ⟨⟨b1, b2⟩, ⟨b3, b4⟩, ⟨b5, b6⟩⟩ := g2
            rcases hp with rfl | rfl | rfl | rfl | rfl | rfl | rfl | rfl | rfl | rfl | rfl | rfl
            · exact a1
            · exact a2
            · exact a3
            · exact a4
            · exact a5
            · exact a6
            · exact b1
            · exact b2
            · exact b3
            · exact b4
            · exact b5
            · exact b6
    · rename_i hni
      simp only [Option.some.injEq] at h
      subst h
      rcases hinv with h | h
      · exact absurd h hni
      · exact h

theorem solution_spec (drones : DroneList) (ch : Choices) (fuel : Nat) (s : Coord)
    (hne : drones ≠ []) (hb : ∀ d ∈ drones, d.Bounded) (hch : ch.Valid)
    (h : solution drones ch fuel = some s) :
    ∃ r : Refine, r.s = s ∧ r.Exact drones ∧ r.Settled drones ∧
      ∀ d ∈ drones, DroneList.InRange drones d.Loc ≤ r.highScore := by
  unfold solution at h
  split at h
  · rename_i ranges highScore hrun
    have hinv := Search.inv_after_run drones hb ch.orders hch.2.1 _ _
      (Search.inv_at_init drones hb _ (hch.1 _)) hrun
    obtain ⟨i1, i2, i3, i4, i5, i6, i7⟩ := hinv
    simp only [] at i1 i2 i3 i4 i5 i6 i7
    -- the location of every drone has been scored
    have hdv : ∀ d ∈ drones, 0 < DroneList.InRange drones d.Loc ∧
        DroneList.InRange drones d.Loc ≤ highScore := by
      intro d hd
      have hd0 : GoMap.get ranges d.Loc ≠ 0 := by
        rcases i6 d hd with h0 | ⟨c, hc, -⟩
        · exact h0
        · simp at hc
      have hpos : 0 < DroneList.InRange drones d.Loc :=
        inRange_pos_of_mem _ _ d hd (inRange_self d (hb d hd).2.2.2)
      have hle := i4 d.Loc
      rw [(i2 d.Loc).resolve_left hd0] at hle
      exact ⟨hpos, hle⟩
    have hs0 : highScore ≠ 0 := by
      obtain ⟨d, hd⟩ := List.exists_mem_of_ne_nil drones hne
      have := hdv d hd
      omega
    obtain ⟨k, hk, hnear⟩ := i5.resolve_left hs0
    have hk0 : GoMap.get ranges k ≠ 0 := by rw [hk]; exact hs0
    have hkm : (k, highScore) ∈ ranges := by
      have : k ∈ GoMap.keys ranges := by
        by_contra hn
        exact hk0 (GoMap.get_eq_zero_of_not_mem ranges k hn)
      have := GoMap.mem_of_mem_keys ranges k this
      rwa [hk] at this
    have hperm := hch.2.2 ranges
    have hlow := lowest_mem highScore (ch.ranges ranges)
      ⟨(k, highScore), hperm.mem_iff.mpr hkm, rfl, hnear.sum_lt⟩
    have hlow' := hperm.mem_iff.mp hlow
    have hget := GoMap.get_of_mem ranges _ _ i1 hlow'
    have hstart : DroneList.InRange drones (lowest highScore (ch.ranges ranges)).2 = highScore := by
      rcases i2 (lowest highScore (ch.ranges ranges)).2 with h0 | h1
      · rw [hget] at h0; exact absurd h0 hs0
      · rw [← h1, hget]
    cases hr : refine drones fuel fuel ⟨(lowest highScore (ch.ranges ranges)).2, highScore, true⟩ with
    | none => simp [hr] at h
    | some r =>
      simp only [hr, Option.map_some', Option.some.injEq] at h
      have g1 := refine_exact drones fuel fuel _ r hr hstart
      have g2 := refine_settled drones fuel fuel _ r hr (Or.inl rfl)
      refine ⟨r, h, g1.1, g2, ?_⟩
      intro d hd
      have := (hdv d hd).2
      simp only [] at g1
      omega
  · simp at h

/-- C5 (as amended): when the drone list is not empty, the coordinates of the
drones are at most `500000000` in absolute value and their powers are not
negative, the point `s` that `main` reports, if it reports one, is in range of
at least as many drones as the location of each drone and as each of the
twelve points next to `s` at which the walks of lines 214-270 start. -/
theorem solution_ge_locations (drones : DroneList) (ch : Choices) (fuel : Nat) (s : Coord)
    (hne : drones ≠ []) (hb : ∀ d ∈ drones, d.Bounded) (hch : ch.Valid)
    (h : solution drones ch fuel = some s) :
    (∀ d ∈ drones, DroneList.InRange drones d.Loc ≤ DroneList.InRange drones s) ∧
      ∀ p ∈ s.nextTo, DroneList.InRange drones p ≤ DroneList.InRange drones s := by
  obtain ⟨r, rfl, h1, h2, h3⟩ := solution_spec drones ch fuel s hne hb hch h
  unfold Refine.Exact at h1
  rw [h1]
  exact ⟨h3, h2⟩

theorem solution_ge_locations_witness :
    solution overlapDrones (Choices.plain 4) 3 = some ⟨0, 0, 0⟩ ∧
    (∀ d ∈ overlapDrones,
      DroneList.InRange overlapDrones d.Loc ≤ DroneList.InRange overlapDrones ⟨0, 0, 0⟩) ∧
    ∀ p ∈ (⟨0, 0, 0⟩ : Coord).nextTo,
      DroneList.InRange overlapDrones p ≤ DroneList.InRange overlapDrones ⟨0, 0, 0⟩ :=
  ⟨by decide,
   solution_ge_locations overlapDrones (Choices.plain 4) 3 ⟨0, 0, 0⟩ (by decide) (by decide)
     (Choices.plain_valid 4) (by decide)⟩

/-- C5 (as stated) fails: for the drones `pos=<0,0,0>, r=2` and
`pos=<1,1,1>, r=1` the program reports `(0,0,0)`, in range of one drone, and
`(0,1,1)` is in range of both. -/
theorem solution_not_best :
    readDrones "pos=<0,0,0>, r=2\npos=<1,1,1>, r=1\n".toList = some overlapDrones ∧
    (Choices.plain 4).Valid ∧
    solution overlapDrones (Choices.plain 4) 3 = some ⟨0, 0, 0⟩ ∧
    DroneList.InRange overlapDrones ⟨0, 0, 0⟩ < DroneList.InRange overlapDrones ⟨0, 1, 1⟩ :=
  ⟨by decide, Choices.plain_valid 4, by decide, by decide⟩

end Day23

/-! ### Day 22: the order of the moves and of the children -/

namespace Day22

/-- C21: for a usage map and a capacity map with the same keys, the keys being
`uint8` pairs with no coordinate equal to `255` and the usages `uint16`, every
move of `findAdjacentMoves` goes between two distinct nodes of the grid at
Manhattan distance `1`: no move wraps around an edge of the grid. -/
theorem findAdjacentMoves_no_wrap (usage capacity : State)
    (hu : (GoMap.keys usage).Nodup)
    (hk : ∀ k, k ∈ GoMap.keys usage ↔ k ∈ GoMap.keys capacity)
    (hv : ∀ k ∈ GoMap.keys usage, GoMap.get usage k < 65536)
    (hty : ∀ k ∈ GoMap.keys usage, k.X < 256 ∧ k.Y < 256)
    (h255 : ∀ k ∈ GoMap.keys usage, k.X ≠ 255 ∧ k.Y ≠ 255) :
    ∀ m ∈ findAdjacentMoves usage capacity,
      m.From ∈ GoMap.keys usage ∧ m.To ∈ GoMap.keys usage ∧ m.From ≠ m.To ∧
        m.From.manhattan m.To = 1 := by
  intro m hm
  have hto := mem_keys_of_mem_findAdjacentMoves usage capacity hu hk
    (GoMap.forall_get_lt _ _ (by norm_num) hv) m hm
  obtain ⟨hf, -, hn, -⟩ := (mem_findAdjacentMoves usage capacity hu m).mp hm
  refine ⟨hf, hto, Coord.ne_of_mem_neighbours _ _ hn, ?_⟩
  have b1 := hty _ hf
  have b2 := h255 _ hf
  have b3 := hty _ hto
  have b4 := h255 _ hto
  obtain ⟨⟨fx, fy⟩, ⟨tx, ty⟩⟩ := m
  simp only [Coord.neighbours, List.mem_cons, List.mem_singleton, List.not_mem_nil, or_false,
    Coord.mk.injEq] at hn
  simp only [Coord.manhattan] at b1 b2 b3 b4 ⊢
  rcases hn with ⟨h1, h2⟩ | ⟨h1, h2⟩ | ⟨h1, h2⟩ | ⟨h1, h2⟩ <;> omega

/-- Witness for C21: the maps of the demo grid. -/
theorem findAdjacentMoves_no_wrap_witness :
    (GoMap.keys demoUsage).Nodup ∧
    ∀ m ∈ findAdjacentMoves demoUsage demoCapacity,
      m.From ∈ GoMap.keys demoUsage ∧ m.To ∈ GoMap.keys demoUsage ∧ m.From ≠ m.To ∧
        m.From.manhattan m.To = 1 :=
  ⟨by decide,
    findAdjacentMoves_no_wrap demoUsage demoCapacity (by decide) (fun _ => Iff.rfl) (by decide)
      (by decide) (by decide)⟩

/-- C22: the list `MakeMoves` returns is in the order `sort.Sort` leaves for
`Less`, which is by non-increasing `Score`; the `Score` of a child is
`child.Valid()`, the square of the target's distance from node `(0,0)`, so
that a child whose target is farther from `(0,0)` comes before. -/
theorem makeMoves_sorted_by_score (b : Board) :
    (∀ i j, i < j → j < b.MakeMoves.length → BoardList.Less b.MakeMoves j i = some false) ∧
    b.MakeMoves.Pairwise (fun x y => x.Score ≥ y.Score) ∧
    (∀ x ∈ b.MakeMoves, x.Score = x.Child.Valid ∧
      x.Score = (x.Child.Target.X : Int) ^ 2 + (x.Child.Target.Y : Int) ^ 2) ∧
    b.MakeMoves.Pairwise (fun x y =>
      x.Child.Target.X ^ 2 + x.Child.Target.Y ^ 2 ≥
        y.Child.Target.X ^ 2 + y.Child.Target.Y ^ 2) := by
  have hs : b.MakeMoves.Pairwise (fun x y => x.Score ≥ y.Score) := b.sorted_MakeMoves
  have hv : ∀ x ∈ b.MakeMoves, x.Score = x.Child.Valid ∧
      x.Score = (x.Child.Target.X : Int) ^ 2 + (x.Child.Target.Y : Int) ^ 2 := by
    intro x hx
    obtain ⟨m, -, rfl⟩ := (b.mem_MakeMoves x).mp hx
    refine ⟨rfl, ?_⟩
    simp only [Board.Valid]
    ring
  refine ⟨?_, hs, hv, ?_⟩
  · intro i j hij hj
    have hi : i < b.MakeMoves.length := lt_trans hij hj
    have := List.pairwise_iff_get.mp hs ⟨i, hi⟩ ⟨j, hj⟩ hij
    unfold BoardList.Less
    rw [List.get?_eq_get hj, List.get?_eq_get hi]
    simp only [Option.some.injEq, decide_eq_false_iff_not, not_lt]
    exact this
  · have h2 : b.MakeMoves.Pairwise (fun x y => x ∈ b.MakeMoves ∧ y ∈ b.MakeMoves ∧
        x.Score ≥ y.Score) := by
      rw [List.pairwise_iff_get] at hs ⊢
      intro i j hij
      exact ⟨List.get_mem _ _ _, List.get_mem _ _ _, hs i j hij⟩
    refine h2.imp ?_
    rintro x y ⟨hx, hy, hxy⟩
    rw [(hv x hx).2, (hv y hy).2] at hxy
    exact_mod_cast hxy

end Day22

/-! ### Day 23: the walk, the scores and the reader -/

namespace Day23

theorem manhattan_comm (c t : Coord) : manhattan c t = manhattan t c := by
  unfold manhattan
  rw [abs_sub_comm c.X, abs_sub_comm c.Y, abs_sub_comm c.Z]

theorem manhattan_eq_zero_iff (c t : Coord) : manhattan c t = 0 ↔ c = t := by
  obtain ⟨cx, cy, cz⟩ := c
  obtain ⟨tx, ty, tz⟩ := t
  unfold manhattan
  simp only [Coord.mk.injEq]
  have hx := abs_nonneg (cx - tx)
  have hy := abs_nonneg (cy - ty)
  have hz := abs_nonneg (cz - tz)
  constructor
  · intro h
    have ex : |cx - tx| = 0 := by omega
    have ey : |cy - ty| = 0 := by omega
    have ez : |cz - tz| = 0 := by omega
    rw [abs_eq_zero] at ex ey ez
    exact ⟨by omega, by omega, by omega⟩
  · rintro ⟨rfl, rfl, rfl⟩
    simp

/-- The quotient of one coordinate of `WalkPartway`, when `d` is at most the
distance `S`: it has the sign of the difference and is the rounded-down
share `d * |δ| / S`. -/
theorem tdiv_share (d δ S : Int) (hd0 : 0 ≤ d) (hdS : d ≤ S) (hS : 0 < S) :
    |(d * δ).tdiv S| = d * |δ| / S ∧ d * |δ| / S ≤ |δ| ∧
      (0 ≤ δ → 0 ≤ (d * δ).tdiv S) ∧ (δ ≤ 0 → (d * δ).tdiv S ≤ 0) := by
  have pos : ∀ e : Int, 0 ≤ e → 0 ≤ (d * e) / S ∧ (d * e) / S ≤ e := by
    intro e he
    have hde : 0 ≤ d * e := mul_nonneg hd0 he
    refine ⟨Int.ediv_nonneg hde (le_of_lt hS), Int.ediv_le_of_le_mul hS ?_⟩
    nlinarith
  rcases le_total 0 δ with h | h
  · have := pos δ h
    rw [abs_of_nonneg h, Int.tdiv_eq_ediv (mul_nonneg hd0 h) (le_of_lt hS),
      abs_of_nonneg this.1]
    exact ⟨rfl, this.2, fun _ => this.1, fun _ => by omega⟩
  · have := pos (-δ) (by omega)
    have e : d * δ = -(d * -δ) := by ring
    rw [abs_of_nonpos h, e, Int.neg_tdiv,
      Int.tdiv_eq_ediv (mul_nonneg hd0 (by omega)) (le_of_lt hS), abs_neg,
      abs_of_nonneg this.1]
    exact ⟨rfl, this.2, fun _ => by omega, fun _ => by omega⟩

/-- The three rounded-down shares of `d` add up to `d`, `d - 1` or `d - 2`. -/
theorem shares_sum (d a b c S : Int) (hS : 0 < S) (hsum : a + b + c = S) :
    d - 2 ≤ d * a / S + d * b / S + d * c / S ∧ d * a / S + d * b / S + d * c / S ≤ d := by
  have ea := Int.emod_add_ediv (d * a) S
  have eb := Int.emod_add_ediv (d * b) S
  have ec := Int.emod_add_ediv (d * c) S
  have na := Int.emod_nonneg (d * a) (ne_of_gt hS)
  have nb := Int.emod_nonneg (d * b) (ne_of_gt hS)
  have nc := Int.emod_nonneg (d * c) (ne_of_gt hS)
  have la := Int.emod_lt_of_pos (d * a) hS
  have lb := Int.emod_lt_of_pos (d * b) hS
  have lc := Int.emod_lt_of_pos (d * c) hS
  have hprod : d * a + d * b + d * c = S * d := by
    rw [← mul_add, ← mul_add, hsum, mul_comm]
  have key : S * (d * a / S + d * b / S + d * c / S) =
      S * d - (d * a % S + d * b % S + d * c % S) := by
    rw [mul_add, mul_add]
    omega
  constructor
  · have h1 : S * (d - 3) < S * (d * a / S + d * b / S + d * c / S) := by
      rw [key, mul_sub]
      omega
    have := lt_of_mul_lt_mul_left h1 (le_of_lt hS)
    omega
  · have h1 : S * (d * a / S + d * b / S + d * c / S) ≤ S * d := by
      rw [key]
      omega
    exact le_of_mul_le_mul_left h1 hS

/-- One coordinate of `WalkPartway` when nothing overflows: the walk moves
from `cx` towards `tx` by the rounded-down share of `d`. -/
theorem axis_share (cx tx d S : Int) (hc : IsInt cx) (ht : IsInt tx) (hd0 : 0 ≤ d)
    (hdS : d ≤ S) (hS : 0 < S) (hδ : |tx - cx| ≤ S) (hS63 : S < 9223372036854775808)
    (hprod : d * S < 9223372036854775808) :
    |cx - wrap (cx + quo (wrap (d * wrap (tx - cx))) S)| = d * |tx - cx| / S ∧
    |wrap (cx + quo (wrap (d * wrap (tx - cx))) S) - tx| =
      |tx - cx| - d * |tx - cx| / S ∧
    0 ≤ d * |tx - cx| / S ∧ d * |tx - cx| / S ≤ |tx - cx| := by
  unfold IsInt at hc ht
  have habs := abs_le.mp hδ
  have hn := abs_nonneg (tx - cx)
  have e1 : wrap (tx - cx) = tx - cx := wrap_of_isInt (by unfold IsInt; omega)
  have hm : d * |tx - cx| ≤ d * S := mul_le_mul_of_nonneg_left hδ hd0
  have hm0 : 0 ≤ d * |tx - cx| := mul_nonneg hd0 hn
  have hda : |d * (tx - cx)| = d * |tx - cx| := by rw [abs_mul, abs_of_nonneg hd0]
  have hdb := abs_le.mp (le_of_eq hda)
  have e2 : wrap (d * (tx - cx)) = d * (tx - cx) :=
    wrap_of_isInt (by unfold IsInt; omega)
  obtain ⟨s1, s2, s3, s4⟩ := tdiv_share d (tx - cx) S hd0 hdS hS
  have s0 : 0 ≤ d * |tx - cx| / S := Int.ediv_nonneg hm0 (le_of_lt hS)
  have hq := abs_le.mp (le_of_eq s1)
  have e3 : quo (d * (tx - cx)) S = (d * (tx - cx)).tdiv S := by
    unfold quo
    exact wrap_of_isInt (by unfold IsInt; omega)
  rw [e1, e2, e3]
  generalize (d * (tx - cx)).tdiv S = q at s1 s3 s4 hq
  generalize d * |tx - cx| / S = F at s1 s2 s0 hq
  rcases le_total 0 (tx - cx) with h | h
  · have q0 := s3 h
    have hA : |tx - cx| = tx - cx := abs_of_nonneg h
    rw [abs_of_nonneg q0] at s1
    rw [hA] at s2 ⊢
    rw [wrap_of_isInt (by unfold IsInt; omega)]
    refine ⟨?_, ?_, s0, s2⟩
    · rw [abs_of_nonpos (by omega)]; omega
    · rw [abs_of_nonpos (by omega)]; omega
  · have q0 := s4 h
    have hA : |tx - cx| = -(tx - cx) := abs_of_nonpos h
    rw [abs_of_nonpos q0] at s1
    rw [hA] at s2 ⊢
    rw [wrap_of_isInt (by unfold IsInt; omega)]
    refine ⟨?_, ?_, s0, s2⟩
    · rw [abs_of_nonneg (by omega)]; omega
    · rw [abs_of_nonneg (by omega)]; omega

/-- C24 (as amended): for points `c != t` with `int` coordinates whose
Manhattan distance `S` is below `2^63`, and `0 <= d <= c.Distance(t)` with
`d * S` below `2^63`, the point `m = c.WalkPartway(t, d)` lies on a shortest
path from `c` to `t` and `d - 2 <= c.Distance(m) <= d`. -/
theorem walkPartway_on_shortest_path (c t : Coord) (d : Int) (hc : c.Wf) (ht : t.Wf)
    (hne : c ≠ t) (hd0 : 0 ≤ d) (hd : d ≤ c.Distance t)
    (hS : manhattan c t < 9223372036854775808)
    (hprod : d * manhattan c t < 9223372036854775808) :
    ∃ m, c.WalkPartway t d = some m ∧ c.Distance m + m.Distance t = c.Distance t ∧
      d - 2 ≤ c.Distance m ∧ c.Distance m ≤ d := by
  have hct : c.Distance t = manhattan c t := Distance_eq_manhattan c t hS
  have htc : t.Distance c = manhattan c t := by
    rw [Distance_eq_manhattan t c (by rw [manhattan_comm]; exact hS), manhattan_comm]
  have hpos : 0 < manhattan c t := by
    have h0 : manhattan c t ≠ 0 := fun e => hne ((manhattan_eq_zero_iff c t).mp e)
    have : 0 ≤ manhattan c t := by unfold manhattan; positivity
    omega
  rw [hct] at hd ⊢
  have hSdef : manhattan c t = |t.X - c.X| + |t.Y - c.Y| + |t.Z - c.Z| := by
    unfold manhattan
    rw [abs_sub_comm c.X, abs_sub_comm c.Y, abs_sub_comm c.Z]
  have nx := abs_nonneg (t.X - c.X)
  have ny := abs_nonneg (t.Y - c.Y)
  have nz := abs_nonneg (t.Z - c.Z)
  generalize manhattan c t = S at *
  obtain ⟨cX, cY, cZ⟩ := hc
  obtain ⟨tX, tY, tZ⟩ := ht
  obtain ⟨x1, x2, x3, x4⟩ := axis_share c.X t.X d _ cX tX hd0 hd hpos (by omega) hS hprod
  obtain ⟨y1, y2, y3, y4⟩ := axis_share c.Y t.Y d _ cY tY hd0 hd hpos (by omega) hS hprod
  obtain ⟨z1, z2, z3, z4⟩ := axis_share c.Z t.Z d _ cZ tZ hd0 hd hpos (by omega) hS hprod
  obtain ⟨lo, hi⟩ := shares_sum d |t.X - c.X| |t.Y - c.Y| |t.Z - c.Z| _ hpos hSdef.symm
  rw [WalkPartway_eq, htc, if_neg (ne_of_gt hpos)]
  refine ⟨_, rfl, ?_⟩
  have hcm : c.Distance ⟨wrap (c.X + quo (wrap (d * wrap (t.X - c.X))) S),
      wrap (c.Y + quo (wrap (d * wrap (t.Y - c.Y))) S),
      wrap (c.Z + quo (wrap (d * wrap (t.Z - c.Z))) S)⟩ =
      d * |t.X - c.X| / S + d * |t.Y - c.Y| / S + d * |t.Z - c.Z| / S := by
    rw [Distance_eq_manhattan]
    · unfold manhattan
      simp only []
      rw [x1, y1, z1]
    · unfold manhattan
      simp only []
      rw [x1, y1, z1]
      omega
  have hmt : Coord.Distance ⟨wrap (c.X + quo (wrap (d * wrap (t.X - c.X))) S),
      wrap (c.Y + quo (wrap (d * wrap (t.Y - c.Y))) S),
      wrap (c.Z + quo (wrap (d * wrap (t.Z - c.Z))) S)⟩ t =
      S - (d * |t.X - c.X| / S + d * |t.Y - c.Y| / S + d * |t.Z - c.Z| / S) := by
    rw [Distance_eq_manhattan]
    · unfold manhattan
      simp only []
      rw [x2, y2, z2]
      omega
    · unfold manhattan
      simp only []
      rw [x2, y2, z2]
      omega
  rw [hcm, hmt]
  exact ⟨by omega, lo, hi⟩

theorem walkPartway_on_shortest_path_witness :
    (⟨0, 0, 0⟩ : Coord) ≠ ⟨3, 3, 3⟩ ∧
    ∃ m, (⟨0, 0, 0⟩ : Coord).WalkPartway ⟨3, 3, 3⟩ 8 = some m ∧
      (⟨0, 0, 0⟩ : Coord).Distance m + m.Distance ⟨3, 3, 3⟩ =
        (⟨0, 0, 0⟩ : Coord).Distance ⟨3, 3, 3⟩ ∧
      8 - 2 ≤ (⟨0, 0, 0⟩ : Coord).Distance m ∧ (⟨0, 0, 0⟩ : Coord).Distance m ≤ 8 :=
  ⟨by decide,
   walkPartway_on_shortest_path ⟨0, 0, 0⟩ ⟨3, 3, 3⟩ 8 (by decide) (by decide) (by decide)
     (by decide) (by decide) (by decide) (by decide)⟩

/-- C24 (as stated) fails: with `c = (0,0,0)`, `t = (2^32,0,0)` and `d = 2^32`
the product `d*xDelta` overflows to `0`, `WalkPartway` returns `c` itself and
`c.Distance(m) = 0` is below `d - 2`. -/
theorem walkPartway_overflows :
    (⟨0, 0, 0⟩ : Coord) ≠ ⟨4294967296, 0, 0⟩ ∧ (0 : Int) ≤ 4294967296 ∧
    4294967296 ≤ (⟨0, 0, 0⟩ : Coord).Distance ⟨4294967296, 0, 0⟩ ∧
    (⟨0, 0, 0⟩ : Coord).WalkPartway ⟨4294967296, 0, 0⟩ 4294967296 = some ⟨0, 0, 0⟩ ∧
    ¬ (4294967296 - 2 ≤ (⟨0, 0, 0⟩ : Coord).Distance ⟨0, 0, 0⟩) := by
  decide

theorem Search.scans_of_pass (drones : DroneList) (o : Order) (s s' : Search)
    (h : Search.Pass drones o s s') :
    (s.scans o = [] ∧ s'.ranges = s.ranges ∧ s'.highScore = s.highScore) ∨
    ∃ c rest p, o.work s.worklist = c :: rest ∧ GoMap.get s.ranges c.Loc = 0 ∧
      probe drones c.Loc s.ranges = some p ∧ s.scans o = [c.Loc] ∧ s'.ranges = p.ranges ∧
      ((GoMap.get p.ranges c.Loc < wrap (s.highScore - 2) ∧ s'.highScore = s.highScore) ∨
       (¬ GoMap.get p.ranges c.Loc < wrap (s.highScore - 2) ∧
        s'.highScore = if GoMap.get p.ranges c.Loc > s.highScore then GoMap.get p.ranges c.Loc
          else s.highScore)) := by
  cases h with
  | skip c rest hw hr =>
    left
    simp [Search.scans, hw, hr]
  | prune c rest p hw hr hp hlow =>
    right
    exact ⟨c, rest, p, hw, hr, hp, by simp [Search.scans, hw, hr], rfl, Or.inl ⟨hlow, rfl⟩⟩
  | expand c rest p hw hr hp hlow =>
    right
    exact ⟨c, rest, p, hw, hr, hp, by simp [Search.scans, hw, hr], rfl, Or.inr ⟨hlow, rfl⟩⟩

theorem Search.tally_pass (drones : DroneList) (o : Order) (s s' : Search) (done : List Coord)
    (hinv : Search.Tally drones s done) (h : Search.Pass drones o s s') :
    Search.Tally drones s' (done ++ s.scans o) := by
  obtain ⟨t0, t1, t2, t3⟩ := hinv
  rcases Search.scans_of_pass drones o s s' h with ⟨e1, e2, e3⟩ | 
    ⟨c, rest, p, hw, hr, hp, e1, e2, e3⟩
  · rw [e1, List.append_nil]
    unfold Search.Tally
    rw [e2, e3]
    exact ⟨t0, t1, t2, t3⟩
  · obtain ⟨f1, f2, -, -⟩ := probe_spec _ _ _ _ hp
    rw [hr, zero_add] at f1
    have hnn := inRange_nonneg c.Loc drones
    -- the score of a location scanned before is not changed
    have hold : ∀ loc ∈ done, GoMap.get p.ranges loc = GoMap.get s.ranges loc := by
      intro loc hloc
      by_cases hk : loc = c.Loc
      · subst hk
        rw [f1, ← t1 _ hloc]
      · exact f2 loc hk
    have hnew : ∀ loc ∈ done ++ [c.Loc],
        GoMap.get p.ranges loc = DroneList.InRange drones loc := by
      intro loc hloc
      rcases List.mem_append.mp hloc with hl | hl
      · rw [hold loc hl]; exact t1 loc hl
      · rw [List.mem_singleton] at hl
        subst hl; exact f1
    rw [e1]
    unfold Search.Tally
    rw [e2]
    rcases e3 with ⟨hlow, e3⟩ | ⟨hlow, e3⟩
    · have hlt : GoMap.get p.ranges c.Loc < s.highScore - 2 := by
        unfold wrap at hlow; omega
      rw [e3]
      refine ⟨t0, hnew, ?_, ?_⟩
      · intro loc hloc
        rcases List.mem_append.mp hloc with hl | hl
        · rw [hold loc hl]; exact t2 loc hl
        · rw [List.mem_singleton] at hl
          subst hl; omega
      · right
        rcases t3 with ⟨-, h0⟩ | ⟨loc, hloc, hv⟩
        · omega
        · exact ⟨loc, List.mem_append_left _ hloc, by rw [hold loc hloc]; exact hv⟩
    · rw [e3]
      by_cases hgt : GoMap.get p.ranges c.Loc > s.highScore
      · simp only [hgt, if_true]
        refine ⟨by omega, hnew, ?_, ?_⟩
        · intro loc hloc
          rcases List.mem_append.mp hloc with hl | hl
          · rw [hold loc hl]
            have := t2 loc hl
            omega
          · rw [List.mem_singleton] at hl
            subst hl; exact le_refl _
        · exact Or.inr ⟨c.Loc, by simp, rfl⟩
      · simp only [hgt, if_false]
        refine ⟨t0, hnew, ?_, ?_⟩
        · intro loc hloc
          rcases List.mem_append.mp hloc with hl | hl
          · rw [hold loc hl]; exact t2 loc hl
          · rw [List.mem_singleton] at hl
            subst hl; omega
        · right
          rcases t3 with ⟨-, h0⟩ | ⟨loc, hloc, hv⟩
          · exact ⟨c.Loc, by simp, by omega⟩
          · exact ⟨loc, List.mem_append_left _ hloc, by rw [hold loc hloc]; exact hv⟩

theorem Search.tally_run (drones : DroneList) (orders : List Order) (s s' : Search)
    (done : List Coord) (hinv : Search.Tally drones s done)
    (h : Search.run drones s orders = some s') :
    Search.Tally drones s' (done ++ Search.scanned drones s orders) := by
  induction orders generalizing s done with
  | nil =>
    simp only [Search.run, Option.some.injEq] at h
    subst h
    simpa [Search.scanned] using hinv
  | cons o orders ih =>
    unfold Search.run at h
    unfold Search.scanned
    split at h
    · rename_i hw
      simp only [Option.some.injEq] at h
      subst h
      simpa [hw] using hinv
    · rename_i hw
      cases h1 : s.step drones o with
      | none => simp [h1] at h
      | some s1 =>
        simp only [h1] at h
        simp only [hw, if_false]
        have := ih s1 (done ++ s.scans o)
          (Search.tally_pass drones o s s1 done hinv (Search.pass_of_step _ _ _ _ h1)) h
        rwa [List.append_assoc] at this

theorem Search.prints_true (drones : DroneList) (o : Order) (s : Search) :
    ∀ line ∈ s.prints drones o, line.2 = DroneList.InRange drones line.1 := by
  intro line hl
  unfold Search.prints at hl
  split at hl
  · simp at hl
  · rename_i c rest hw
    split at hl
    · simp at hl
    · rename_i hr
      simp only [ne_eq, not_not] at hr
      split at hl
      · simp at hl
      · rename_i p hp
        obtain ⟨f1, -, -, -⟩ := probe_spec _ _ _ _ hp
        rw [hr, zero_add] at f1
        simp only [] at hl
        split at hl
        · simp at hl
        · split at hl
          · rw [List.mem_singleton] at hl
            subst hl
            exact f1
          · simp at hl

theorem Search.printed_true (drones : DroneList) (orders : List Order) (s : Search) :
    ∀ line ∈ Search.printed drones s orders, line.2 = DroneList.InRange drones line.1 := by
  induction orders generalizing s with
  | nil => simp [Search.printed]
  | cons o orders ih =>
    intro line hl
    unfold Search.printed at hl
    split at hl
    · simp at hl
    · split at hl
      · simp at hl
      · rename_i s1 h1
        rcases List.mem_append.mp hl with h | h
        · exact Search.prints_true drones o s line h
        · exact ih s1 line h

theorem Search.tally_init (drones : DroneList) (seeds : List (Coord × Int)) :
    Search.Tally drones (Search.init seeds) [] :=
  ⟨le_refl _, by simp, by simp, Or.inl ⟨rfl, rfl⟩⟩

/-- C26: in a run of the loop of lines 152-196 from its start, after any
number of passes, `ranges[loc]` is `drones.InRange(loc)` for every location
`loc` scanned so far, `highScore` is the greatest of these values (`0` when no
location has been scanned), and every line `Iteratively guessed loc: in range
of n` printed so far has `n = drones.InRange(loc)`. -/
theorem ranges_and_highScore_true (drones : DroneList) (seeds : List (Coord × Int))
    (orders : List Order) (s : Search)
    (h : Search.run drones (Search.init seeds) orders = some s) :
    (∀ loc ∈ Search.scanned drones (Search.init seeds) orders,
      GoMap.get s.ranges loc = DroneList.InRange drones loc) ∧
    (∀ loc ∈ Search.scanned drones (Search.init seeds) orders,
      GoMap.get s.ranges loc ≤ s.highScore) ∧
    ((Search.scanned drones (Search.init seeds) orders = [] ∧ s.highScore = 0) ∨
      ∃ loc ∈ Search.scanned drones (Search.init seeds) orders,
        GoMap.get s.ranges loc = s.highScore) ∧
    (∀ line ∈ Search.printed drones (Search.init seeds) orders,
      line.2 = DroneList.InRange drones line.1) := by
  have := Search.tally_run drones orders _ s [] (Search.tally_init drones seeds) h
  rw [List.nil_append] at this
  exact ⟨this.2.1, this.2.2.1, this.2.2.2, Search.printed_true drones orders _⟩

/-- C23: the drone `pos=<3,3,3>, r=2` is not in range of `(0,0,0)`, and the
candidate `WalkPartway` returns from `(0,0,0)`, which the first pass of the
worklist loop adds for the drones of `farDrones`, is `(2,2,2)`: at distance
`3` from the drone, out of its range. -/
theorem candidate_out_of_range :
    (0 : Int) ≤ (⟨⟨3, 3, 3⟩, 2⟩ : Drone).Power ∧
    (⟨⟨3, 3, 3⟩, 2⟩ : Drone).InRange ⟨0, 0, 0⟩ = false ∧
    (⟨0, 0, 0⟩ : Coord).WalkPartway ⟨3, 3, 3⟩
      (wrap (Drone.DistanceToRange ⟨⟨3, 3, 3⟩, 2⟩ ⟨0, 0, 0⟩ + 1)) = some ⟨2, 2, 2⟩ ∧
    (⟨⟨3, 3, 3⟩, 2⟩ : Drone).InRange ⟨2, 2, 2⟩ = false ∧
    (Search.run farDrones (Search.init (scan farDrones).seeds) [Order.insertion]).map
      (fun s => s.worklist) = some [⟨⟨3, 3, 3⟩, 1⟩, ⟨⟨2, 2, 2⟩, 2⟩] := by
  decide

/-- C25 (as amended): `WalkPartway` divides by `t.Distance(c)` as the code
computes it, which is the Manhattan distance of `c` and `t` and is zero
exactly when `c = t` provided that distance is below `2^63`; when every drone
has a non-negative power, no call of `WalkPartway` in the worklist loop
divides by zero: the scan of a location and the pass of the loop do not
panic. -/
theorem walkPartway_divisor (drones : DroneList) (hpow : ∀ d ∈ drones, 0 ≤ d.Power) :
    (∀ (c t : Coord) (d : Int),
      c.WalkPartway t d =
        if t.Distance c = 0 then none
        else
          some ⟨wrap (c.X + quo (wrap (d * wrap (t.X - c.X))) (t.Distance c)),
                wrap (c.Y + quo (wrap (d * wrap (t.Y - c.Y))) (t.Distance c)),
                wrap (c.Z + quo (wrap (d * wrap (t.Z - c.Z))) (t.Distance c))⟩) ∧
    (∀ c t : Coord, manhattan c t < 9223372036854775808 →
      t.Distance c = manhattan c t ∧ (t.Distance c = 0 ↔ c = t)) ∧
    (∀ (d : Drone) (loc : Coord), d ∈ drones → d.InRange loc = false →
      ∀ w, loc.WalkPartway d.Loc w ≠ none) ∧
    (∀ loc ranges, ∃ p, probe drones loc ranges = some p) ∧
    (∀ (s : Search) (o : Order), (o.work s.worklist).Perm s.worklist → s.worklist ≠ [] →
      ∃ s', s.step drones o = some s') := by
  refine ⟨WalkPartway_eq, ?_, ?_, probe_isSome drones hpow, ?_⟩
  · intro c t h
    have e : t.Distance c = manhattan c t := by
      rw [Distance_eq_manhattan t c (by rw [manhattan_comm]; exact h), manhattan_comm]
    exact ⟨e, by rw [e]; exact manhattan_eq_zero_iff c t⟩
  · intro d loc hd hin w
    rw [Ne, WalkPartway_eq_none_iff]
    intro h0
    have hp := hpow d hd
    unfold Drone.InRange at hin
    rw [h0] at hin
    simp [hp] at hin
  · intro s o hperm hne
    exact Search.step_isSome drones hpow o s hperm hne

theorem walkPartway_divisor_witness :
    (∀ d ∈ farDrones, 0 ≤ d.Power) ∧
    (∀ (d : Drone) (loc : Coord), d ∈ farDrones → d.InRange loc = false →
      ∀ w, loc.WalkPartway d.Loc w ≠ none) ∧
    (∀ loc ranges, ∃ p, probe farDrones loc ranges = some p) :=
  ⟨by decide, (walkPartway_divisor farDrones (by decide)).2.2.1,
    (walkPartway_divisor farDrones (by decide)).2.2.2.1⟩

/-- C25 (as stated) fails: for `c = (0,0,0)` and `t = (-2^63,-2^63,0)` the
sum of the absolute differences overflows to `0`, so `WalkPartway` divides by
zero although `c` and `t` differ. -/
theorem walkPartway_divides_by_zero_apart :
    (⟨0, 0, 0⟩ : Coord) ≠ ⟨-9223372036854775808, -9223372036854775808, 0⟩ ∧
    (⟨-9223372036854775808, -9223372036854775808, 0⟩ : Coord).Wf ∧
    (⟨0, 0, 0⟩ : Coord).WalkPartway ⟨-9223372036854775808, -9223372036854775808, 0⟩ 1 =
      none := by
  decide

theorem ranges_and_highScore_true_witness :
    Search.run overlapDrones (Search.init (scan overlapDrones).seeds)
        (List.replicate 4 Order.insertion) =
      some ⟨[(⟨0, 0, 0⟩, 1), (⟨1, 1, 1⟩, 1)], [], 1⟩ ∧
    (∀ loc ∈ Search.scanned overlapDrones (Search.init (scan overlapDrones).seeds)
        (List.replicate 4 Order.insertion),
      GoMap.get [((⟨0, 0, 0⟩ : Coord), (1 : Int)), (⟨1, 1, 1⟩, 1)] loc =
        DroneList.InRange overlapDrones loc) :=
  ⟨by decide,
   (ranges_and_highScore_true overlapDrones (scan overlapDrones).seeds
     (List.replicate 4 Order.insertion) ⟨[(⟨0, 0, 0⟩, 1), (⟨1, 1, 1⟩, 1)], [], 1⟩
     (by decide)).1⟩

/-- C27: on the drones `pos=<0,0,0>, r=2` and `pos=<3,3,3>, r=2` the first
five passes of the worklist loop scan the drones of `(0,0,0)`, `(2,2,2)`,
`(3,3,3)`, `(1,1,1)` and then `(2,2,2)` again: the location `(2,2,2)`, in
range of no drone, has no entry in `ranges` and is scanned a second time. -/
theorem location_scanned_twice :
    Search.scanned farDrones (Search.init (scan farDrones).seeds)
        (List.replicate 5 Order.insertion) =
      [⟨0, 0, 0⟩, ⟨2, 2, 2⟩, ⟨3, 3, 3⟩, ⟨1, 1, 1⟩, ⟨2, 2, 2⟩] ∧
    DroneList.InRange farDrones ⟨2, 2, 2⟩ = 0 := by
  decide

/-- C28: in every pass of the worklist loop, whatever `sort.Slice` returns,
the candidate taken at line 157 is one of the worklist and no candidate of the
worklist has a greater `Quality`. -/
theorem taken_has_greatest_quality (s : Search) (o : Order) (ho : o.Valid)
    (hne : s.worklist ≠ []) :
    ∃ c, s.taken o = some c ∧ c ∈ s.worklist ∧ ∀ x ∈ s.worklist, x.Quality ≤ c.Quality := by
  obtain ⟨hperm, hsorted⟩ := ho.1 s.worklist
  unfold Search.taken
  cases hw : o.work s.worklist with
  | nil =>
    rw [hw] at hperm
    exact absurd hperm.symm.eq_nil hne
  | cons c rest =>
    rw [hw] at hperm hsorted
    refine ⟨c, rfl, hperm.mem_iff.mp (List.mem_cons_self _ _), ?_⟩
    intro x hx
    rcases List.mem_cons.mp (hperm.mem_iff.mpr hx) with rfl | hx
    · exact le_refl _
    · have := (List.pairwise_cons.mp hsorted).1 x hx
      simpa using this

theorem taken_has_greatest_quality_witness :
    (⟨[], [⟨⟨3, 3, 3⟩, 1⟩, ⟨⟨2, 2, 2⟩, 2⟩], 1⟩ : Search).worklist ≠ [] ∧
    ∃ c, (⟨[], [⟨⟨3, 3, 3⟩, 1⟩, ⟨⟨2, 2, 2⟩, 2⟩], 1⟩ : Search).taken Order.insertion = some c ∧
      c ∈ (⟨[], [⟨⟨3, 3, 3⟩, 1⟩, ⟨⟨2, 2, 2⟩, 2⟩], 1⟩ : Search).worklist ∧
      ∀ x ∈ (⟨[], [⟨⟨3, 3, 3⟩, 1⟩, ⟨⟨2, 2, 2⟩, 2⟩], 1⟩ : Search).worklist,
        x.Quality ≤ c.Quality :=
  ⟨by decide,
   taken_has_greatest_quality ⟨[], [⟨⟨3, 3, 3⟩, 1⟩, ⟨⟨2, 2, 2⟩, 2⟩], 1⟩ Order.insertion
     Order.insertion_valid (by decide)⟩

/-- C29: for the single drone `pos=<10000000000000,0,0>, r=0` the worklist
search ends with `highScore = 1`, the loop of lines 198-209 chooses no
location and leaves `s = (0,0,0)`, in range of no drone; the first walk of the
refinement ends with `drones.InRange(s) = 0` and `highScore = 1`, and the
program reports `(0,0,0)`. -/
theorem refinement_starts_off_best :
    readDrones "pos=<10000000000000,0,0>, r=0\n".toList = some loneDrone ∧
    Search.run loneDrone (Search.init (scan loneDrone).seeds) [Order.insertion] =
      some ⟨[(⟨10000000000000, 0, 0⟩, 1)], [], 1⟩ ∧
    lowest 1 [(⟨10000000000000, 0, 0⟩, 1)] = (9999999999999, ⟨0, 0, 0⟩) ∧
    walkAxis loneDrone 0 1 2 0 ⟨⟨0, 0, 0⟩, 1, false⟩ = some ⟨⟨0, 0, 0⟩, 1, false⟩ ∧
    solution loneDrone (Choices.plain 1) 2 = some ⟨0, 0, 0⟩ ∧
    DroneList.InRange loneDrone ⟨0, 0, 0⟩ = 0 ∧
    DroneList.InRange loneDrone ⟨10000000000000, 0, 0⟩ = 1 := by
  decide

/-- What follows the last newline of the input is not returned as a line. -/
theorem readLines_of_not_mem (l : List Char) (hl : '\n' ∉ l) : readLines l = [] := by
  induction l with
  | nil => rfl
  | cons c l ih =>
    have hc : c ≠ '\n' := fun e => hl (by simp [e])
    have hl2 : '\n' ∉ l := fun e => hl (List.mem_cons_of_mem _ e)
    have e : readLines (c :: l) =
        if c = '\n' then [c] :: readLines l
        else
          match readLines l with
          | [] => []
          | l :: ls => (c :: l) :: ls := rfl
    rw [e, if_neg hc, ih hl2]

theorem readLines_droneLines_append (ds : DroneList) (last : List Char) (hl : '\n' ∉ last) :
    readLines (ds.flatMap (fun d => droneLine d ++ ['\n']) ++ last) =
      ds.map (fun d => droneLine d ++ ['\n']) := by
  induction ds with
  | nil => simpa using readLines_of_not_mem last hl
  | cons d ds ih =>
    simp only [List.flatMap_cons, List.map_cons, List.append_assoc, List.singleton_append,
      List.cons_append]
    rw [readLines_append _ _ (not_mem_droneLine d), List.nil_append, ih]

/-- C30 (as amended): for drones whose fields are Go `int`s, the text made of
their lines `pos=<x,y,z>, r=p`, each ended by a newline, and followed by any
text `last` without a newline, is parsed into exactly these drones: one drone
for every line that ends with a newline, and what follows the last newline is
not parsed. -/
theorem readDrones_newline_ended (ds : DroneList) (last : List Char) (h : ∀ d ∈ ds, d.Wf)
    (hl : '\n' ∉ last) :
    readDrones (ds.flatMap (fun d => droneLine d ++ ['\n']) ++ last) = some ds := by
  unfold readDrones
  rw [readLines_droneLines_append ds last hl, parseLines_droneLines ds [] h]
  simp

theorem readDrones_newline_ended_witness :
    '\n' ∉ droneLine ⟨⟨3, 3, 3⟩, 2⟩ ∧
    readDrones (([⟨⟨0, 0, 0⟩, 2⟩] : DroneList).flatMap (fun d => droneLine d ++ ['\n']) ++
      droneLine ⟨⟨3, 3, 3⟩, 2⟩) = some [⟨⟨0, 0, 0⟩, 2⟩] :=
  ⟨not_mem_droneLine _,
   readDrones_newline_ended [⟨⟨0, 0, 0⟩, 2⟩] (droneLine ⟨⟨3, 3, 3⟩, 2⟩) (by decide)
     (not_mem_droneLine _)⟩

/-- C30 (as stated) fails: the text of the two lines `pos=<0,0,0>, r=2` and
`pos=<3,3,3>, r=2`, the second without a final newline, is parsed into one
drone, and the text of the single line `pos=<3,3,3>, r=2` without a newline
into none. -/
theorem readDrones_drops_last_line :
    IsDroneLine "pos=<0,0,0>, r=2".toList ∧ IsDroneLine "pos=<3,3,3>, r=2".toList ∧
    readDrones "pos=<0,0,0>, r=2\npos=<3,3,3>, r=2".toList = some [⟨⟨0, 0, 0⟩, 2⟩] ∧
    readDrones "pos=<3,3,3>, r=2".toList = some [] := by
  refine ⟨⟨⟨⟨0, 0, 0⟩, 2⟩, ?_⟩, ⟨⟨⟨3, 3, 3⟩, 2⟩, ?_⟩, by decide, by decide⟩
  · simp [droneLine, strconv.showInt, strconv.showNat, strconv.digitChar]
  · simp [droneLine, strconv.showInt, strconv.showNat, strconv.digitChar]

end Day23
